import Mathlib

/-!
Verification of the bipartite-matching max-flow engine (Graph.cpp /
FordFulkerson.cpp).  The capacity matrix is embedded as a list of rows of
integers, mirroring the C++ `std::vector<std::vector<int>>`; node indices
that may be negative in C++ (`int` parameters subject to `< 0` range
checks) are taken as `Int` at the checked entry points and as `Nat`
internally.  BFS depths are embedded as `Option Nat` (`none` standing for
the C++ sentinel `-1`); the only arithmetic the source performs on a
depth is `depth[v] + 1`, captured by `optSucc`.  Loops whose termination
the source does not make syntactically obvious take an explicit fuel
argument; exhausted fuel is reported as the distinct error `Err.fuelOut`,
and sufficiency of the fuel actually supplied is proved where needed.
C++ exceptions mutate nothing after the throw point, so every operation
returns its (possibly partially mutated) state together with an optional
error, mirroring the reference semantics of the original code.
-/

namespace NetFlow

/-- Capacity matrix: list of rows, as in the C++ vector of vectors. -/
abbrev Mat := List (List Int)

/-- Read entry `i j` of a matrix, defaulting to `0` outside the lists. -/
def matGet (m : Mat) (i j : Nat) : Int := (m.getD i []).getD j 0

/-- Write entry `i j` of a matrix (no-op outside the lists, like
`List.set`; the source always writes in bounds). -/
def matSet (m : Mat) (i j : Nat) (v : Int) : Mat :=
  m.set i ((m.getD i []).set j v)

/-- The `Graph` class: `nodes` is the partition size read from the input,
the adjacency matrix spans `nodes + 2` vertices (source and sink added). -/
structure Graph where
  nodes : Nat
  adjacencyMatrix : Mat
  deriving DecidableEq

namespace Graph

/-- Constructor `Graph(nodes)`: `totalNodes = nodes + 2`, matrix
zero-initialised (`initializeAdjacencyMatrix`). -/
def mkNew (nodes : Nat) : Graph :=
  ⟨nodes, List.replicate (nodes + 2) (List.replicate (nodes + 2) 0)⟩

/-- Accessor `getNodes`: returns `totalNodes = nodes + 2`. -/
def getNodes (g : Graph) : Nat := g.nodes + 2

/-- `createEdge(node1, node2, maxFlow)`: overwrite
`adjacencyMatrix[node1][node2] = maxFlow`. -/
def createEdge (g : Graph) (node1 node2 : Nat) (maxFlow : Int) : Graph :=
  { g with adjacencyMatrix := matSet g.adjacencyMatrix node1 node2 maxFlow }

/-- `createSourceNode(source)`: connect the source to nodes
`1 .. nodes/2` with capacity 1. -/
def createSourceNode (g : Graph) (source : Nat) : Graph :=
  (List.range' 1 (g.nodes / 2)).foldl (fun h i => h.createEdge source i 1) g

/-- `createSinkNode(sink)`: connect nodes `nodes/2 + 1 .. nodes` to the
sink with capacity 1. -/
def createSinkNode (g : Graph) (sink : Nat) : Graph :=
  (List.range' (g.nodes / 2 + 1) (g.nodes - g.nodes / 2)).foldl
    (fun h i => h.createEdge i sink 1) g

/-- `connectSourceAndSinkNodes(source, sink)`. -/
def connectSourceAndSinkNodes (g : Graph) (source sink : Nat) : Graph :=
  (g.createSourceNode source).createSinkNode sink

/-- `findAdjacentNodes(node)`: all `i < totalNodes` with
`adjacencyMatrix[node][i] > 0`, in ascending index order. -/
def findAdjacentNodes (g : Graph) (node : Nat) : List Nat :=
  (List.range g.getNodes).filter (fun i => 0 < matGet g.adjacencyMatrix node i)

/-- `printResults`: the pairs `(i, n)` with `1 ≤ i ≤ nodes/2`,
`nodes/2 + 1 ≤ n ≤ nodes` and `adjacencyMatrix[n][i] == 1`, in the
iteration order of the two nested loops; the printed match count is the
length of this list.  The C++ method is `const`: it does not mutate the
graph, which the embedding reflects by returning only the pair list. -/
def printResults (g : Graph) : List (Nat × Nat) :=
  (List.range' 1 (g.nodes / 2)).flatMap (fun i =>
    ((List.range' (g.nodes / 2 + 1) (g.nodes - g.nodes / 2)).filter
      (fun n => matGet g.adjacencyMatrix n i = 1)).map (fun n => (i, n)))

end Graph

/-- Error conditions of the engine: `invalidArgument` for the
source/sink range check in `calculateMaxFlow`, `outOfRange` for the
range check in `updateResidualGraph`, `fuelOut` marks exhausted fuel of
the embedding (never produced by runs whose termination is proved). -/
inductive Err where
  | invalidArgument
  | outOfRange
  | fuelOut
  deriving DecidableEq

/-- `updateResidualGraph(src, dst)`: range-check both indices (failing
with an out-of-range error before any mutation), then
`adjacencyMatrix[dst][src] += 1; adjacencyMatrix[src][dst] -= 1`. -/
def updateResidualGraph (g : Graph) (src dst : Int) : Graph × Option Err :=
  if src < 0 ∨ (g.getNodes : Int) ≤ src ∨ dst < 0 ∨ (g.getNodes : Int) ≤ dst then
    (g, some Err.outOfRange)
  else
    let s := src.toNat
    let d := dst.toNat
    let m1 := matSet g.adjacencyMatrix d s (matGet g.adjacencyMatrix d s + 1)
    let m2 := matSet m1 s d (matGet m1 s d - 1)
    ({ g with adjacencyMatrix := m2 }, none)

/-- `clearMaxFlowAtNode(node)`: zero `maxFlow[i][node]` for every
`i < totalNodes` in the phase snapshot. -/
def clearMaxFlowAtNode (g : Graph) (mF : Mat) (node : Nat) : Mat :=
  (List.range g.getNodes).foldl (fun m i => matSet m i node 0) mF

/-- The bottleneck computation of `augmentFlowAlongPath`: minimum of the
snapshot capacities over consecutive pairs of the path, starting from
`INT_MAX`.  The source computes this value and then ignores it. -/
def pathFlow (mF : Mat) (path : List Nat) : Int :=
  (path.zip path.tail).foldl
    (fun acc uv => min acc (matGet mF uv.1 uv.2)) 2147483647

/-- The commit loop of `augmentFlowAlongPath`: apply
`updateResidualGraph` to each consecutive pair of the path in order,
stopping at the first error (the C++ exception propagates, leaving the
updates already made in place). -/
def commitPath (g : Graph) (path : List Nat) : Graph × Option Err :=
  match path with
  | u :: v :: rest =>
    (match updateResidualGraph g (u : Int) (v : Int) with
     | (g1, none) => commitPath g1 (v :: rest)
     | (g1, some e) => (g1, some e))
  | _ => (g, none)

/-- Successor of a BFS depth, as the C++ computes `depth[current] + 1`
on the `-1`-sentinel representation: `-1 + 1 = 0`. -/
def optSucc : Option Nat → Option Nat
  | none => some 0
  | some d => some (d + 1)

/-- Inner loop of `levelGraph`: scan the adjacent nodes of
`current`; each unvisited one with positive capacity gets depth
`depth[current] + 1`; the instant the sink is assigned, stop with
`true` (the remaining adjacents and the queue are abandoned);
otherwise append the node to the BFS queue. -/
def visitAdjacents (g : Graph) (sink : Nat) (current : Nat) :
    List Nat → List (Option Nat) → List Nat →
    List (Option Nat) × List Nat × Bool
  | [], depth, queue => (depth, queue, false)
  | a :: rest, depth, queue =>
    if depth.getD a none = none ∧ 0 < matGet g.adjacencyMatrix current a then
      let depth2 := depth.set a (optSucc (depth.getD current none))
      if a = sink then (depth2, queue, true)
      else visitAdjacents g sink current rest depth2 (queue ++ [a])
    else visitAdjacents g sink current rest depth queue

/-- Outer loop of `levelGraph`: process the BFS queue front to back.
`fuel` bounds the number of dequeues; `levelGraph` supplies
`totalNodes + 2`, proved sufficient below (each iteration either
shortens the queue or flips unvisited entries to visited). -/
def bfsLoop (g : Graph) (sink : Nat) :
    Nat → List (Option Nat) → List Nat → Option (List (Option Nat) × Bool)
  | 0, _, _ => none
  | _ + 1, depth, [] => some (depth, false)
  | fuel + 1, depth, current :: rest =>
    match visitAdjacents g sink current (g.findAdjacentNodes current) depth rest with
    | (depth2, _, true) => some (depth2, true)
    | (depth2, queue2, false) => bfsLoop g sink fuel depth2 queue2

/-- `levelGraph(source, sink)`: depths all `-1` (`none`), source at
depth 0 and enqueued, then BFS; returns the final depth vector and
whether the sink was reached.  Fuel `totalNodes + 2` is proved
sufficient by `bfsLoop_init_isSome` below. -/
def levelGraphO (g : Graph) (source sink : Nat) :
    Option (List (Option Nat) × Bool) :=
  bfsLoop g sink (g.getNodes + 2)
    ((List.replicate g.getNodes (none : Option Nat)).set source (some 0))
    [source]

/-- Total version of `levelGraph` (the fuel never runs out, see
`levelGraphO_eq_some`). -/
def levelGraph (g : Graph) (source sink : Nat) : List (Option Nat) × Bool :=
  (levelGraphO g source sink).getD
    ((List.replicate g.getNodes (none : Option Nat)).set source (some 0), false)

/-- Mutable state of one `findAugmentingPath` search: the cursor
(`node` in the source), the partial path, the backtracking flag and the
phase snapshot `maxFlow` (a member of the C++ class, threaded here). -/
structure SearchSt where
  node : Nat
  path : List Nat
  backtracking : Bool
  mF : Mat
  deriving DecidableEq

/-- The neighbor scan of `findNextNodeInPath`: first adjacent node (of
the real graph) at the next depth level with positive snapshot
capacity. -/
def findFirstAdmissible (g : Graph) (depth : List (Option Nat)) (mF : Mat)
    (node : Nat) : Option Nat :=
  (g.findAdjacentNodes node).find? (fun neighbor =>
    optSucc (depth.getD node none) = depth.getD neighbor none ∧
      0 < matGet mF node neighbor)

/-- `findNextNodeInPath`: append the cursor to the path unless
backtracking; advance to the first admissible neighbor if any;
otherwise fail if at the source, or prune the dead end (zero its
incoming snapshot column), pop it off the path, return to the
predecessor with the backtracking flag set.  The boolean is the C++
return value (`false` means the search for a path failed). -/
def findNextNodeInPath (g : Graph) (depth : List (Option Nat)) (source : Nat)
    (st : SearchSt) : SearchSt × Bool :=
  let path1 := if st.backtracking then st.path else st.path ++ [st.node]
  match findFirstAdmissible g depth st.mF st.node with
  | some v => (⟨v, path1, false, st.mF⟩, true)
  | none =>
    if st.node = source then (⟨st.node, path1, false, st.mF⟩, false)
    else
      let mF2 := clearMaxFlowAtNode g st.mF st.node
      let path2 := path1.dropLast
      let node2 := match path2.getLast? with
        | some x => x
        | none => st.node
      (⟨node2, path2, true, mF2⟩, true)

/-- The `while (currentNode != sink)` loop of `findAugmentingPath`:
step with `findNextNodeInPath`; on a failed step report no path; the
moment the cursor reaches the sink, append the sink to the path and
report success.  `fuel` bounds the number of steps. -/
def searchLoop (g : Graph) (depth : List (Option Nat)) (source sink : Nat) :
    Nat → SearchSt → Option (SearchSt × Bool)
  | 0, _ => none
  | fuel + 1, st =>
    match findNextNodeInPath g depth source st with
    | (st2, false) => some (st2, false)
    | (st2, true) =>
      if st2.node = sink then
        some (⟨st2.node, st2.path ++ [sink], st2.backtracking, st2.mF⟩, true)
      else searchLoop g depth source sink fuel st2

/-- `findAugmentingPath(path, source, sink)`: the call sites always
pass a freshly cleared path, so the search starts from
`cursor = source`, empty path, not backtracking.  When
`source == sink` the while loop body never runs and the function
returns `false` with nothing mutated. -/
def findAugmentingPath (g : Graph) (depth : List (Option Nat)) (mF : Mat)
    (source sink : Nat) (fuel : Nat) : Option (SearchSt × Bool) :=
  if source = sink then some (⟨source, [], false, mF⟩, false)
  else searchLoop g depth source sink fuel ⟨source, [], false, mF⟩

/-- Engine state threaded through `calculateMaxFlow`: the real graph,
the `depth` member, the `maxFlow` phase snapshot member, and a ghost
counter of committed augmenting paths (each pushes exactly one unit);
the counter instruments the embedding and influences nothing. -/
structure FFState where
  graph : Graph
  depth : List (Option Nat)
  maxFlow : Mat
  pushed : Nat
  deriving DecidableEq

/-- The `while (findAugmentingPath(...))` loop of
`augmentFlowAlongPath`: search, and on success compute the (unused)
bottleneck `pathFlow`, commit the path pair by pair on the real graph,
clear the path, and repeat.  `sfuel` bounds each search, `fuel` the
number of searches. -/
def augmentLoop (source sink : Nat) (sfuel : Nat) :
    Nat → FFState → FFState × Option Err
  | 0, st => (st, some Err.fuelOut)
  | fuel + 1, st =>
    match findAugmentingPath st.graph st.depth st.maxFlow source sink sfuel with
    | none => (st, some Err.fuelOut)
    | some (s2, false) => ({ st with maxFlow := s2.mF }, none)
    | some (s2, true) =>
      let _bottleneck := pathFlow s2.mF s2.path
      match commitPath st.graph s2.path with
      | (g2, none) =>
        augmentLoop source sink sfuel fuel
          { graph := g2, depth := st.depth, maxFlow := s2.mF,
            pushed := st.pushed + 1 }
      | (g2, some e) =>
        let st2 : FFState :=
          { graph := g2, depth := st.depth, maxFlow := s2.mF, pushed := st.pushed }
        (st2, some e)

/-- The phase loop of `calculateMaxFlow`: while `levelGraph` reports
the sink reachable, snapshot the adjacency matrix into `maxFlow` and
run `augmentFlowAlongPath`.  `fuel` bounds the number of phases. -/
def phaseLoop (source sink : Nat) (sfuel afuel : Nat) :
    Nat → FFState → FFState × Option Err
  | 0, st => (st, some Err.fuelOut)
  | fuel + 1, st =>
    match levelGraph st.graph source sink with
    | (depth2, false) => ({ st with depth := depth2 }, none)
    | (depth2, true) =>
      match augmentLoop source sink sfuel afuel
          { graph := st.graph, depth := depth2,
            maxFlow := st.graph.adjacencyMatrix, pushed := st.pushed } with
      | (st2, none) => phaseLoop source sink sfuel afuel fuel st2
      | (st2, some e) => (st2, some e)

/-- `calculateMaxFlow(source, sink)`: fail with `invalidArgument` if
source or sink lies outside `[0, totalNodes)`, before touching
anything; otherwise run the phase loop. -/
def calculateMaxFlow (st : FFState) (source sink : Int)
    (sfuel afuel pfuel : Nat) : FFState × Option Err :=
  if source < 0 ∨ (st.graph.getNodes : Int) ≤ source ∨
      sink < 0 ∨ (st.graph.getNodes : Int) ≤ sink then
    (st, some Err.invalidArgument)
  else
    phaseLoop source.toNat sink.toNat sfuel afuel pfuel st

/-! Basic lemmas about matrix access. -/

theorem length_matSet (m : Mat) (i j : Nat) (v : Int) :
    (matSet m i j v).length = m.length := by
  simp [matSet]

theorem matSet_oob (m : Mat) {i : Nat} (j : Nat) (v : Int)
    (hi : m.length ≤ i) : matSet m i j v = m := by
  simp [matSet, List.set_eq_of_length_le hi]

theorem matGet_matSet_self (m : Mat) {i j : Nat} (v : Int)
    (hi : i < m.length) (hj : j < (m.getD i []).length) :
    matGet (matSet m i j v) i j = v := by
  have hj2 : j < (m[i]?.getD []).length := by
    simpa [List.getD_eq_getElem?_getD] using hj
  simp only [matGet, matSet, List.getD_eq_getElem?_getD,
    List.getElem?_set_self hi, Option.getD_some]
  rw [List.getElem?_set_self hj2]
  rfl

theorem matGet_matSet_ne (m : Mat) {i j iq jq : Nat} (v : Int)
    (h : i ≠ iq ∨ j ≠ jq) :
    matGet (matSet m i j v) iq jq = matGet m iq jq := by
  rcases h with h | h
  · simp [matGet, matSet, List.getD_eq_getElem?_getD, List.getElem?_set_ne h]
  · rcases Decidable.em (i = iq) with rfl | hne
    · rcases Decidable.em (i < m.length) with hlt | hge
      · simp only [matGet, matSet, List.getD_eq_getElem?_getD,
          List.getElem?_set_self hlt, Option.getD_some]
        rw [List.getElem?_set_ne h]
      · rw [matSet_oob m j v (Nat.le_of_not_lt hge)]
    · simp [matGet, matSet, List.getD_eq_getElem?_getD, List.getElem?_set_ne hne]

/-- Row lengths survive `matSet`. -/
theorem row_length_matSet (m : Mat) (i j : Nat) (v : Int) (k : Nat) :
    ((matSet m i j v).getD k []).length = (m.getD k []).length := by
  rcases Decidable.em (i = k) with rfl | hne
  · rcases Decidable.em (i < m.length) with hlt | hge
    · simp [matSet, List.getD_eq_getElem?_getD, List.getElem?_set_self hlt]
    · rw [matSet_oob m j v (Nat.le_of_not_lt hge)]
  · simp [matSet, List.getD_eq_getElem?_getD, List.getElem?_set_ne hne]

/-- Well-formedness: the capacity matrix is a square of side
`totalNodes`.  Every graph the program builds (`Graph(nodes)` followed
by `createEdge` / `connectSourceAndSinkNodes` calls) has this shape. -/
def Graph.WF (g : Graph) : Prop :=
  g.adjacencyMatrix.length = g.getNodes ∧
  ∀ row ∈ g.adjacencyMatrix, row.length = g.getNodes

instance (g : Graph) : Decidable g.WF :=
  decidable_of_iff
    (g.adjacencyMatrix.length = g.getNodes ∧
      ∀ row ∈ g.adjacencyMatrix, row.length = g.getNodes) Iff.rfl

theorem Graph.WF.row_len {g : Graph} (h : g.WF) {i : Nat}
    (hi : i < g.adjacencyMatrix.length) :
    (g.adjacencyMatrix.getD i []).length = g.getNodes := by
  have hmem : g.adjacencyMatrix.getD i [] ∈ g.adjacencyMatrix := by
    rw [List.getD_eq_getElem?_getD, List.getElem?_eq_getElem hi]
    exact List.getElem_mem hi
  exact h.2 _ hmem

theorem WF_mkNew (n : Nat) : (Graph.mkNew n).WF := by
  constructor
  · simp [Graph.mkNew, Graph.getNodes]
  · intro row hrow
    simp only [Graph.mkNew] at hrow
    rw [List.eq_of_mem_replicate hrow]
    simp [Graph.mkNew, Graph.getNodes]

theorem WF_createEdge {g : Graph} (h : g.WF) (a b : Nat) (c : Int) :
    (g.createEdge a b c).WF := by
  rcases Decidable.em (a < g.adjacencyMatrix.length) with hlt | hge
  · refine ⟨?_, ?_⟩
    · simpa [Graph.createEdge, Graph.getNodes, length_matSet] using h.1
    · intro row hrow
      simp only [Graph.createEdge, matSet] at hrow
      rcases List.mem_or_eq_of_mem_set hrow with hmem | rfl
      · exact h.2 _ hmem
      · rw [List.length_set]
        exact h.row_len hlt
  · have heq : g.createEdge a b c = g := by
      show ({ g with adjacencyMatrix := matSet g.adjacencyMatrix a b c } : Graph) = g
      rw [matSet_oob _ _ _ (Nat.le_of_not_lt hge)]
    rw [heq]
    exact h

/-! Helper lemmas about `updateResidualGraph`. -/

theorem updateResidualGraph_oob (g : Graph) {u v : Int}
    (hout : u < 0 ∨ (g.getNodes : Int) ≤ u ∨ v < 0 ∨ (g.getNodes : Int) ≤ v) :
    updateResidualGraph g u v = (g, some Err.outOfRange) := by
  rw [updateResidualGraph, if_pos hout]

theorem updateResidualGraph_inRange_eq (g : Graph) {u v : Int}
    (h : ¬ (u < 0 ∨ (g.getNodes : Int) ≤ u ∨ v < 0 ∨ (g.getNodes : Int) ≤ v)) :
    (updateResidualGraph g u v).2 = none ∧
    (updateResidualGraph g u v).1.adjacencyMatrix =
      matSet (matSet g.adjacencyMatrix v.toNat u.toNat
          (matGet g.adjacencyMatrix v.toNat u.toNat + 1))
        u.toNat v.toNat
        (matGet (matSet g.adjacencyMatrix v.toNat u.toNat
          (matGet g.adjacencyMatrix v.toNat u.toNat + 1)) u.toNat v.toNat - 1) := by
  rw [updateResidualGraph, if_neg h]
  exact ⟨rfl, rfl⟩

theorem updateResidualGraph_nodes (g : Graph) (u v : Int) :
    (updateResidualGraph g u v).1.nodes = g.nodes := by
  rw [updateResidualGraph]
  split <;> rfl

/-- Entries other than `(u, v)` and `(v, u)` are untouched. -/
theorem updateResidualGraph_frame (g : Graph) (u v : Int) (a b : Nat)
    (h1 : ¬ (a = u.toNat ∧ b = v.toNat)) (h2 : ¬ (a = v.toNat ∧ b = u.toNat)) :
    matGet (updateResidualGraph g u v).1.adjacencyMatrix a b =
      matGet g.adjacencyMatrix a b := by
  rcases Decidable.em (u < 0 ∨ (g.getNodes : Int) ≤ u ∨ v < 0 ∨ (g.getNodes : Int) ≤ v)
    with hc | hc
  · rw [updateResidualGraph_oob g hc]
  · rw [(updateResidualGraph_inRange_eq g hc).2]
    have e1 : matGet (matSet (matSet g.adjacencyMatrix v.toNat u.toNat
        (matGet g.adjacencyMatrix v.toNat u.toNat + 1)) u.toNat v.toNat
        (matGet (matSet g.adjacencyMatrix v.toNat u.toNat
          (matGet g.adjacencyMatrix v.toNat u.toNat + 1)) u.toNat v.toNat - 1)) a b =
        matGet (matSet g.adjacencyMatrix v.toNat u.toNat
          (matGet g.adjacencyMatrix v.toNat u.toNat + 1)) a b := by
      apply matGet_matSet_ne
      rcases Decidable.em (u.toNat = a) with rfl | hua
      · exact Or.inr (fun hc2 => h1 ⟨rfl, hc2.symm⟩)
      · exact Or.inl hua
    have e2 : matGet (matSet g.adjacencyMatrix v.toNat u.toNat
        (matGet g.adjacencyMatrix v.toNat u.toNat + 1)) a b =
        matGet g.adjacencyMatrix a b := by
      apply matGet_matSet_ne
      rcases Decidable.em (v.toNat = a) with rfl | hva
      · exact Or.inr (fun hc2 => h2 ⟨rfl, hc2.symm⟩)
      · exact Or.inl hva
    rw [e1, e2]

theorem updateResidualGraph_dec {g : Graph} (hwf : g.WF) {u v : Nat}
    (hun : u < g.getNodes) (hvn : v < g.getNodes) (hne : u ≠ v) :
    matGet (updateResidualGraph g (u : Int) (v : Int)).1.adjacencyMatrix u v =
      matGet g.adjacencyMatrix u v - 1 := by
  have hs : u < g.adjacencyMatrix.length := by rw [hwf.1]; exact hun
  have hcond : ¬ ((u : Int) < 0 ∨ (g.getNodes : Int) ≤ (u : Int) ∨
      (v : Int) < 0 ∨ (g.getNodes : Int) ≤ (v : Int)) := by
    omega
  rw [(updateResidualGraph_inRange_eq g hcond).2]
  simp only [Int.toNat_natCast]
  have e1 := matGet_matSet_self
    (matSet g.adjacencyMatrix v u (matGet g.adjacencyMatrix v u + 1))
    (matGet (matSet g.adjacencyMatrix v u
      (matGet g.adjacencyMatrix v u + 1)) u v - 1)
    (show u < (matSet g.adjacencyMatrix v u
      (matGet g.adjacencyMatrix v u + 1)).length by
        rw [length_matSet]; exact hs)
    (by rw [row_length_matSet, hwf.row_len hs]; exact hvn)
  have e2 : matGet (matSet g.adjacencyMatrix v u
      (matGet g.adjacencyMatrix v u + 1)) u v = matGet g.adjacencyMatrix u v :=
    matGet_matSet_ne g.adjacencyMatrix _ (Or.inl (Ne.symm hne))
  rw [e1, e2]

theorem updateResidualGraph_inc {g : Graph} (hwf : g.WF) {u v : Nat}
    (hun : u < g.getNodes) (hvn : v < g.getNodes) (hne : u ≠ v) :
    matGet (updateResidualGraph g (u : Int) (v : Int)).1.adjacencyMatrix v u =
      matGet g.adjacencyMatrix v u + 1 := by
  have hd : v < g.adjacencyMatrix.length := by rw [hwf.1]; exact hvn
  have hcond : ¬ ((u : Int) < 0 ∨ (g.getNodes : Int) ≤ (u : Int) ∨
      (v : Int) < 0 ∨ (g.getNodes : Int) ≤ (v : Int)) := by
    omega
  rw [(updateResidualGraph_inRange_eq g hcond).2]
  simp only [Int.toNat_natCast]
  have e1 : matGet (matSet (matSet g.adjacencyMatrix v u
      (matGet g.adjacencyMatrix v u + 1)) u v
      (matGet (matSet g.adjacencyMatrix v u
        (matGet g.adjacencyMatrix v u + 1)) u v - 1)) v u =
      matGet (matSet g.adjacencyMatrix v u
        (matGet g.adjacencyMatrix v u + 1)) v u :=
    matGet_matSet_ne _ _ (Or.inl hne)
  have e2 := matGet_matSet_self g.adjacencyMatrix
    (matGet g.adjacencyMatrix v u + 1) hd
    (by rw [hwf.row_len hd]; exact hun)
  rw [e1, e2]

theorem updateResidualGraph_diag {g : Graph} (hwf : g.WF) {u : Nat}
    (hun : u < g.getNodes) :
    matGet (updateResidualGraph g (u : Int) (u : Int)).1.adjacencyMatrix u u =
      matGet g.adjacencyMatrix u u := by
  have hs : u < g.adjacencyMatrix.length := by rw [hwf.1]; exact hun
  have hcond : ¬ ((u : Int) < 0 ∨ (g.getNodes : Int) ≤ (u : Int) ∨
      (u : Int) < 0 ∨ (g.getNodes : Int) ≤ (u : Int)) := by
    omega
  rw [(updateResidualGraph_inRange_eq g hcond).2]
  simp only [Int.toNat_natCast]
  have e1 := matGet_matSet_self
    (matSet g.adjacencyMatrix u u (matGet g.adjacencyMatrix u u + 1))
    (matGet (matSet g.adjacencyMatrix u u
      (matGet g.adjacencyMatrix u u + 1)) u u - 1)
    (show u < (matSet g.adjacencyMatrix u u
      (matGet g.adjacencyMatrix u u + 1)).length by
        rw [length_matSet]; exact hs)
    (by rw [row_length_matSet, hwf.row_len hs]; exact hun)
  have e2 := matGet_matSet_self g.adjacencyMatrix
    (matGet g.adjacencyMatrix u u + 1) hs
    (by rw [hwf.row_len hs]; exact hun)
  rw [e1, e2]
  ring

/-- Rows of a `matSet` image keep their lengths. -/
theorem rows_matSet {m : Mat} {N : Nat} (h : ∀ row ∈ m, row.length = N)
    (i j : Nat) (v : Int) : ∀ row ∈ matSet m i j v, row.length = N := by
  rcases Decidable.em (i < m.length) with hlt | hge
  · intro row hrow
    rcases List.mem_or_eq_of_mem_set hrow with hmem | rfl
    · exact h _ hmem
    · rw [List.length_set]
      have hmem : m.getD i [] ∈ m := by
        rw [List.getD_eq_getElem?_getD, List.getElem?_eq_getElem hlt]
        exact List.getElem_mem hlt
      exact h _ hmem
  · rw [matSet_oob m j v (Nat.le_of_not_lt hge)]
    exact h

theorem WF_updateResidualGraph {g : Graph} (hwf : g.WF) (u v : Int) :
    (updateResidualGraph g u v).1.WF := by
  rcases Decidable.em (u < 0 ∨ (g.getNodes : Int) ≤ u ∨ v < 0 ∨ (g.getNodes : Int) ≤ v)
    with hc | hc
  · rw [updateResidualGraph_oob g hc]
    exact hwf
  · have hnodes : (updateResidualGraph g u v).1.getNodes = g.getNodes := by
      rw [Graph.getNodes, Graph.getNodes, updateResidualGraph_nodes]
    constructor
    · rw [(updateResidualGraph_inRange_eq g hc).2, length_matSet, length_matSet,
        hnodes]
      exact hwf.1
    · rw [(updateResidualGraph_inRange_eq g hc).2]
      rw [hnodes]
      exact rows_matSet (rows_matSet hwf.2 _ _ _) _ _ _

/-! ## Claim C4: pushUnit / updateResidualGraph

The original claim fails when `u = v`: the two in-place updates hit the
same cell and cancel, so `capacity[u][u]` is unchanged rather than
decremented (see `updateResidualGraph_diag_counterexample`).  For
`u ≠ v` the claim holds verbatim, and the conservation and failure
parts hold for all in-range indices. -/

/-- C4 counterexample: with both indices in range but equal
(`u = v = 0` on a freshly constructed graph, `totalNodes = 2`), the
call succeeds (no out-of-range failure) yet `capacity[0][0]` stays `0`
instead of dropping to `-1` as the claimed unconditional decrement
would require. -/
theorem updateResidualGraph_diag_counterexample :
    (updateResidualGraph (Graph.mkNew 0) 0 0).2 = none ∧
    matGet (updateResidualGraph (Graph.mkNew 0) 0 0).1.adjacencyMatrix 0 0 = 0 ∧
    matGet (Graph.mkNew 0).adjacencyMatrix 0 0 - 1 = -1 ∧
    (0 : Int) ≠ -1 := by decide

/-- C4 (amended): on a well-formed graph, `updateResidualGraph u v`
with `u` or `v` outside `[0, totalNodes)` fails with the out-of-range
error and changes nothing; with both in range it succeeds, and
decrements `capacity[u][v]` by 1 while incrementing `capacity[v][u]`
by 1 whenever `u ≠ v` (when `u = v` the two updates cancel and the
entry is unchanged); in every in-range case the sum
`capacity[u][v] + capacity[v][u]` is conserved. -/
theorem updateResidualGraph_spec (g : Graph) (u v : Int) (hwf : g.WF) :
    (¬ (0 ≤ u ∧ u < (g.getNodes : Int) ∧ 0 ≤ v ∧ v < (g.getNodes : Int)) →
      updateResidualGraph g u v = (g, some Err.outOfRange)) ∧
    (0 ≤ u → u < (g.getNodes : Int) → 0 ≤ v → v < (g.getNodes : Int) →
      (updateResidualGraph g u v).2 = none ∧
      (u ≠ v →
        matGet (updateResidualGraph g u v).1.adjacencyMatrix u.toNat v.toNat =
          matGet g.adjacencyMatrix u.toNat v.toNat - 1 ∧
        matGet (updateResidualGraph g u v).1.adjacencyMatrix v.toNat u.toNat =
          matGet g.adjacencyMatrix v.toNat u.toNat + 1) ∧
      (u = v →
        matGet (updateResidualGraph g u v).1.adjacencyMatrix u.toNat u.toNat =
          matGet g.adjacencyMatrix u.toNat u.toNat) ∧
      matGet (updateResidualGraph g u v).1.adjacencyMatrix u.toNat v.toNat +
          matGet (updateResidualGraph g u v).1.adjacencyMatrix v.toNat u.toNat =
        matGet g.adjacencyMatrix u.toNat v.toNat +
          matGet g.adjacencyMatrix v.toNat u.toNat) := by
  constructor
  · intro hout
    rw [updateResidualGraph, if_pos (by omega)]
  · intro hu0 hun hv0 hvn
    have hcond : ¬ (u < 0 ∨ (g.getNodes : Int) ≤ u ∨ v < 0 ∨ (g.getNodes : Int) ≤ v) := by
      omega
    have hs : u.toNat < g.adjacencyMatrix.length := by rw [hwf.1]; omega
    have hd : v.toNat < g.adjacencyMatrix.length := by rw [hwf.1]; omega
    have hsn : u.toNat < g.getNodes := by omega
    have hdn : v.toNat < g.getNodes := by omega
    rcases Decidable.em (u = v) with rfl | hne
    · have hkeep : matGet (updateResidualGraph g u u).1.adjacencyMatrix
          u.toNat u.toNat = matGet g.adjacencyMatrix u.toNat u.toNat := by
        rw [updateResidualGraph, if_neg hcond]
        have e2 := matGet_matSet_self g.adjacencyMatrix
          (matGet g.adjacencyMatrix u.toNat u.toNat + 1) hs
          (by rw [hwf.row_len hs]; exact hsn)
        have e1 := matGet_matSet_self
          (matSet g.adjacencyMatrix u.toNat u.toNat
            (matGet g.adjacencyMatrix u.toNat u.toNat + 1))
          (matGet (matSet g.adjacencyMatrix u.toNat u.toNat
            (matGet g.adjacencyMatrix u.toNat u.toNat + 1)) u.toNat u.toNat - 1)
          (by rw [length_matSet]; exact hs)
          (by rw [row_length_matSet, hwf.row_len hs]; exact hsn)
        rw [e1, e2]
        ring
      exact ⟨by rw [updateResidualGraph, if_neg hcond], fun h => absurd rfl h,
        fun _ => hkeep, by rw [hkeep]⟩
    · have hns : u.toNat ≠ v.toNat := by omega
      have huv : matGet (updateResidualGraph g u v).1.adjacencyMatrix u.toNat v.toNat =
          matGet g.adjacencyMatrix u.toNat v.toNat - 1 := by
        rw [updateResidualGraph, if_neg hcond]
        have e1 := matGet_matSet_self
          (matSet g.adjacencyMatrix v.toNat u.toNat
            (matGet g.adjacencyMatrix v.toNat u.toNat + 1))
          (matGet (matSet g.adjacencyMatrix v.toNat u.toNat
            (matGet g.adjacencyMatrix v.toNat u.toNat + 1)) u.toNat v.toNat - 1)
          (by rw [length_matSet]; exact hs)
          (by rw [row_length_matSet, hwf.row_len hs]; exact hdn)
        have e2 := @matGet_matSet_ne g.adjacencyMatrix v.toNat u.toNat u.toNat v.toNat
          (matGet g.adjacencyMatrix v.toNat u.toNat + 1) (Or.inl (Ne.symm hns))
        rw [e1, e2]
      have hvu : matGet (updateResidualGraph g u v).1.adjacencyMatrix v.toNat u.toNat =
          matGet g.adjacencyMatrix v.toNat u.toNat + 1 := by
        rw [updateResidualGraph, if_neg hcond]
        have e1 := @matGet_matSet_ne
          (matSet g.adjacencyMatrix v.toNat u.toNat
            (matGet g.adjacencyMatrix v.toNat u.toNat + 1))
          u.toNat v.toNat v.toNat u.toNat
          (matGet (matSet g.adjacencyMatrix v.toNat u.toNat
            (matGet g.adjacencyMatrix v.toNat u.toNat + 1)) u.toNat v.toNat - 1)
          (Or.inl hns)
        have e2 := matGet_matSet_self g.adjacencyMatrix
          (matGet g.adjacencyMatrix v.toNat u.toNat + 1) hd
          (by rw [hwf.row_len hd]; exact hsn)
        rw [e1, e2]
      exact ⟨by rw [updateResidualGraph, if_neg hcond], fun _ => ⟨huv, hvu⟩,
        fun h => absurd h hne, by rw [huv, hvu]; ring⟩

/-- C4 witness: concrete in-range distinct pair on a fresh graph. -/
theorem updateResidualGraph_spec_witness :
    (updateResidualGraph (Graph.mkNew 0) 0 1).2 = none ∧
    matGet (updateResidualGraph (Graph.mkNew 0) 0 1).1.adjacencyMatrix 0 1 =
      matGet (Graph.mkNew 0).adjacencyMatrix 0 1 - 1 ∧
    matGet (updateResidualGraph (Graph.mkNew 0) 0 1).1.adjacencyMatrix 1 0 =
      matGet (Graph.mkNew 0).adjacencyMatrix 1 0 + 1 := by
  have h := (updateResidualGraph_spec (Graph.mkNew 0) 0 1 (by decide)).2
    (by decide) (by decide) (by decide) (by decide)
  exact ⟨h.1, (h.2.1 (by decide)).1, (h.2.1 (by decide)).2⟩

/-! ## Claim C8: neighbors / findAdjacentNodes

`findAdjacentNodes(u)` scans `i = 0, 1, ..., totalNodes - 1` in order
and keeps exactly those with `adjacencyMatrix[u][i] > 0`, so the result
is the positive-capacity out-neighborhood in strictly increasing index
order.  The determinism consequence of the claim is immediate for the
embedding: `calculateMaxFlow` and `printResults` are functions of the
graph, so identical inputs give identical reported matchings. -/

/-- C8: for every node `u` in `[0, totalNodes)`, `findAdjacentNodes u`
contains exactly the nodes `v` with `capacity[u][v] > 0`, in strictly
increasing node-index order. -/
theorem findAdjacentNodes_spec (g : Graph) (u : Nat) (_hu : u < g.getNodes) :
    (∀ v, v ∈ g.findAdjacentNodes u ↔
      v < g.getNodes ∧ 0 < matGet g.adjacencyMatrix u v) ∧
    List.Sorted (· < ·) (g.findAdjacentNodes u) := by
  constructor
  · intro v
    simp [Graph.findAdjacentNodes, List.mem_filter, List.mem_range]
  · exact List.Pairwise.filter _ (List.pairwise_lt_range g.getNodes)

/-- C8 witness: instantiate at node 0 of a concrete two-node graph. -/
theorem findAdjacentNodes_spec_witness :
    0 < (Graph.mkNew 0).getNodes ∧
    ((∀ v, v ∈ (Graph.mkNew 0).findAdjacentNodes 0 ↔
        v < (Graph.mkNew 0).getNodes ∧
          0 < matGet (Graph.mkNew 0).adjacencyMatrix 0 v) ∧
      List.Sorted (· < ·) ((Graph.mkNew 0).findAdjacentNodes 0)) :=
  ⟨by decide, findAdjacentNodes_spec (Graph.mkNew 0) 0 (by decide)⟩

/-! ## Claim C9: the matching extractor (printResults)

The C++ method walks `i = 1 .. nodes/2` (left partition) and
`n = nodes/2 + 1 .. nodes` (right partition) and reports the pair
whenever `adjacencyMatrix[n][i] == 1`, counting as it goes; the method
is `const`, so the graph is not mutated — the embedding returns the
reported pair list, whose length is the printed total count. -/

/-- C9: a pair `(i, j)` is reported iff `i` is a left node, `j` a right
node, and the residual capacity `capacity[j][i]` equals 1; the reported
list has no duplicates, so its length is the count of exactly these
pairs. -/
theorem printResults_spec (g : Graph) :
    (∀ i j, (i, j) ∈ g.printResults ↔
      1 ≤ i ∧ i ≤ g.nodes / 2 ∧ g.nodes / 2 + 1 ≤ j ∧ j ≤ g.nodes ∧
        matGet g.adjacencyMatrix j i = 1) ∧
    g.printResults.Nodup := by
  have hdiv : g.nodes / 2 ≤ g.nodes := Nat.div_le_self _ _
  constructor
  · intro i j
    simp only [Graph.printResults, List.mem_flatMap, List.mem_map,
      List.mem_filter, List.mem_range'_1, Prod.mk.injEq, decide_eq_true_eq]
    constructor
    · rintro ⟨a, ⟨ha1, ha2⟩, n, ⟨⟨hn1, hn2⟩, hcap⟩, rfl, rfl⟩
      exact ⟨ha1, by omega, hn1, by omega, hcap⟩
    · rintro ⟨h1, h2, h3, h4, h5⟩
      exact ⟨i, ⟨h1, by omega⟩, j, ⟨⟨h3, by omega⟩, h5⟩, rfl, rfl⟩
  · rw [Graph.printResults, List.nodup_flatMap]
    constructor
    · intro x hx
      refine (List.nodup_map_iff ?_).mpr
        (List.Nodup.filter _ (List.nodup_range' _ _))
      intro a b hab
      simpa using congrArg Prod.snd hab
    · refine List.Pairwise.imp ?_ (List.nodup_range' 1 (g.nodes / 2))
      intro a b hab
      intro p hpa hpb
      rcases List.mem_map.mp hpa with ⟨n1, _, rfl⟩
      rcases List.mem_map.mp hpb with ⟨n2, _, hEq⟩
      exact hab (congrArg Prod.fst hEq).symm

/-! Helper lemmas about `commitPath`. -/

theorem commitPath_cons (g : Graph) (u v : Nat) (rest : List Nat) :
    commitPath g (u :: v :: rest) =
      (match updateResidualGraph g (u : Int) (v : Int) with
       | (g1, none) => commitPath g1 (v :: rest)
       | (g1, some e) => (g1, some e)) := rfl

theorem getD_mem_of_lt {l : List Nat} {k : Nat} (h : k < l.length) :
    l.getD k 0 ∈ l := by
  rw [List.getD_eq_getElem?_getD, List.getElem?_eq_getElem h]
  exact List.getElem_mem h

theorem commitPath_nodes (path : List Nat) :
    ∀ g : Graph, (commitPath g path).1.nodes = g.nodes := by
  induction path with
  | nil => intro g; rfl
  | cons u tl ih =>
    cases tl with
    | nil => intro g; rfl
    | cons v rest =>
      intro g
      rw [commitPath_cons]
      rcases h : updateResidualGraph g (u : Int) (v : Int) with ⟨g1, e⟩
      have hg1 : g1.nodes = g.nodes := by
        have h2 := updateResidualGraph_nodes g (u : Int) (v : Int)
        rw [h] at h2
        exact h2
      cases e with
      | none => rw [ih g1, hg1]
      | some err => exact hg1

theorem WF_commitPath (path : List Nat) :
    ∀ g : Graph, g.WF → (commitPath g path).1.WF := by
  induction path with
  | nil => intro g hwf; exact hwf
  | cons u tl ih =>
    cases tl with
    | nil => intro g hwf; exact hwf
    | cons v rest =>
      intro g hwf
      rw [commitPath_cons]
      rcases h : updateResidualGraph g (u : Int) (v : Int) with ⟨g1, e⟩
      have hg1 : g1.WF := by
        have h2 := WF_updateResidualGraph hwf (u : Int) (v : Int)
        rw [h] at h2
        exact h2
      cases e with
      | none => exact ih g1 hg1
      | some err => exact hg1

theorem commitPath_frame (path : List Nat) :
    ∀ (g : Graph) (a b : Nat), a ∉ path ∨ b ∉ path →
      matGet (commitPath g path).1.adjacencyMatrix a b =
        matGet g.adjacencyMatrix a b := by
  induction path with
  | nil => intro g a b _; rfl
  | cons u tl ih =>
    cases tl with
    | nil => intro g a b _; rfl
    | cons v rest =>
      intro g a b hab
      rw [commitPath_cons]
      rcases h : updateResidualGraph g (u : Int) (v : Int) with ⟨g1, e⟩
      have hne1 : ¬ (a = ((u : Int)).toNat ∧ b = ((v : Int)).toNat) := by
        simp only [Int.toNat_natCast]
        rintro ⟨rfl, rfl⟩
        rcases hab with hna | hnb
        · exact hna (List.mem_cons_self _ _)
        · exact hnb (List.mem_cons_of_mem _ (List.mem_cons_self _ _))
      have hne2 : ¬ (a = ((v : Int)).toNat ∧ b = ((u : Int)).toNat) := by
        simp only [Int.toNat_natCast]
        rintro ⟨rfl, rfl⟩
        rcases hab with hna | hnb
        · exact hna (List.mem_cons_of_mem _ (List.mem_cons_self _ _))
        · exact hnb (List.mem_cons_self _ _)
      have hfr := updateResidualGraph_frame g (u : Int) (v : Int) a b hne1 hne2
      rw [h] at hfr
      cases e with
      | none =>
        have hab2 : a ∉ (v :: rest) ∨ b ∉ (v :: rest) := by
          rcases hab with hna | hnb
          · exact Or.inl (fun hmem => hna (List.mem_cons_of_mem _ hmem))
          · exact Or.inr (fun hmem => hnb (List.mem_cons_of_mem _ hmem))
        rw [ih g1 a b hab2, hfr]
      | some err => exact hfr

theorem commitPath_snd_none (path : List Nat) :
    ∀ g : Graph, (∀ x ∈ path, x < g.getNodes) →
      (commitPath g path).2 = none := by
  induction path with
  | nil => intro g _; rfl
  | cons u tl ih =>
    cases tl with
    | nil => intro g _; rfl
    | cons v rest =>
      intro g hin
      rw [commitPath_cons]
      rcases h : updateResidualGraph g (u : Int) (v : Int) with ⟨g1, e⟩
      have hcond : ¬ ((u : Int) < 0 ∨ (g.getNodes : Int) ≤ (u : Int) ∨
          (v : Int) < 0 ∨ (g.getNodes : Int) ≤ (v : Int)) := by
        have hu := hin u (List.mem_cons_self _ _)
        have hv := hin v (List.mem_cons_of_mem _ (List.mem_cons_self _ _))
        omega
      have hsnd := (updateResidualGraph_inRange_eq g hcond).1
      rw [h] at hsnd
      cases e with
      | none =>
        apply ih g1
        intro x hx
        have hgn : g1.getNodes = g.getNodes := by
          have h2 := updateResidualGraph_nodes g (u : Int) (v : Int)
          rw [h] at h2
          rw [Graph.getNodes, Graph.getNodes, h2]
        rw [hgn]
        exact hin x (List.mem_cons_of_mem _ hx)
      | some err => exact absurd hsnd (by simp)

theorem commitPath_deltas (path : List Nat) :
    ∀ g : Graph, g.WF → path.Nodup → (∀ x ∈ path, x < g.getNodes) →
      ∀ k, k + 1 < path.length →
        matGet (commitPath g path).1.adjacencyMatrix
            (path.getD k 0) (path.getD (k + 1) 0) =
          matGet g.adjacencyMatrix (path.getD k 0) (path.getD (k + 1) 0) - 1 ∧
        matGet (commitPath g path).1.adjacencyMatrix
            (path.getD (k + 1) 0) (path.getD k 0) =
          matGet g.adjacencyMatrix (path.getD (k + 1) 0) (path.getD k 0) + 1 := by
  induction path with
  | nil =>
    intro g _ _ _ k hk
    exact absurd hk (by simp)
  | cons u tl ih =>
    cases tl with
    | nil =>
      intro g _ _ _ k hk
      exact absurd hk (by simp)
    | cons v rest =>
      intro g hwf hnd hin k hk
      have hu : u < g.getNodes := hin u (List.mem_cons_self _ _)
      have hv : v < g.getNodes := hin v
        (List.mem_cons_of_mem _ (List.mem_cons_self _ _))
      have hunotin : u ∉ (v :: rest) := (List.nodup_cons.mp hnd).1
      have hne : u ≠ v := fun hc => hunotin (hc ▸ List.mem_cons_self _ _)
      have hcond : ¬ ((u : Int) < 0 ∨ (g.getNodes : Int) ≤ (u : Int) ∨
          (v : Int) < 0 ∨ (g.getNodes : Int) ≤ (v : Int)) := by omega
      rw [commitPath_cons]
      rcases h : updateResidualGraph g (u : Int) (v : Int) with ⟨g1, e⟩
      have hsnd := (updateResidualGraph_inRange_eq g hcond).1
      rw [h] at hsnd
      cases e with
      | some err => exact absurd hsnd (by simp)
      | none =>
        have hg1nodes : g1.getNodes = g.getNodes := by
          have h2 := updateResidualGraph_nodes g (u : Int) (v : Int)
          rw [h] at h2
          rw [Graph.getNodes, Graph.getNodes, h2]
        have hg1wf : g1.WF := by
          have h2 := WF_updateResidualGraph hwf (u : Int) (v : Int)
          rw [h] at h2
          exact h2
        have hdec : matGet g1.adjacencyMatrix u v = matGet g.adjacencyMatrix u v - 1 := by
          have h2 := updateResidualGraph_dec hwf hu hv hne
          rw [h] at h2
          exact h2
        have hinc : matGet g1.adjacencyMatrix v u = matGet g.adjacencyMatrix v u + 1 := by
          have h2 := updateResidualGraph_inc hwf hu hv hne
          rw [h] at h2
          exact h2
        cases k with
        | zero =>
          have hfr1 := commitPath_frame (v :: rest) g1 u v (Or.inl hunotin)
          have hfr2 := commitPath_frame (v :: rest) g1 v u (Or.inr hunotin)
          constructor
          · show matGet (commitPath g1 (v :: rest)).1.adjacencyMatrix u v = _
            rw [hfr1, hdec]
            simp
          · show matGet (commitPath g1 (v :: rest)).1.adjacencyMatrix v u = _
            rw [hfr2, hinc]
            simp
        | succ k =>
          have hk2 : k + 1 < (v :: rest).length := by
            simpa using hk
          have hx : (v :: rest).getD k 0 ∈ (v :: rest) :=
            getD_mem_of_lt (by omega)
          have hy : (v :: rest).getD (k + 1) 0 ∈ (v :: rest) :=
            getD_mem_of_lt hk2
          have hxu : (v :: rest).getD k 0 ≠ u := fun hc => hunotin (hc ▸ hx)
          have hyu : (v :: rest).getD (k + 1) 0 ≠ u := fun hc => hunotin (hc ▸ hy)
          have hih := ih g1 hg1wf (List.nodup_cons.mp hnd).2
            (fun x hx2 => by rw [hg1nodes]; exact hin x (List.mem_cons_of_mem _ hx2))
            k hk2
          have hfrA : matGet g1.adjacencyMatrix
              ((v :: rest).getD k 0) ((v :: rest).getD (k + 1) 0) =
              matGet g.adjacencyMatrix
                ((v :: rest).getD k 0) ((v :: rest).getD (k + 1) 0) := by
            have h2 := updateResidualGraph_frame g (u : Int) (v : Int)
              ((v :: rest).getD k 0) ((v :: rest).getD (k + 1) 0)
              (by simp only [Int.toNat_natCast]; rintro ⟨hc, _⟩; exact hxu hc)
              (by simp only [Int.toNat_natCast]; rintro ⟨_, hc⟩; exact hyu hc)
            rw [h] at h2
            exact h2
          have hfrB : matGet g1.adjacencyMatrix
              ((v :: rest).getD (k + 1) 0) ((v :: rest).getD k 0) =
              matGet g.adjacencyMatrix
                ((v :: rest).getD (k + 1) 0) ((v :: rest).getD k 0) := by
            have h2 := updateResidualGraph_frame g (u : Int) (v : Int)
              ((v :: rest).getD (k + 1) 0) ((v :: rest).getD k 0)
              (by simp only [Int.toNat_natCast]; rintro ⟨hc, _⟩; exact hyu hc)
              (by simp only [Int.toNat_natCast]; rintro ⟨_, hc⟩; exact hxu hc)
            rw [h] at h2
            exact h2
          constructor
          · show matGet (commitPath g1 (v :: rest)).1.adjacencyMatrix
                ((v :: rest).getD k 0) ((v :: rest).getD (k + 1) 0) = _
            rw [hih.1, hfrA]
            simp
          · show matGet (commitPath g1 (v :: rest)).1.adjacencyMatrix
                ((v :: rest).getD (k + 1) 0) ((v :: rest).getD k 0) = _
            rw [hih.2, hfrB]
            simp

/-! ## Claim C10: the commit ignores the computed bottleneck

`augmentFlowAlongPath` computes `pathFlow` as the minimum snapshot
capacity along the found path (see `pathFlow` and the `_bottleneck`
binding in `augmentLoop`) and never reads it afterwards: the commit
loop decrements `capacity[u][v]` by exactly 1 and increments
`capacity[v][u]` by exactly 1 for each consecutive pair, whatever the
capacities are.  The theorem below assumes nothing about capacity
values, and the witness runs it on an edge of capacity 5 (bottleneck
5), which still moves by exactly 1. -/

/-- C10: committing a path (distinct in-range nodes) succeeds and
changes each consecutive pair by exactly `-1` forward and `+1`
backward, independently of the bottleneck value. -/
theorem commitPath_spec (g : Graph) (path : List Nat) (hwf : g.WF)
    (hnd : path.Nodup) (hin : ∀ x ∈ path, x < g.getNodes) :
    (commitPath g path).2 = none ∧
    ∀ k, k + 1 < path.length →
      matGet (commitPath g path).1.adjacencyMatrix
          (path.getD k 0) (path.getD (k + 1) 0) =
        matGet g.adjacencyMatrix (path.getD k 0) (path.getD (k + 1) 0) - 1 ∧
      matGet (commitPath g path).1.adjacencyMatrix
          (path.getD (k + 1) 0) (path.getD k 0) =
        matGet g.adjacencyMatrix (path.getD (k + 1) 0) (path.getD k 0) + 1 :=
  ⟨commitPath_snd_none path g hin, commitPath_deltas path g hwf hnd hin⟩

/-- C10 witness: an edge of capacity 5; the bottleneck along `[0, 1]`
is 5, yet the commit moves the pair by exactly one unit. -/
theorem commitPath_spec_witness :
    pathFlow ((Graph.mkNew 0).createEdge 0 1 5).adjacencyMatrix [0, 1] = 5 ∧
    (commitPath ((Graph.mkNew 0).createEdge 0 1 5) [0, 1]).2 = none ∧
    matGet (commitPath ((Graph.mkNew 0).createEdge 0 1 5) [0, 1]).1.adjacencyMatrix
        0 1 =
      matGet ((Graph.mkNew 0).createEdge 0 1 5).adjacencyMatrix 0 1 - 1 ∧
    matGet (commitPath ((Graph.mkNew 0).createEdge 0 1 5) [0, 1]).1.adjacencyMatrix
        1 0 =
      matGet ((Graph.mkNew 0).createEdge 0 1 5).adjacencyMatrix 1 0 + 1 := by
  have h := commitPath_spec ((Graph.mkNew 0).createEdge 0 1 5) [0, 1]
    (by decide) (by decide) (by decide)
  have h0 := h.2 0 (by decide)
  exact ⟨by decide, h.1, h0.1, h0.2⟩

/-! ## Breadth-first search (levelGraph) verification

Spec-side notions: an edge of the residual graph is a positive entry of
the capacity matrix (targets within `[0, totalNodes)`, the range the
BFS scans); reachability is its reflexive-transitive closure. -/

/-- One positive-capacity edge, as scanned by the BFS. -/
def edgeStep (g : Graph) (u v : Nat) : Prop :=
  v < g.getNodes ∧ 0 < matGet g.adjacencyMatrix u v

/-- Reachability through positive-capacity edges. -/
def Reach (g : Graph) (u v : Nat) : Prop :=
  Relation.ReflTransGen (edgeStep g) u v

/-- Number of unvisited (`none`) entries of a depth vector. -/
def countNone (d : List (Option Nat)) : Nat :=
  (d.filter (fun x => x.isNone)).length

theorem countNone_cons (x : Option Nat) (l : List (Option Nat)) :
    countNone (x :: l) = (if x.isNone then 1 else 0) + countNone l := by
  rcases hx : x.isNone
  · simp [countNone, List.filter_cons, hx]
  · simp only [countNone, List.filter_cons, hx, if_true, List.length_cons]
    omega

theorem countNone_set_some (d : List (Option Nat)) (a : Nat) (y : Nat)
    (ha : a < d.length) (hnone : d.getD a none = none) :
    countNone (d.set a (some y)) + 1 = countNone d := by
  induction d generalizing a with
  | nil => simp at ha
  | cons hd tl ih =>
    cases a with
    | zero =>
      simp only [List.getD_cons_zero] at hnone
      subst hnone
      simp [List.set_cons_zero, countNone_cons]
      omega
    | succ a =>
      simp only [List.getD_cons_succ] at hnone
      rw [List.set_cons_succ, countNone_cons, countNone_cons]
      have := ih a (by simpa using ha) hnone
      omega

theorem getD_replicate_eq {α : Type} (n : Nat) (x d : α) (i : Nat) :
    (List.replicate n x).getD i d = if i < n then x else d := by
  rw [List.getD_eq_getElem?_getD, List.getElem?_replicate]
  split <;> rfl

theorem matGet_mkNew (k i j : Nat) :
    matGet (Graph.mkNew k).adjacencyMatrix i j = 0 := by
  show matGet (List.replicate (k + 2) (List.replicate (k + 2) 0)) i j = 0
  rw [matGet, getD_replicate_eq]
  split
  · rw [getD_replicate_eq]
    split <;> rfl
  · rfl

/-- Everything the BFS inner loop guarantees, relative to its input
state: depth entries only flip from unvisited to visited, each flip
records `depth[current] + 1` along a positive edge from `current`, all
positive-capacity adjacents end up visited when the scan completes, the
queue only grows (by exactly the freshly visited non-sink nodes), and
the sink entry is untouched unless the scan reports it found. -/
structure VisitRes (g : Graph) (sink current : Nat) (adj : List Nat)
    (depth : List (Option Nat)) (queue : List Nat)
    (out : List (Option Nat) × List Nat × Bool) : Prop where
  len : out.1.length = depth.length
  mono : ∀ v, depth.getD v none ≠ none → out.1.getD v none = depth.getD v none
  newA : ∀ v, out.1.getD v none ≠ none → depth.getD v none ≠ none ∨
    (v ∈ adj ∧ 0 < matGet g.adjacencyMatrix current v ∧
      out.1.getD v none = optSucc (depth.getD current none))
  proc : out.2.2 = false → ∀ a ∈ adj, 0 < matGet g.adjacencyMatrix current a →
    out.1.getD a none ≠ none
  qkeep : ∀ x ∈ queue, x ∈ out.2.1
  qmem : out.2.2 = false → ∀ x ∈ out.2.1, x ∈ queue ∨
    (x ∈ adj ∧ out.1.getD x none ≠ none)
  newq : out.2.2 = false → ∀ v, out.1.getD v none ≠ none →
    depth.getD v none = none → v ∈ out.2.1
  meas : out.2.2 = false →
    out.2.1.length + countNone out.1 = queue.length + countNone depth
  sinkF : out.2.2 = false → out.1.getD sink none = depth.getD sink none
  sinkT : out.2.2 = true → out.1.getD sink none ≠ none
  sinkPre : out.2.2 = true → depth.getD sink none = none

theorem visitAdjacents_ok (g : Graph) (sink current : Nat) :
    ∀ (adj : List Nat) (depth : List (Option Nat)) (queue : List Nat),
      depth.getD current none ≠ none →
      (∀ a ∈ adj, a < depth.length) →
      VisitRes g sink current adj depth queue
        (visitAdjacents g sink current adj depth queue) := by
  intro adj
  induction adj with
  | nil =>
    intro depth queue hcur hadj
    refine ⟨rfl, fun v _ => rfl, fun v hv => Or.inl hv, ?_, ?_, ?_, ?_, ?_, ?_, ?_, ?_⟩
    · intro _ a ha
      simp at ha
    · intro x hx
      exact hx
    · intro _ x hx
      exact Or.inl hx
    · intro _ v hv hnone
      exact absurd hnone hv
    · intro _
      rfl
    · intro _
      rfl
    · intro hf
      simp [visitAdjacents] at hf
    · intro hf
      simp [visitAdjacents] at hf
  | cons a rest ih =>
    intro depth queue hcur hadj
    have ha_len : a < depth.length := hadj a (List.mem_cons_self _ _)
    rw [visitAdjacents]
    rcases Decidable.em (depth.getD a none = none ∧
        0 < matGet g.adjacencyMatrix current a) with hcond | hcond
    · rw [if_pos hcond]
      have hacur : a ≠ current := fun hc => hcur (hc ▸ hcond.1)
      have hset_self : (depth.set a (optSucc (depth.getD current none))).getD a none =
          optSucc (depth.getD current none) := by
        rw [List.getD_eq_getElem?_getD, List.getElem?_set_self ha_len]
        rfl
      have hset_ne : ∀ v, v ≠ a →
          (depth.set a (optSucc (depth.getD current none))).getD v none =
            depth.getD v none := by
        intro v hv
        rw [List.getD_eq_getElem?_getD, List.getElem?_set_ne (fun hc => hv hc.symm),
          List.getD_eq_getElem?_getD]
      have hsucc_ne : optSucc (depth.getD current none) ≠ none := by
        rcases depth.getD current none with _ | d <;> simp [optSucc]
      rcases Decidable.em (a = sink) with rfl | hasink
      · rw [if_pos rfl]
        refine ⟨by simp, ?_, ?_, ?_, ?_, ?_, ?_, ?_, ?_, ?_, ?_⟩
        · intro v hv
          have hva : v ≠ a := fun hc => (hc ▸ hv) hcond.1
          exact hset_ne v hva
        · intro v hv
          rcases Decidable.em (v = a) with rfl | hva
          · refine Or.inr ⟨List.mem_cons_self _ _, hcond.2, hset_self⟩
          · rw [hset_ne v hva] at hv
            exact Or.inl hv
        · intro hf
          simp at hf
        · intro x hx
          exact hx
        · intro hf
          simp at hf
        · intro hf
          simp at hf
        · intro hf
          simp at hf
        · intro hf
          simp at hf
        · intro _
          rw [hset_self]
          exact hsucc_ne
        · intro _
          exact hcond.1
      · rw [if_neg hasink]
        have hcur2 : (depth.set a (optSucc (depth.getD current none))).getD current none ≠
            none := by
          rw [hset_ne current (fun hc => hacur hc.symm)]
          exact hcur
        have hadj2 : ∀ b ∈ rest, b < (depth.set a (optSucc (depth.getD current none))).length := by
          intro b hb
          rw [List.length_set]
          exact hadj b (List.mem_cons_of_mem _ hb)
        have hW := ih (depth.set a (optSucc (depth.getD current none)))
          (queue ++ [a]) hcur2 hadj2
        have hcurval : (depth.set a (optSucc (depth.getD current none))).getD current none =
            depth.getD current none :=
          hset_ne current (fun hc => hacur hc.symm)
        refine ⟨?_, ?_, ?_, ?_, ?_, ?_, ?_, ?_, ?_, ?_, ?_⟩
        · rw [hW.len, List.length_set]
        · intro v hv
          have hva : v ≠ a := fun hc => (hc ▸ hv) hcond.1
          rw [hW.mono v (by rw [hset_ne v hva]; exact hv), hset_ne v hva]
        · intro v hv
          rcases hW.newA v hv with hold | ⟨hmem, hpos, hval⟩
          · rcases Decidable.em (v = a) with rfl | hva
            · refine Or.inr ⟨List.mem_cons_self _ _, hcond.2, ?_⟩
              rw [hW.mono v (by rw [hset_self]; exact hsucc_ne), hset_self]
            · rw [hset_ne v hva] at hold
              exact Or.inl hold
          · refine Or.inr ⟨List.mem_cons_of_mem _ hmem, hpos, ?_⟩
            rw [hval, hcurval]
        · intro hf b hb hpos
          rcases Decidable.em (b = a) with rfl | hba
          · have : (depth.set b (optSucc (depth.getD current none))).getD b none ≠ none := by
              rw [hset_self]
              exact hsucc_ne
            rw [hW.mono b this]
            exact this
          · rcases List.mem_cons.mp hb with rfl | hb2
            · exact absurd rfl hba
            · exact hW.proc hf b hb2 hpos
        · intro x hx
          exact hW.qkeep x (List.mem_append_left _ hx)
        · intro hf x hx
          rcases hW.qmem hf x hx with hxq | ⟨hmem, hval⟩
          · rcases List.mem_append.mp hxq with hxq2 | hxa
            · exact Or.inl hxq2
            · have hxa2 : x = a := by simpa using hxa
              subst hxa2
              refine Or.inr ⟨List.mem_cons_self _ _, ?_⟩
              rw [hW.mono x (by rw [hset_self]; exact hsucc_ne), hset_self]
              exact hsucc_ne
          · exact Or.inr ⟨List.mem_cons_of_mem _ hmem, hval⟩
        · intro hf v hv hnone
          rcases Decidable.em (v = a) with rfl | hva
          · exact hW.qkeep v (List.mem_append_right _ (List.mem_cons_self _ _))
          · exact hW.newq hf v hv (by rw [hset_ne v hva]; exact hnone)
        · intro hf
          rw [hW.meas hf, List.length_append]
          have := countNone_set_some depth a (match depth.getD current none with
            | none => 0
            | some d => d + 1) ha_len hcond.1
          have heq : optSucc (depth.getD current none) = some (match depth.getD current none with
            | none => 0
            | some d => d + 1) := by
            rcases depth.getD current none with _ | d <;> rfl
          rw [heq]
          simp only [List.length_cons, List.length_nil]
          omega
        · intro hf
          rw [hW.sinkF hf, hset_ne sink (fun hc => hasink hc.symm)]
        · intro hf
          exact hW.sinkT hf
        · intro hf
          have := hW.sinkPre hf
          rw [hset_ne sink (fun hc => hasink hc.symm)] at this
          exact this
    · rw [if_neg hcond]
      have hW := ih depth queue hcur (fun b hb => hadj b (List.mem_cons_of_mem _ hb))
      refine ⟨hW.len, hW.mono, ?_, ?_, hW.qkeep, ?_, hW.newq, hW.meas, hW.sinkF,
        hW.sinkT, hW.sinkPre⟩
      · intro v hv
        rcases hW.newA v hv with hold | ⟨hmem, hpos, hval⟩
        · exact Or.inl hold
        · exact Or.inr ⟨List.mem_cons_of_mem _ hmem, hpos, hval⟩
      · intro hf b hb hpos
        rcases Decidable.em (b = a) with rfl | hba
        · have hbnn : depth.getD b none ≠ none := by
            intro hn
            exact hcond ⟨hn, hpos⟩
          rw [hW.mono b hbnn]
          exact hbnn
        · rcases List.mem_cons.mp hb with rfl | hb2
          · exact absurd rfl hba
          · exact hW.proc hf b hb2 hpos
      · intro hf x hx
        rcases hW.qmem hf x hx with hxq | ⟨hmem, hval⟩
        · exact Or.inl hxq
        · exact Or.inr ⟨List.mem_cons_of_mem _ hmem, hval⟩


/-- Membership characterization of `findAdjacentNodes` (shared helper). -/
theorem mem_findAdjacentNodes {g : Graph} {u v : Nat} :
    v ∈ g.findAdjacentNodes u ↔
      v < g.getNodes ∧ 0 < matGet g.adjacencyMatrix u v := by
  simp [Graph.findAdjacentNodes, List.mem_filter, List.mem_range]

/-- BFS outer-loop guarantees: with fuel above the standard measure the
loop completes; depths only grow; every visited node is reachable from
`src`; on a `false` result the visited set is closed under positive
edges and the sink entry is untouched; on a `true` result the sink was
unvisited on entry and has just been assigned; every visited node is
the source or got depth `parent + 1` across a positive edge. -/
structure BfsRes (g : Graph) (src sink : Nat) (depth : List (Option Nat))
    (queue : List Nat) (out : List (Option Nat) × Bool) : Prop where
  len : out.1.length = depth.length
  mono : ∀ v, depth.getD v none ≠ none → out.1.getD v none = depth.getD v none
  sound : ∀ v, out.1.getD v none ≠ none → Reach g src v
  closed : out.2 = false → ∀ u, out.1.getD u none ≠ none →
    ∀ v, edgeStep g u v → out.1.getD v none ≠ none
  sinkF : out.2 = false → out.1.getD sink none = depth.getD sink none
  sinkT : out.2 = true → out.1.getD sink none ≠ none
  sinkPre : out.2 = true → depth.getD sink none = none
  parent : ∀ v, out.1.getD v none ≠ none → v = src ∨ ∃ u,
    edgeStep g u v ∧ out.1.getD u none ≠ none ∧
      out.1.getD v none = optSucc (out.1.getD u none)

theorem bfsLoop_ok (g : Graph) (src sink : Nat) :
    ∀ (fuel : Nat) (depth : List (Option Nat)) (queue : List Nat),
      depth.length = g.getNodes →
      queue.length + countNone depth < fuel →
      (∀ x ∈ queue, x < g.getNodes) →
      (∀ x ∈ queue, depth.getD x none ≠ none) →
      (∀ v, depth.getD v none ≠ none → Reach g src v) →
      (∀ u, depth.getD u none ≠ none → u ∈ queue ∨
        ∀ v, edgeStep g u v → depth.getD v none ≠ none) →
      (∀ v, depth.getD v none ≠ none → v = src ∨ ∃ u,
        edgeStep g u v ∧ depth.getD u none ≠ none ∧
          depth.getD v none = optSucc (depth.getD u none)) →
      ∃ res, bfsLoop g sink fuel depth queue = some res ∧
        BfsRes g src sink depth queue res := by
  intro fuel
  induction fuel with
  | zero =>
    intro depth queue _ hfuel _ _ _ _ _
    omega
  | succ fuel ih =>
    intro depth queue hlen hfuel hqr hqa hreach hclosed hparent
    cases queue with
    | nil =>
      refine ⟨(depth, false), rfl, ?_⟩
      refine ⟨rfl, fun v _ => rfl, hreach, ?_, fun _ => rfl, ?_, ?_, hparent⟩
      · intro _ u hu v hedge
        rcases hclosed u hu with hq | hcl
        · simp at hq
        · exact hcl v hedge
      · intro hf
        simp at hf
      · intro hf
        simp at hf
    | cons current rest =>
      have hcur : depth.getD current none ≠ none :=
        hqa current (List.mem_cons_self _ _)
      have hcurn : current < g.getNodes := hqr current (List.mem_cons_self _ _)
      have hadjlt : ∀ a ∈ g.findAdjacentNodes current, a < depth.length := by
        intro a hamem
        rw [hlen]
        exact (mem_findAdjacentNodes.mp hamem).1
      have hW0 := visitAdjacents_ok g sink current (g.findAdjacentNodes current)
        depth rest hcur hadjlt
      rcases hout : visitAdjacents g sink current (g.findAdjacentNodes current)
        depth rest with ⟨d2, q2, f⟩
      rw [hout] at hW0
      have hunfold : bfsLoop g sink (fuel + 1) depth (current :: rest) =
          (match visitAdjacents g sink current (g.findAdjacentNodes current)
              depth rest with
           | (depth2, _, true) => some (depth2, true)
           | (depth2, queue2, false) => bfsLoop g sink fuel depth2 queue2) := rfl
      rw [hunfold, hout]
      have hreach_cur : Reach g src current := hreach current hcur
      cases f with
      | true =>
        refine ⟨(d2, true), rfl, ?_⟩
        refine ⟨hW0.len, hW0.mono, ?_, ?_, ?_, hW0.sinkT, hW0.sinkPre, ?_⟩
        · intro v hv
          rcases hW0.newA v hv with hold | ⟨hmem, hpos, _⟩
          · exact hreach v hold
          · exact Relation.ReflTransGen.tail hreach_cur
              ⟨(mem_findAdjacentNodes.mp hmem).1, hpos⟩
        · intro hf
          simp at hf
        · intro hf
          simp at hf
        · intro v hv
          rcases Decidable.em (depth.getD v none = none) with hnone | hsome
          · rcases hW0.newA v hv with hold | ⟨hmem, hpos, hval⟩
            · exact absurd hnone hold
            · refine Or.inr ⟨current,
                ⟨(mem_findAdjacentNodes.mp hmem).1, hpos⟩, ?_, ?_⟩
              · rw [hW0.mono current hcur]
                exact hcur
              · rw [hval, hW0.mono current hcur]
          · rcases hparent v hsome with hsrc | ⟨u, hedge, hun, hval⟩
            · exact Or.inl hsrc
            · refine Or.inr ⟨u, hedge, ?_, ?_⟩
              · rw [hW0.mono u hun]
                exact hun
              · rw [hW0.mono v hsome, hW0.mono u hun]
                exact hval
      | false =>
        have hlen2 : d2.length = g.getNodes := by rw [hW0.len, hlen]
        have hmeas := hW0.meas rfl
        dsimp only at hmeas
        have hfuel2 : q2.length + countNone d2 < fuel := by
          simp only [List.length_cons] at hfuel
          omega
        have hqr2 : ∀ x ∈ q2, x < g.getNodes := by
          intro x hx
          rcases hW0.qmem rfl x hx with hxr | ⟨hmem, _⟩
          · exact hqr x (List.mem_cons_of_mem _ hxr)
          · exact (mem_findAdjacentNodes.mp hmem).1
        have hqa2 : ∀ x ∈ q2, d2.getD x none ≠ none := by
          intro x hx
          rcases hW0.qmem rfl x hx with hxr | ⟨_, hval⟩
          · have := hqa x (List.mem_cons_of_mem _ hxr)
            rw [hW0.mono x this]
            exact this
          · exact hval
        have hreach2 : ∀ v, d2.getD v none ≠ none → Reach g src v := by
          intro v hv
          rcases hW0.newA v hv with hold | ⟨hmem, hpos, _⟩
          · exact hreach v hold
          · exact Relation.ReflTransGen.tail hreach_cur
              ⟨(mem_findAdjacentNodes.mp hmem).1, hpos⟩
        have hclosed2 : ∀ u, d2.getD u none ≠ none → u ∈ q2 ∨
            ∀ v, edgeStep g u v → d2.getD v none ≠ none := by
          intro u hu
          rcases Decidable.em (depth.getD u none = none) with hnone | hsome
          · exact Or.inl (hW0.newq rfl u hu hnone)
          · rcases hclosed u hsome with hq | hcl
            · rcases List.mem_cons.mp hq with rfl | hqr3
              · refine Or.inr ?_
                intro v hedge
                exact hW0.proc rfl v
                  (mem_findAdjacentNodes.mpr ⟨hedge.1, hedge.2⟩) hedge.2
              · exact Or.inl (hW0.qkeep u hqr3)
            · refine Or.inr ?_
              intro v hedge
              have := hcl v hedge
              rw [hW0.mono v this]
              exact this
        have hparent2 : ∀ v, d2.getD v none ≠ none → v = src ∨ ∃ u,
            edgeStep g u v ∧ d2.getD u none ≠ none ∧
              d2.getD v none = optSucc (d2.getD u none) := by
          intro v hv
          rcases Decidable.em (depth.getD v none = none) with hnone | hsome
          · rcases hW0.newA v hv with hold | ⟨hmem, hpos, hval⟩
            · exact absurd hnone hold
            · refine Or.inr ⟨current,
                ⟨(mem_findAdjacentNodes.mp hmem).1, hpos⟩, ?_, ?_⟩
              · rw [hW0.mono current hcur]
                exact hcur
              · rw [hval, hW0.mono current hcur]
          · rcases hparent v hsome with hsrc | ⟨u, hedge, hun, hval⟩
            · exact Or.inl hsrc
            · refine Or.inr ⟨u, hedge, ?_, ?_⟩
              · rw [hW0.mono u hun]
                exact hun
              · rw [hW0.mono v hsome, hW0.mono u hun]
                exact hval
        rcases ih d2 q2 hlen2 hfuel2 hqr2 hqa2 hreach2 hclosed2 hparent2
          with ⟨res, heq, hB⟩
        refine ⟨res, heq, ?_⟩
        refine ⟨hB.len.trans hW0.len, ?_, hB.sound, hB.closed, ?_, hB.sinkT,
          ?_, hB.parent⟩
        · intro v hv
          have h2 : d2.getD v none = depth.getD v none := hW0.mono v hv
          rw [hB.mono v (by rw [h2]; exact hv), h2]
        · intro hf
          rw [hB.sinkF hf, hW0.sinkF rfl]
        · intro hf
          have h2 := hB.sinkPre hf
          rcases Decidable.em (depth.getD sink none = none) with hnone | hsome
          · exact hnone
          · rw [hW0.mono sink hsome] at h2
            exact absurd h2 hsome


theorem countNone_replicate (n : Nat) :
    countNone (List.replicate n (none : Option Nat)) = n := by
  induction n with
  | zero => rfl
  | succ n ih =>
    rw [List.replicate_succ, countNone_cons, ih]
    simp [Nat.add_comm]

/-- The depth vector `levelGraph` starts from: all `-1` except
`depth[source] = 0`. -/
def initDepth (g : Graph) (source : Nat) : List (Option Nat) :=
  (List.replicate g.getNodes (none : Option Nat)).set source (some 0)

theorem initDepth_source {g : Graph} {source : Nat} (hsrc : source < g.getNodes) :
    (initDepth g source).getD source none = some 0 := by
  rw [initDepth, List.getD_eq_getElem?_getD,
    List.getElem?_set_self (by simpa using hsrc)]
  rfl

theorem initDepth_other {g : Graph} {source : Nat} (v : Nat) (hv : v ≠ source) :
    (initDepth g source).getD v none = none := by
  rw [initDepth, List.getD_eq_getElem?_getD,
    List.getElem?_set_ne (fun hc => hv hc.symm)]
  rw [← List.getD_eq_getElem?_getD, getD_replicate_eq]
  split <;> rfl

/-- The complete run of `levelGraph`: the fuel suffices and the result
satisfies all BFS guarantees relative to the initial state. -/
theorem levelGraph_run (g : Graph) (source sink : Nat)
    (hsrc : source < g.getNodes) :
    ∃ res, levelGraphO g source sink = some res ∧
      levelGraph g source sink = res ∧
      BfsRes g source sink (initDepth g source) [source] res := by
  have hlen : (initDepth g source).length = g.getNodes := by
    simp [initDepth]
  have hd0src : (initDepth g source).getD source none = some 0 :=
    initDepth_source hsrc
  have hassigned : ∀ v, (initDepth g source).getD v none ≠ none → v = source := by
    intro v hv
    by_contra hne
    exact hv (initDepth_other v hne)
  have hcount : countNone (initDepth g source) + 1 = g.getNodes := by
    rw [initDepth]
    have := countNone_set_some (List.replicate g.getNodes none) source 0
      (by simpa using hsrc) (by rw [getD_replicate_eq]; split <;> rfl)
    rw [this, countNone_replicate]
  have hrun := bfsLoop_ok g source sink (g.getNodes + 2) (initDepth g source)
    [source] hlen
    (by simp only [List.length_cons, List.length_nil]; omega)
    (by intro x hx; rcases List.mem_singleton.mp hx with rfl; exact hsrc)
    (by intro x hx; rcases List.mem_singleton.mp hx with rfl; rw [hd0src]; exact fun h => nomatch h)
    (by intro v hv; rw [hassigned v hv]; exact Relation.ReflTransGen.refl)
    (by intro u hu; exact Or.inl (by rw [hassigned u hu]; exact List.mem_singleton.mpr rfl))
    (by intro v hv; exact Or.inl (hassigned v hv))
  rcases hrun with ⟨res, heq, hB⟩
  refine ⟨res, ?_, ?_, hB⟩
  · rw [levelGraphO]
    exact heq
  · rw [levelGraph, levelGraphO]
    show (bfsLoop g sink (g.getNodes + 2) (initDepth g source) [source]).getD _ = res
    rw [heq]
    rfl

/-! ## Claim C6: levelGraph

The BFS assigns `depth[source] = 0`, expands along positive-capacity
edges assigning `depth[parent] + 1`, and returns `true` the instant the
sink is assigned.  The claim says it returns `false` exactly when the
sink is unreachable through positive-capacity edges; that fails in one
corner: when `sink == source` the sink depth is pre-assigned `0`, the
`depth[adjacent] == -1` guard can never fire for it, and `levelGraph`
returns `false` even though the sink is reachable (even through a
positive-capacity cycle).  With `sink ≠ source` the claim holds. -/

/-- C6 counterexample: graph with edges `0 → 1 → 0` of capacity 1
(`totalNodes = 2`), `source = sink = 0`: node 0 is reachable from
itself through positive-capacity edges (a two-step cycle), yet
`levelGraph` reports `false`. -/
theorem levelGraph_source_eq_sink_counterexample :
    (levelGraph (((Graph.mkNew 0).createEdge 0 1 1).createEdge 1 0 1) 0 0).2 =
      false ∧
    Reach (((Graph.mkNew 0).createEdge 0 1 1).createEdge 1 0 1) 0 0 := by
  constructor
  · decide
  · have h1 : edgeStep (((Graph.mkNew 0).createEdge 0 1 1).createEdge 1 0 1) 0 1 :=
      ⟨by decide, by decide⟩
    have h2 : edgeStep (((Graph.mkNew 0).createEdge 0 1 1).createEdge 1 0 1) 1 0 :=
      ⟨by decide, by decide⟩
    exact Relation.ReflTransGen.tail (Relation.ReflTransGen.tail
      Relation.ReflTransGen.refl h1) h2

/-- C6 (amended): for in-range `source` and `sink`, `levelGraph`
performs a BFS from the source along positive-residual-capacity edges:
`depth[source] = 0`; every assigned node is reachable and every
unreachable node keeps depth `-1` (`none`); each assigned node other
than the source received `depth[parent] + 1` across a positive edge;
and the result is `true` iff the sink is reachable AND distinct from
the source (when `sink = source` its depth is pre-assigned, it is never
"found", and the result is `false`). -/
theorem levelGraph_spec (g : Graph) (source sink : Nat)
    (hsrc : source < g.getNodes) (_hsink : sink < g.getNodes) :
    ((levelGraph g source sink).2 = true ↔
      sink ≠ source ∧ Reach g source sink) ∧
    (levelGraph g source sink).1.getD source none = some 0 ∧
    (∀ v, (levelGraph g source sink).1.getD v none ≠ none → Reach g source v) ∧
    (∀ v, ¬ Reach g source v →
      (levelGraph g source sink).1.getD v none = none) ∧
    (∀ v, (levelGraph g source sink).1.getD v none ≠ none → v = source ∨
      ∃ u, edgeStep g u v ∧
        (levelGraph g source sink).1.getD u none ≠ none ∧
        (levelGraph g source sink).1.getD v none =
          optSucc ((levelGraph g source sink).1.getD u none)) := by
  rcases levelGraph_run g source sink hsrc with ⟨res, _, hres, hB⟩
  rw [hres]
  have hd0src := @initDepth_source g source hsrc
  have hsrc_assigned : res.1.getD source none = some 0 := by
    rw [hB.mono source (by rw [hd0src]; exact fun h => nomatch h), hd0src]
  constructor
  · constructor
    · intro htrue
      constructor
      · intro hc
        subst hc
        have := hB.sinkPre htrue
        rw [hd0src] at this
        exact nomatch this
      · exact hB.sound sink (hB.sinkT htrue)
    · rintro ⟨hne, hreach⟩
      rcases hbool : res.2 with hfalse | htrue
      · exfalso
        have hclosed := hB.closed hbool
        have hsink_assigned : res.1.getD sink none ≠ none := by
          have : ∀ v, Reach g source v → res.1.getD v none ≠ none := by
            intro v hr
            induction hr with
            | refl => rw [hsrc_assigned]; exact fun h => nomatch h
            | tail hsteps hstep ih => exact hclosed _ ih _ hstep
          exact this sink hreach
        have : res.1.getD sink none = none := by
          rw [hB.sinkF hbool]
          exact initDepth_other sink hne
        exact hsink_assigned this
      · rfl
  · refine ⟨hsrc_assigned, hB.sound, ?_, hB.parent⟩
    intro v hnr
    by_contra hv
    exact hnr (hB.sound v hv)


/-! Helper lemmas about the phase loop. -/

theorem phaseLoop_false {source sink sfuel afuel m : Nat} {st : FFState}
    (h : (levelGraph st.graph source sink).2 = false) :
    phaseLoop source sink sfuel afuel (m + 1) st =
      ({ st with depth := (levelGraph st.graph source sink).1 }, none) := by
  have hunfold : phaseLoop source sink sfuel afuel (m + 1) st =
      (match levelGraph st.graph source sink with
       | (depth2, false) => ({ st with depth := depth2 }, none)
       | (depth2, true) =>
         match augmentLoop source sink sfuel afuel
             { graph := st.graph, depth := depth2,
               maxFlow := st.graph.adjacencyMatrix, pushed := st.pushed } with
         | (st2, none) => phaseLoop source sink sfuel afuel m st2
         | (st2, some e) => (st2, some e)) := rfl
  rw [hunfold]
  rcases hlg : levelGraph st.graph source sink with ⟨d2, b⟩
  rw [hlg] at h
  dsimp only at h
  subst h
  rfl

theorem updateResidualGraph_snd (g : Graph) (u v : Int) :
    (updateResidualGraph g u v).2 = none ∨
      (updateResidualGraph g u v).2 = some Err.outOfRange := by
  rw [updateResidualGraph]
  split
  · exact Or.inr rfl
  · exact Or.inl rfl

theorem commitPath_no_invalidArgument (path : List Nat) :
    ∀ g : Graph, (commitPath g path).2 ≠ some Err.invalidArgument := by
  induction path with
  | nil => intro g; simp [commitPath]
  | cons u tl ih =>
    cases tl with
    | nil => intro g; simp [commitPath]
    | cons v rest =>
      intro g
      rw [commitPath_cons]
      rcases h : updateResidualGraph g (u : Int) (v : Int) with ⟨g1, e⟩
      have hsnd := updateResidualGraph_snd g (u : Int) (v : Int)
      rw [h] at hsnd
      cases e with
      | none => exact ih g1
      | some err =>
        dsimp only at hsnd
        rcases hsnd with hc | hc
        · exact nomatch hc
        · intro hcontra
          dsimp only at hcontra
          rw [hc] at hcontra
          exact nomatch hcontra

theorem augmentLoop_no_invalidArgument (source sink sfuel : Nat) :
    ∀ (fuel : Nat) (st : FFState),
      (augmentLoop source sink sfuel fuel st).2 ≠ some Err.invalidArgument := by
  intro fuel
  induction fuel with
  | zero =>
    intro st hc
    exact nomatch hc
  | succ fuel ih =>
    intro st
    have hunfold : augmentLoop source sink sfuel (fuel + 1) st =
        (match findAugmentingPath st.graph st.depth st.maxFlow source sink sfuel with
         | none => (st, some Err.fuelOut)
         | some (s2, false) => ({ st with maxFlow := s2.mF }, none)
         | some (s2, true) =>
           match commitPath st.graph s2.path with
           | (g2, none) =>
             augmentLoop source sink sfuel fuel
               { graph := g2, depth := st.depth, maxFlow := s2.mF,
                 pushed := st.pushed + 1 }
           | (g2, some e) =>
             ({ graph := g2, depth := st.depth, maxFlow := s2.mF,
                pushed := st.pushed }, some e)) := rfl
    rw [hunfold]
    rcases hf : findAugmentingPath st.graph st.depth st.maxFlow source sink sfuel
      with _ | ⟨s2, b⟩
    · intro hc
      exact nomatch hc
    · cases b with
      | false =>
        intro hc
        exact nomatch hc
      | true =>
        dsimp only
        rcases hcp : commitPath st.graph s2.path with ⟨g2, e⟩
        have hnia := commitPath_no_invalidArgument s2.path st.graph
        rw [hcp] at hnia
        dsimp only at hnia
        cases e with
        | none => exact ih _
        | some err => exact hnia

theorem phaseLoop_no_invalidArgument (source sink sfuel afuel : Nat) :
    ∀ (fuel : Nat) (st : FFState),
      (phaseLoop source sink sfuel afuel fuel st).2 ≠ some Err.invalidArgument := by
  intro fuel
  induction fuel with
  | zero =>
    intro st hc
    exact nomatch hc
  | succ fuel ih =>
    intro st
    have hunfold : phaseLoop source sink sfuel afuel (fuel + 1) st =
        (match levelGraph st.graph source sink with
         | (depth2, false) => ({ st with depth := depth2 }, none)
         | (depth2, true) =>
           match augmentLoop source sink sfuel afuel
               { graph := st.graph, depth := depth2,
                 maxFlow := st.graph.adjacencyMatrix, pushed := st.pushed } with
           | (st2, none) => phaseLoop source sink sfuel afuel fuel st2
           | (st2, some e) => (st2, some e)) := rfl
    rw [hunfold]
    rcases hlg : levelGraph st.graph source sink with ⟨d2, b⟩
    cases b with
    | false =>
      intro hc
      exact nomatch hc
    | true =>
      dsimp only
      rcases hal : augmentLoop source sink sfuel afuel
          { graph := st.graph, depth := d2,
            maxFlow := st.graph.adjacencyMatrix, pushed := st.pushed }
        with ⟨st2, e⟩
      have hnia := augmentLoop_no_invalidArgument source sink sfuel afuel
        { graph := st.graph, depth := d2,
          maxFlow := st.graph.adjacencyMatrix, pushed := st.pushed }
      rw [hal] at hnia
      dsimp only at hnia
      cases e with
      | none => exact ih st2
      | some err => exact hnia

/-! ## Claim C5: calculateMaxFlow argument validation

The range check on `source` and `sink` is the first thing
`calculateMaxFlow` does: on failure the returned state is the input
state itself, so the capacity matrix (and everything else) is exactly
as before the call, and no phase has run.  When both indices are in
range the `InvalidArgument` error cannot arise: every error produced
further in (`outOfRange` from `updateResidualGraph`, or the embedding
marker `fuelOut`) is distinct from it. -/

/-- C5: `calculateMaxFlow` fails with `InvalidArgument` exactly when
`source` or `sink` lies outside `[0, totalNodes)`; the failure happens
before any mutation (the returned state is the input state), and no
such error is raised for in-range indices. -/
theorem calculateMaxFlow_invalidArgument_spec (st : FFState)
    (source sink : Int) (sfuel afuel pfuel : Nat) :
    ((source < 0 ∨ (st.graph.getNodes : Int) ≤ source ∨
        sink < 0 ∨ (st.graph.getNodes : Int) ≤ sink) →
      calculateMaxFlow st source sink sfuel afuel pfuel =
        (st, some Err.invalidArgument)) ∧
    (¬ (source < 0 ∨ (st.graph.getNodes : Int) ≤ source ∨
        sink < 0 ∨ (st.graph.getNodes : Int) ≤ sink) →
      (calculateMaxFlow st source sink sfuel afuel pfuel).2 ≠
        some Err.invalidArgument) := by
  constructor
  · intro hout
    rw [calculateMaxFlow, if_pos hout]
  · intro hin
    rw [calculateMaxFlow, if_neg hin]
    exact phaseLoop_no_invalidArgument _ _ _ _ _ _

/-- C5 witness: on a concrete fresh graph (`totalNodes = 2`), the call
with sink index 5 fails with `InvalidArgument` leaving the state
untouched, and the in-range call raises no such error. -/
theorem calculateMaxFlow_invalidArgument_spec_witness :
    calculateMaxFlow ⟨Graph.mkNew 0, [], [], 0⟩ 0 5 9 9 9 =
      (⟨Graph.mkNew 0, [], [], 0⟩, some Err.invalidArgument) ∧
    (calculateMaxFlow ⟨Graph.mkNew 0, [], [], 0⟩ 0 1 9 9 9).2 ≠
      some Err.invalidArgument := by
  constructor
  · exact (calculateMaxFlow_invalidArgument_spec ⟨Graph.mkNew 0, [], [], 0⟩
      0 5 9 9 9).1 (by decide)
  · exact (calculateMaxFlow_invalidArgument_spec ⟨Graph.mkNew 0, [], [], 0⟩
      0 1 9 9 9).2 (by decide)

/-! ## Claim C7: idempotence on an already-maximal residual graph

When the sink is unreachable from the source through positive residual
capacities, the first `levelGraph` of the phase loop reports `false`,
so the loop body (snapshot + blocking flow) never runs: zero phases,
zero units pushed, and the capacity matrix is byte-for-byte the input
one.  This covers in particular a second `calculateMaxFlow` call on the
residual state left behind by a completed first call. -/

/-- C7: with in-range `source`/`sink` and the sink unreachable in the
residual graph, `calculateMaxFlow` performs zero phases: no error, the
capacity matrix unchanged, no unit pushed, the phase snapshot
untouched. -/
theorem calculateMaxFlow_idempotent (st : FFState) (source sink : Int)
    (sfuel afuel pfuel : Nat)
    (hs0 : 0 ≤ source) (hs1 : source < (st.graph.getNodes : Int))
    (ht0 : 0 ≤ sink) (ht1 : sink < (st.graph.getNodes : Int))
    (hpf : 0 < pfuel)
    (hnr : ¬ Reach st.graph source.toNat sink.toNat) :
    (calculateMaxFlow st source sink sfuel afuel pfuel).2 = none ∧
    (calculateMaxFlow st source sink sfuel afuel pfuel).1.graph = st.graph ∧
    (calculateMaxFlow st source sink sfuel afuel pfuel).1.pushed = st.pushed ∧
    (calculateMaxFlow st source sink sfuel afuel pfuel).1.maxFlow = st.maxFlow := by
  have hcond : ¬ (source < 0 ∨ (st.graph.getNodes : Int) ≤ source ∨
      sink < 0 ∨ (st.graph.getNodes : Int) ≤ sink) := by omega
  have hsrcn : source.toNat < st.graph.getNodes := by omega
  rcases levelGraph_run st.graph source.toNat sink.toNat hsrcn
    with ⟨res, _, hres, hB⟩
  have hfalse : (levelGraph st.graph source.toNat sink.toNat).2 = false := by
    rw [hres]
    rcases hbool : res.2 with _ | _
    · rfl
    · exact absurd (hB.sound _ (hB.sinkT hbool)) hnr
  rcases pfuel with _ | m
  · omega
  · rw [calculateMaxFlow, if_neg hcond, phaseLoop_false hfalse]
    exact ⟨rfl, rfl, rfl, rfl⟩

/-- Unreachability witness: in a fresh graph with no edges there is no
positive-capacity path from node 0 to node 1. -/
theorem not_reach_mkNew : ¬ Reach (Graph.mkNew 0) 0 1 := by
  intro h
  rcases Relation.ReflTransGen.cases_head h with heq | ⟨c, hc, _⟩
  · exact absurd heq (by decide)
  · have h2 := hc.2
    rw [matGet_mkNew] at h2
    exact absurd h2 (by decide)

/-- C7 witness: concrete already-maximal residual graph (no edges at
all), in-range source 0 and sink 1. -/
theorem calculateMaxFlow_idempotent_witness :
    (calculateMaxFlow ⟨Graph.mkNew 0, [], [], 3⟩ 0 1 7 7 7).2 = none ∧
    (calculateMaxFlow ⟨Graph.mkNew 0, [], [], 3⟩ 0 1 7 7 7).1.graph =
      Graph.mkNew 0 ∧
    (calculateMaxFlow ⟨Graph.mkNew 0, [], [], 3⟩ 0 1 7 7 7).1.pushed = 3 ∧
    (calculateMaxFlow ⟨Graph.mkNew 0, [], [], 3⟩ 0 1 7 7 7).1.maxFlow = [] :=
  calculateMaxFlow_idempotent ⟨Graph.mkNew 0, [], [], 3⟩ 0 1 7 7 7
    (by decide) (by decide) (by decide) (by decide) (by decide) not_reach_mkNew

/-- C6 witness: a concrete wired graph with one bipartite edge;
instantiating the level-graph specification at `source = 0`,
`sink = 3`. -/
theorem levelGraph_spec_witness :
    ((levelGraph (((Graph.mkNew 2).createEdge 1 2 1).connectSourceAndSinkNodes 0 3)
        0 3).2 = true ↔
      3 ≠ 0 ∧
        Reach (((Graph.mkNew 2).createEdge 1 2 1).connectSourceAndSinkNodes 0 3)
          0 3) :=
  (levelGraph_spec (((Graph.mkNew 2).createEdge 1 2 1).connectSourceAndSinkNodes 0 3)
    0 3 (by decide) (by decide)).1


/-! ## Dead-end pruning machinery (for the path search) -/

/-- A node whose incoming snapshot column is entirely zero: the search
can never advance into it again. -/
def ColZero (mF : Mat) (v : Nat) : Prop := ∀ i, matGet mF i v = 0

theorem getD_oob {α : Type} (l : List α) (i : Nat) (d : α) (h : l.length ≤ i) :
    l.getD i d = d := by
  rw [List.getD_eq_getElem?_getD, List.getElem?_eq_none h]
  rfl

theorem matGet_oob_row (m : Mat) {i : Nat} (j : Nat) (h : m.length ≤ i) :
    matGet m i j = 0 := by
  rw [matGet, getD_oob m i [] h]
  rfl

theorem matGet_matSet_zero_self (m : Mat) (i j : Nat) :
    matGet (matSet m i j 0) i j = 0 := by
  rcases Decidable.em (i < m.length) with hi | hi
  · rcases Decidable.em (j < (m.getD i []).length) with hj | hj
    · exact matGet_matSet_self m 0 hi hj
    · have h1 : matSet m i j 0 = m.set i (m.getD i []) := by
        rw [matSet, List.set_eq_of_length_le (Nat.le_of_not_lt hj)]
      have h2 : (m.set i (m.getD i [])).getD i [] = m.getD i [] := by
        rw [List.getD_eq_getElem?_getD, List.getElem?_set_self hi]
        rfl
      rw [h1, matGet, h2]
      exact getD_oob _ j 0 (Nat.le_of_not_lt hj)
  · rw [matSet_oob m j 0 (Nat.le_of_not_lt hi)]
    exact matGet_oob_row m j (Nat.le_of_not_lt hi)

theorem fold_clear_len (node : Nat) : ∀ (L : List Nat) (m : Mat),
    (L.foldl (fun m2 k => matSet m2 k node 0) m).length = m.length := by
  intro L
  induction L with
  | nil => intro m; rfl
  | cons k rest ih =>
    intro m
    rw [List.foldl_cons, ih, length_matSet]

theorem fold_clear_other (node : Nat) : ∀ (L : List Nat) (m : Mat) (i j : Nat),
    j ≠ node → matGet (L.foldl (fun m2 k => matSet m2 k node 0) m) i j =
      matGet m i j := by
  intro L
  induction L with
  | nil => intro m i j _; rfl
  | cons k rest ih =>
    intro m i j hj
    rw [List.foldl_cons, ih _ i j hj, matGet_matSet_ne _ _ (Or.inr (fun hc => hj hc.symm))]

theorem fold_clear_zero (node : Nat) : ∀ (L : List Nat) (m : Mat) (i : Nat),
    matGet m i node = 0 →
    matGet (L.foldl (fun m2 k => matSet m2 k node 0) m) i node = 0 := by
  intro L
  induction L with
  | nil => intro m i h; exact h
  | cons k rest ih =>
    intro m i h
    rw [List.foldl_cons]
    apply ih
    rcases Decidable.em (k = i) with rfl | hk
    · exact matGet_matSet_zero_self m k node
    · rw [matGet_matSet_ne _ _ (Or.inl hk)]
      exact h

theorem fold_clear_mem (node : Nat) : ∀ (L : List Nat) (m : Mat) (i : Nat),
    i ∈ L → matGet (L.foldl (fun m2 k => matSet m2 k node 0) m) i node = 0 := by
  intro L
  induction L with
  | nil =>
    intro m i h
    exact absurd h (List.not_mem_nil i)
  | cons k rest ih =>
    intro m i h
    rw [List.foldl_cons]
    rcases Decidable.em (i ∈ rest) with hr | hr
    · exact ih _ i hr
    · have hik : i = k := by
        rcases List.mem_cons.mp h with rfl | h2
        · rfl
        · exact absurd h2 hr
      subst hik
      exact fold_clear_zero node rest _ i (matGet_matSet_zero_self m i node)

theorem clearMaxFlowAtNode_colZero (g : Graph) (mF : Mat) (node : Nat)
    (hlen : mF.length ≤ g.getNodes) :
    ColZero (clearMaxFlowAtNode g mF node) node := by
  intro i
  rcases Decidable.em (i < mF.length) with hi | hi
  · exact fold_clear_mem node _ mF i (List.mem_range.mpr (by omega))
  · rw [clearMaxFlowAtNode]
    exact matGet_oob_row _ node
      (by rw [fold_clear_len]; exact Nat.le_of_not_lt hi)

theorem clearMaxFlowAtNode_other (g : Graph) (mF : Mat) (node i j : Nat)
    (hj : j ≠ node) :
    matGet (clearMaxFlowAtNode g mF node) i j = matGet mF i j :=
  fold_clear_other node _ mF i j hj

/-! Case equations of `findNextNodeInPath`. -/

theorem findNextNodeInPath_advance {g : Graph} {depth : List (Option Nat)}
    {source : Nat} {st : SearchSt} {w : Nat}
    (hsome : findFirstAdmissible g depth st.mF st.node = some w) :
    findNextNodeInPath g depth source st =
      (⟨w, if st.backtracking then st.path else st.path ++ [st.node],
        false, st.mF⟩, true) := by
  rw [findNextNodeInPath, hsome]

theorem findNextNodeInPath_sourceFail {g : Graph} {depth : List (Option Nat)}
    {source : Nat} {st : SearchSt}
    (hnone : findFirstAdmissible g depth st.mF st.node = none)
    (hs : st.node = source) :
    findNextNodeInPath g depth source st =
      (⟨st.node, if st.backtracking then st.path else st.path ++ [st.node],
        false, st.mF⟩, false) := by
  rw [findNextNodeInPath, hnone]
  dsimp only
  rw [if_pos hs]

theorem findNextNodeInPath_deadEnd {g : Graph} {depth : List (Option Nat)}
    {source : Nat} {st : SearchSt}
    (hnone : findFirstAdmissible g depth st.mF st.node = none)
    (hns : st.node ≠ source) :
    findNextNodeInPath g depth source st =
      (⟨match ((if st.backtracking then st.path else
            st.path ++ [st.node]).dropLast).getLast? with
         | some x => x
         | none => st.node,
        (if st.backtracking then st.path else st.path ++ [st.node]).dropLast,
        true, clearMaxFlowAtNode g st.mF st.node⟩, true) := by
  rw [findNextNodeInPath, hnone]
  dsimp only
  rw [if_neg hns]


/-- One search step can never enter a node whose snapshot column is
zero: advancing requires positive snapshot capacity into it, pruning
only zeroes other columns, and popping returns to a path node. -/
theorem deadColumn_step (g : Graph) (depth : List (Option Nat)) (source v : Nat)
    (st2 : SearchSt) (hcz : ColZero st2.mF v) (hpath : v ∉ st2.path)
    (hnode : st2.node ≠ v) :
    ColZero (findNextNodeInPath g depth source st2).1.mF v ∧
    v ∉ (findNextNodeInPath g depth source st2).1.path ∧
    (findNextNodeInPath g depth source st2).1.node ≠ v := by
  have hpath1 : v ∉ (if st2.backtracking then st2.path else st2.path ++ [st2.node]) := by
    split
    · exact hpath
    · intro hmem
      rcases List.mem_append.mp hmem with h1 | h2
      · exact hpath h1
      · have h3 : v = st2.node := by simpa using h2
        exact hnode h3.symm
  rcases hfa : findFirstAdmissible g depth st2.mF st2.node with _ | w
  · rcases Decidable.em (st2.node = source) with hs | hs
    · rw [findNextNodeInPath_sourceFail hfa hs]
      exact ⟨hcz, hpath1, hnode⟩
    · rw [findNextNodeInPath_deadEnd hfa hs]
      refine ⟨?_, ?_, ?_⟩
      · intro i
        rw [clearMaxFlowAtNode_other g st2.mF st2.node i v
          (fun hc => hnode hc.symm)]
        exact hcz i
      · intro hmem
        exact hpath1 ((List.dropLast_sublist _).subset hmem)
      · show (match ((if st2.backtracking then st2.path else
            st2.path ++ [st2.node]).dropLast).getLast? with
          | some x => x
          | none => st2.node) ≠ v
        rcases hlast : ((if st2.backtracking then st2.path else
            st2.path ++ [st2.node]).dropLast).getLast? with _ | p
        · exact hnode
        · intro hc
          subst hc
          exact hpath1 ((List.dropLast_sublist _).subset
            (List.mem_of_getLast?_eq_some hlast))
  · rw [findNextNodeInPath_advance hfa]
    refine ⟨hcz, hpath1, ?_⟩
    intro hc
    have hw : w = v := hc
    subst hw
    have hp := List.find?_some hfa
    have hpos : 0 < matGet st2.mF st2.node w := (of_decide_eq_true hp).2
    have hz := hcz st2.node
    omega

/-- The whole iterative path search preserves a zero column (of a node
other than the sink) and never makes that node the cursor nor puts it
on the path. -/
theorem deadColumn_searchLoop (g : Graph) (depth : List (Option Nat))
    (source sink v : Nat) (hvs : v ≠ sink) :
    ∀ (fuel : Nat) (st2 : SearchSt), ColZero st2.mF v → v ∉ st2.path →
      st2.node ≠ v →
      ∀ r, searchLoop g depth source sink fuel st2 = some r →
        ColZero r.1.mF v ∧ v ∉ r.1.path ∧ r.1.node ≠ v := by
  intro fuel
  induction fuel with
  | zero =>
    intro st2 _ _ _ r hr
    exact nomatch hr
  | succ fuel ih =>
    intro st2 hcz hpath hnode r hr
    have hstep := deadColumn_step g depth source v st2 hcz hpath hnode
    have hunfold : searchLoop g depth source sink (fuel + 1) st2 =
        (match findNextNodeInPath g depth source st2 with
         | (st3, false) => some (st3, false)
         | (st3, true) =>
           if st3.node = sink then
             some (⟨st3.node, st3.path ++ [sink], st3.backtracking, st3.mF⟩, true)
           else searchLoop g depth source sink fuel st3) := rfl
    rw [hunfold] at hr
    rcases hstep2 : findNextNodeInPath g depth source st2 with ⟨st3, b⟩
    rw [hstep2] at hstep
    rw [hstep2] at hr
    cases b with
    | false =>
      dsimp only at hr
      rcases Option.some.inj hr with rfl
      exact hstep
    | true =>
      dsimp only at hr
      rcases Decidable.em (st3.node = sink) with hsink | hsink
      · rw [if_pos hsink] at hr
        rcases Option.some.inj hr with rfl
        refine ⟨hstep.1, ?_, ?_⟩
        · intro hmem
          rcases List.mem_append.mp hmem with h1 | h2
          · exact hstep.2.1 h1
          · exact hvs (by simpa using h2)
        · show st3.node ≠ v
          exact hstep.2.2
      · rw [if_neg hsink] at hr
        exact ih st3 hstep.1 hstep.2.1 hstep.2.2 r hr

/-- `findAugmentingPath` preserves a zero column of a node other than
source and sink, and any state it returns keeps that node off the
path. -/
theorem deadColumn_findAugmentingPath (g : Graph) (depth : List (Option Nat))
    (mF : Mat) (source sink v : Nat) (hvs : v ≠ sink) (hvsrc : v ≠ source)
    (hcz : ColZero mF v) (fuel : Nat) :
    ∀ r, findAugmentingPath g depth mF source sink fuel = some r →
      ColZero r.1.mF v ∧ v ∉ r.1.path ∧ r.1.node ≠ v := by
  intro r hr
  rw [findAugmentingPath] at hr
  rcases Decidable.em (source = sink) with hss | hss
  · rw [if_pos hss] at hr
    rcases Option.some.inj hr with rfl
    exact ⟨hcz, fun h => absurd h (List.not_mem_nil v), fun hc => hvsrc hc.symm⟩
  · rw [if_neg hss] at hr
    exact deadColumn_searchLoop g depth source sink v hvs fuel
      ⟨source, [], false, mF⟩ hcz (List.not_mem_nil v)
      (fun hc => hvsrc hc.symm) r hr

/-- The blocking-flow loop of a phase preserves a zero snapshot column
of a node other than source and sink: once a node is pruned, no later
search of the same phase ever enters it. -/
theorem deadColumn_augmentLoop (source sink sfuel v : Nat) (hvs : v ≠ sink)
    (hvsrc : v ≠ source) :
    ∀ (fuel : Nat) (st2 : FFState), ColZero st2.maxFlow v →
      ColZero (augmentLoop source sink sfuel fuel st2).1.maxFlow v := by
  intro fuel
  induction fuel with
  | zero =>
    intro st2 hcz
    exact hcz
  | succ fuel ih =>
    intro st2 hcz
    have hunfold : augmentLoop source sink sfuel (fuel + 1) st2 =
        (match findAugmentingPath st2.graph st2.depth st2.maxFlow source sink sfuel with
         | none => (st2, some Err.fuelOut)
         | some (s2, false) => ({ st2 with maxFlow := s2.mF }, none)
         | some (s2, true) =>
           match commitPath st2.graph s2.path with
           | (g2, none) =>
             augmentLoop source sink sfuel fuel
               { graph := g2, depth := st2.depth, maxFlow := s2.mF,
                 pushed := st2.pushed + 1 }
           | (g2, some e) =>
             ({ graph := g2, depth := st2.depth, maxFlow := s2.mF,
                pushed := st2.pushed }, some e)) := rfl
    rw [hunfold]
    rcases hf : findAugmentingPath st2.graph st2.depth st2.maxFlow source sink sfuel
      with _ | ⟨s2, b⟩
    · exact hcz
    · have hsafe := deadColumn_findAugmentingPath st2.graph st2.depth st2.maxFlow
        source sink v hvs hvsrc hcz sfuel (s2, b) hf
      cases b with
      | false => exact hsafe.1
      | true =>
        dsimp only
        rcases hcp : commitPath st2.graph s2.path with ⟨g2, e⟩
        cases e with
        | none => exact ih _ hsafe.1
        | some err => exact hsafe.1

/-! ## Claim C3: dead-end pruning in the path search

When the cursor has no admissible neighbor (in the sense of the claim:
no `v` at the next depth level with positive snapshot capacity — this
implies the code finds none, since the code additionally requires
positive real capacity) and the cursor is not the source, the step
zeroes the cursor's entire incoming snapshot column, pops it off the
path (it was appended on entry when not backtracking), resumes from
the predecessor with the backtracking flag set, and — because every
later advance requires positive snapshot capacity into its target,
pruning only zeroes other columns, and every search of the phase
starts at the source with an empty path — that node is never entered
again by any path search within the same phase. -/

/-- C3: dead-end behavior of `findNextNodeInPath` plus phase-wide
exclusion of the pruned node. -/
theorem findNextNodeInPath_deadEnd_spec (g : Graph) (depth : List (Option Nat))
    (source : Nat) (st : SearchSt)
    (hdead : ∀ v, v < g.getNodes →
      ¬ (optSucc (depth.getD st.node none) = depth.getD v none ∧
          0 < matGet st.mF st.node v))
    (hns : st.node ≠ source)
    (hlen : st.mF.length ≤ g.getNodes) :
    (findNextNodeInPath g depth source st).2 = true ∧
    (findNextNodeInPath g depth source st).1.backtracking = true ∧
    ColZero (findNextNodeInPath g depth source st).1.mF st.node ∧
    (findNextNodeInPath g depth source st).1.path =
      (if st.backtracking then st.path else st.path ++ [st.node]).dropLast ∧
    (st.backtracking = false →
      (findNextNodeInPath g depth source st).1.path = st.path ∧
      ∀ p, st.path.getLast? = some p →
        (findNextNodeInPath g depth source st).1.node = p) ∧
    (∀ st2 : SearchSt, ColZero st2.mF st.node → st.node ∉ st2.path →
      st2.node ≠ st.node →
      ColZero (findNextNodeInPath g depth source st2).1.mF st.node ∧
      st.node ∉ (findNextNodeInPath g depth source st2).1.path ∧
      (findNextNodeInPath g depth source st2).1.node ≠ st.node) ∧
    (∀ (sink fuel : Nat) (st2 : SearchSt) (r : SearchSt × Bool),
      st.node ≠ sink → ColZero st2.mF st.node → st.node ∉ st2.path →
      st2.node ≠ st.node →
      searchLoop g depth source sink fuel st2 = some r →
      ColZero r.1.mF st.node ∧ st.node ∉ r.1.path ∧ r.1.node ≠ st.node) ∧
    (∀ (sink sfuel fuel : Nat) (st2 : FFState), st.node ≠ sink →
      ColZero st2.maxFlow st.node →
      ColZero (augmentLoop source sink sfuel fuel st2).1.maxFlow st.node) := by
  have hfa : findFirstAdmissible g depth st.mF st.node = none := by
    rw [findFirstAdmissible, List.find?_eq_none]
    intro x hx
    have hxn : x < g.getNodes := (mem_findAdjacentNodes.mp hx).1
    intro hp
    exact hdead x hxn (of_decide_eq_true hp)
  rw [findNextNodeInPath_deadEnd hfa hns]
  refine ⟨rfl, rfl, clearMaxFlowAtNode_colZero g st.mF st.node hlen, rfl,
    ?_, ?_, ?_, ?_⟩
  · intro hbt
    rw [hbt]
    refine ⟨by simp, ?_⟩
    intro p hp
    show (match (st.path ++ [st.node]).dropLast.getLast? with
      | some x => x
      | none => st.node) = p
    rw [List.dropLast_concat, hp]
  · intro st2 hcz hpath hnode
    exact deadColumn_step g depth source st.node st2 hcz hpath hnode
  · intro sink fuel st2 r hsink hcz hpath hnode hr
    exact deadColumn_searchLoop g depth source sink st.node hsink fuel st2
      hcz hpath hnode r hr
  · intro sink sfuel fuel st2 hsink hcz
    exact deadColumn_augmentLoop source sink sfuel st.node hsink hns fuel st2 hcz

/-- C3 witness: in a fresh graph with no edges, cursor 1 (not the
source 0) has no admissible neighbor; the step prunes it, pops it, and
backtracks to the predecessor 0. -/
theorem findNextNodeInPath_deadEnd_spec_witness :
    (findNextNodeInPath (Graph.mkNew 0) [some 0, some 1] 0
        ⟨1, [0], false, (Graph.mkNew 0).adjacencyMatrix⟩).2 = true ∧
    (findNextNodeInPath (Graph.mkNew 0) [some 0, some 1] 0
        ⟨1, [0], false, (Graph.mkNew 0).adjacencyMatrix⟩).1.backtracking = true ∧
    (findNextNodeInPath (Graph.mkNew 0) [some 0, some 1] 0
        ⟨1, [0], false, (Graph.mkNew 0).adjacencyMatrix⟩).1.path = [0] ∧
    (findNextNodeInPath (Graph.mkNew 0) [some 0, some 1] 0
        ⟨1, [0], false, (Graph.mkNew 0).adjacencyMatrix⟩).1.node = 0 := by
  have h := findNextNodeInPath_deadEnd_spec (Graph.mkNew 0) [some 0, some 1] 0
    ⟨1, [0], false, (Graph.mkNew 0).adjacencyMatrix⟩ (by decide) (by decide)
    (by decide)
  refine ⟨h.1, h.2.1, (h.2.2.2.2.1 rfl).1, (h.2.2.2.2.1 rfl).2 0 rfl⟩


/-! ## Termination machinery for the path search

`dval` linearizes BFS depths (`none < some 0 < some 1 < ...`); a path
built by the search is ascending: each node sits one level deeper than
its predecessor, which makes its nodes pairwise distinct.  `colPos`
detects a nonzero snapshot column; pruning a dead end turns its column
off and never turns one on, giving the decreasing measure for one
phase's search. -/

def dval : Option Nat → Nat
  | none => 0
  | some d => d + 1

theorem dval_optSucc (o : Option Nat) : dval (optSucc o) = dval o + 1 := by
  rcases o with _ | d <;> rfl

/-- Consecutive path nodes are one BFS level apart. -/
def Asc (depth : List (Option Nat)) (l : List Nat) : Prop :=
  List.Chain' (fun a b => depth.getD b none = optSucc (depth.getD a none)) l

theorem Asc_nil (depth : List (Option Nat)) : Asc depth [] := List.chain'_nil

theorem Asc_singleton (depth : List (Option Nat)) (a : Nat) : Asc depth [a] :=
  List.chain'_singleton a

theorem Asc_dropLast {depth : List (Option Nat)} {l : List Nat} (h : Asc depth l) :
    Asc depth l.dropLast :=
  List.Chain'.prefix h (List.dropLast_prefix l)

/-- Along an ascending list ending in `z`, every depth value is at most
the depth value of `z`. -/
theorem Asc_le_last {depth : List (Option Nat)} :
    ∀ {l : List Nat} {z : Nat}, Asc depth l → l.getLast? = some z →
      ∀ x ∈ l, dval (depth.getD x none) ≤ dval (depth.getD z none) := by
  intro l
  induction l with
  | nil =>
    intro z _ hz
    exact nomatch hz
  | cons a rest ih =>
    intro z hasc hz x hx
    cases rest with
    | nil =>
      have hza : z = a := by
        have : some a = some z := by simpa using hz
        exact (Option.some.inj this).symm
      subst hza
      have hxa : x = z := by simpa using hx
      subst hxa
      exact le_refl _
    | cons b rest2 =>
      have hz2 : (b :: rest2).getLast? = some z := by
        rw [List.getLast?_cons_cons] at hz
        exact hz
      have hasc2 : Asc depth (b :: rest2) := (List.chain'_cons.mp hasc).2
      have hab : depth.getD b none = optSucc (depth.getD a none) :=
        (List.chain'_cons.mp hasc).1
      rcases List.mem_cons.mp hx with rfl | hx2
      · have hb := ih hasc2 hz2 b (List.mem_cons_self _ _)
        rw [hab, dval_optSucc] at hb
        omega
      · exact ih hasc2 hz2 x hx2

/-- Extending a chain by one compatible element at the end. -/
theorem chain_append_singleton {α : Type} {R : α → α → Prop} :
    ∀ {l : List α} {a b : α}, List.Chain' R l → l.getLast? = some a → R a b →
      List.Chain' R (l ++ [b]) := by
  intro l
  induction l with
  | nil =>
    intro a b _ hl _
    exact nomatch hl
  | cons c rest ih =>
    intro a b hc hl hab
    cases rest with
    | nil =>
      have hca : c = a := by simpa using hl
      subst hca
      exact List.chain'_cons.mpr ⟨hab, List.chain'_singleton b⟩
    | cons d rest2 =>
      rw [List.getLast?_cons_cons] at hl
      have h2 := List.chain'_cons.mp hc
      exact List.chain'_cons.mpr ⟨h2.1, ih h2.2 hl hab⟩

/-- Appending a strictly deeper node to an ascending list. -/
theorem Asc_append {depth : List (Option Nat)} {l : List Nat} {a b : Nat}
    (h : Asc depth l) (hl : l.getLast? = some a)
    (hab : depth.getD b none = optSucc (depth.getD a none)) :
    Asc depth (l ++ [b]) :=
  chain_append_singleton h hl hab

/-- The appended node of an ascending extension is fresh. -/
theorem Asc_append_not_mem {depth : List (Option Nat)} {l : List Nat} {a b : Nat}
    (h : Asc depth l) (hl : l.getLast? = some a)
    (hab : depth.getD b none = optSucc (depth.getD a none)) :
    b ∉ l := by
  intro hmem
  have := Asc_le_last h hl b hmem
  rw [hab, dval_optSucc] at this
  omega

/-- Along an ascending list, the head has the least depth value. -/
theorem Asc_head_le {depth : List (Option Nat)} :
    ∀ {l : List Nat} {z : Nat}, Asc depth l → l.head? = some z →
      ∀ x ∈ l, dval (depth.getD z none) ≤ dval (depth.getD x none) := by
  intro l
  induction l with
  | nil =>
    intro z _ hz
    exact nomatch hz
  | cons a rest ih =>
    intro z hasc hz x hx
    have hza : a = z := by simpa using hz
    subst hza
    rcases List.mem_cons.mp hx with rfl | hx2
    · exact le_refl _
    · cases rest with
      | nil => exact absurd hx2 (List.not_mem_nil x)
      | cons b rest2 =>
        have h2 := List.chain'_cons.mp hasc
        have hab : depth.getD b none = optSucc (depth.getD a none) := h2.1
        have := ih h2.2 (rfl : (b :: rest2).head? = some b) x hx2
        rw [hab, dval_optSucc] at this
        omega

/-- Ascending lists have pairwise distinct nodes. -/
theorem Asc_nodup {depth : List (Option Nat)} :
    ∀ {l : List Nat}, Asc depth l → l.Nodup := by
  intro l
  induction l with
  | nil => intro _; exact List.nodup_nil
  | cons a rest ih =>
    intro hasc
    cases rest with
    | nil => simp
    | cons b rest2 =>
      have h2 := List.chain'_cons.mp hasc
      refine List.nodup_cons.mpr ⟨?_, ih h2.2⟩
      intro hmem
      have hle := Asc_head_le h2.2 (rfl : (b :: rest2).head? = some b) a hmem
      rw [h2.1, dval_optSucc] at hle
      omega

/-- Nonzero-column detector for the snapshot matrix. -/
def colPos (mF : Mat) (v : Nat) : Bool :=
  (List.range mF.length).any (fun i => decide (0 < matGet mF i v))

theorem colPos_of_pos {mF : Mat} {i v : Nat} (h : 0 < matGet mF i v) :
    colPos mF v = true := by
  have hi : i < mF.length := by
    by_contra hge
    rw [matGet_oob_row mF v (Nat.le_of_not_lt hge)] at h
    omega
  rw [colPos, List.any_eq_true]
  exact ⟨i, List.mem_range.mpr hi, by simpa using h⟩

theorem colPos_false_of_colZero {mF : Mat} {v : Nat} (h : ColZero mF v) :
    colPos mF v = false := by
  rw [colPos]
  rw [List.any_eq_false]
  intro i _
  rw [h i]
  simp

/-- Number of nonzero columns among the first `n`. -/
def colCount (mF : Mat) (n : Nat) : Nat :=
  ((List.range n).filter (fun v => colPos mF v)).length

theorem filter_length_le {p q : Nat → Bool} (l : List Nat)
    (h : ∀ x ∈ l, q x = true → p x = true) :
    (l.filter q).length ≤ (l.filter p).length := by
  rw [← List.countP_eq_length_filter, ← List.countP_eq_length_filter]
  exact List.countP_mono_left h

theorem filter_length_lt {p q : Nat → Bool} :
    ∀ (l : List Nat), (∀ x ∈ l, q x = true → p x = true) →
      ∀ x ∈ l, p x = true → q x = false →
        (l.filter q).length < (l.filter p).length := by
  intro l
  induction l with
  | nil =>
    intro _ x hx
    exact absurd hx (List.not_mem_nil x)
  | cons a rest ih =>
    intro himp x hx hp hq
    have himp2 : ∀ y ∈ rest, q y = true → p y = true :=
      fun y hy => himp y (List.mem_cons_of_mem _ hy)
    rcases List.mem_cons.mp hx with rfl | hx2
    · rw [List.filter_cons_of_pos hp, List.filter_cons_of_neg (by simp [hq])]
      have := filter_length_le rest himp2
      simp only [List.length_cons]
      omega
    · have hlt := ih himp2 x hx2 hp hq
      rcases hqa : q a with _ | _
      · rcases hpa : p a with _ | _
        · rw [List.filter_cons_of_neg (by simp [hqa]),
            List.filter_cons_of_neg (by simp [hpa])]
          exact hlt
        · rw [List.filter_cons_of_neg (by simp [hqa]), List.filter_cons_of_pos hpa]
          simp only [List.length_cons]
          omega
      · have hpa : p a = true := himp a (List.mem_cons_self _ _) hqa
        rw [List.filter_cons_of_pos hqa, List.filter_cons_of_pos hpa]
        simp only [List.length_cons]
        omega

/-! ## Claim C2: termination machinery

The search measure combines the number of positive snapshot columns
(pruning permanently zeroes one) with the effective path length (the
path with the cursor at its end, as the loop body appends the cursor
before scanning). -/

/-- A duplicate-free list of naturals below `n` has at most `n`
elements. -/
theorem nodup_length_le {l : List Nat} {n : Nat} (hnd : l.Nodup)
    (hb : ∀ x ∈ l, x < n) : l.length ≤ n := by
  have h1 : l.toFinset.card = l.length := List.toFinset_card_of_nodup hnd
  have h2 : l.toFinset ⊆ Finset.range n := by
    intro x hx
    exact Finset.mem_range.mpr (hb x (List.mem_toFinset.mp hx))
  have h3 := Finset.card_le_card h2
  rw [h1, Finset.card_range] at h3
  exact h3

theorem any_congr_mem {l : List Nat} {f h : Nat → Bool}
    (hfh : ∀ x ∈ l, f x = h x) : l.any f = l.any h := by
  induction l with
  | nil => rfl
  | cons a t ih =>
    simp only [List.any_cons, hfh a (List.mem_cons_self _ _),
      ih (fun x hx => hfh x (List.mem_cons_of_mem _ hx))]

theorem colPos_eq_of_pointwise {m1 m2 : Mat} {v : Nat}
    (hlen : m2.length = m1.length)
    (hpt : ∀ i, matGet m2 i v = matGet m1 i v) :
    colPos m2 v = colPos m1 v := by
  rw [colPos, colPos, hlen]
  exact any_congr_mem (fun i _ => by rw [hpt i])

theorem clearMaxFlowAtNode_len (g : Graph) (mF : Mat) (node : Nat) :
    (clearMaxFlowAtNode g mF node).length = mF.length := by
  rw [clearMaxFlowAtNode, fold_clear_len]

theorem colPos_clear_other (g : Graph) (mF : Mat) (node x : Nat)
    (hx : x ≠ node) :
    colPos (clearMaxFlowAtNode g mF node) x = colPos mF x :=
  colPos_eq_of_pointwise (clearMaxFlowAtNode_len g mF node)
    (fun i => clearMaxFlowAtNode_other g mF node i x hx)

theorem colCount_le (mF m2 : Mat) (n : Nat)
    (hpt : ∀ v, colPos m2 v = true → colPos mF v = true) :
    colCount m2 n ≤ colCount mF n :=
  filter_length_le (List.range n) (fun v _ => hpt v)

theorem colCount_lt (mF m2 : Mat) (n x : Nat)
    (hpt : ∀ v, colPos m2 v = true → colPos mF v = true)
    (hx : x < n) (hpos : colPos mF x = true) (hneg : colPos m2 x = false) :
    colCount m2 n < colCount mF n :=
  filter_length_lt (List.range n) (fun v _ => hpt v) x
    (List.mem_range.mpr hx) hpos hneg

theorem colCount_le_n (mF : Mat) (n : Nat) : colCount mF n ≤ n := by
  have h := List.length_filter_le (fun v => colPos mF v) (List.range n)
  rw [colCount]
  simpa using h

/-- In a chain, an element other than the last has a successor. -/
theorem chain'_mem_next {R : Nat → Nat → Prop} :
    ∀ {l : List Nat} {z s : Nat}, List.Chain' R l → z ∈ l →
      l.getLast? = some s → z ≠ s → ∃ w ∈ l, R z w := by
  intro l
  induction l with
  | nil =>
    intro z s _ hz
    exact absurd hz (List.not_mem_nil z)
  | cons a rest ih =>
    intro z s hc hz hl hzs
    cases rest with
    | nil =>
      have hza : z = a := by simpa using hz
      have hsa : a = s := by simpa using hl
      exact absurd (hza.trans hsa) hzs
    | cons b rest2 =>
      have h2 := List.chain'_cons.mp hc
      rcases List.mem_cons.mp hz with rfl | hz2
      · exact ⟨b, List.mem_cons_of_mem _ (List.mem_cons_self _ _), h2.1⟩
      · rw [List.getLast?_cons_cons] at hl
        rcases ih h2.2 hz2 hl hzs with ⟨w, hw, hr⟩
        exact ⟨w, List.mem_cons_of_mem _ hw, hr⟩

/-- The last element of a duplicate-free list does not occur before the
last position. -/
theorem nodup_last_not_mem_dropLast {l : List Nat} {z : Nat}
    (hnd : l.Nodup) (hl : l.getLast? = some z) : z ∉ l.dropLast := by
  have hne : l ≠ [] := by
    intro hc
    rw [hc] at hl
    exact nomatch hl
  have hz : l.getLast hne = z := by
    have := List.getLast?_eq_getLast l hne
    rw [hl] at this
    exact (Option.some.inj this).symm
  have hconcat : l.dropLast ++ [l.getLast hne] = l := List.dropLast_concat_getLast hne
  rw [← hconcat] at hnd
  have hdisj := (List.nodup_append.mp hnd).2.2
  intro hmem
  have hmem2 : z ∈ [l.getLast hne] := by
    rw [hz]
    exact List.mem_singleton.mpr rfl
  exact hdisj hmem hmem2

/-- The effective path of a search state: the loop body appends the
cursor to the path unless backtracking, so the cursor is logically the
last path element. -/
def eff (st : SearchSt) : List Nat :=
  if st.backtracking then st.path else st.path ++ [st.node]

/-- Strictly decreasing measure of one search step that continues:
pruning removes a positive snapshot column; advancing lengthens the
effective path (bounded by `totalNodes` since it is duplicate-free). -/
def smeasure (g : Graph) (st : SearchSt) : Nat :=
  colCount st.mF g.getNodes * (2 * g.getNodes + 2) +
    2 * (g.getNodes + 1 - (eff st).length) +
    (if st.backtracking then 0 else 1)

/-- Invariant of the `findAugmentingPath` search loop. -/
structure SInv (g : Graph) (depth : List (Option Nat)) (source sink : Nat)
    (st : SearchSt) : Prop where
  len : st.mF.length = g.getNodes
  asc : Asc depth (eff st)
  chainReal : List.Chain' (fun a b => 0 < matGet g.adjacencyMatrix a b) (eff st)
  headSrc : (eff st).head? = some source
  lastCur : (eff st).getLast? = some st.node
  bounds : ∀ x ∈ eff st, x < g.getNodes
  cols : ∀ x ∈ eff st, x ≠ source → colPos st.mF x = true
  noSink : sink ∉ st.path
  btNoSink : st.backtracking = true → st.node ≠ sink

theorem SInv.effNoSink {g : Graph} {depth : List (Option Nat)}
    {source sink : Nat} {st : SearchSt}
    (hinv : SInv g depth source sink st) (hns : st.node ≠ sink) :
    sink ∉ eff st := by
  rw [eff]
  split
  · exact hinv.noSink
  · intro hmem
    rcases List.mem_append.mp hmem with h1 | h2
    · exact hinv.noSink h1
    · have hsn : sink = st.node := by simpa using h2
      exact hns hsn.symm

theorem SInv.effLen {g : Graph} {depth : List (Option Nat)}
    {source sink : Nat} {st : SearchSt}
    (hinv : SInv g depth source sink st) : (eff st).length ≤ g.getNodes :=
  nodup_length_le (Asc_nodup hinv.asc) hinv.bounds

theorem SInv.curMem {g : Graph} {depth : List (Option Nat)}
    {source sink : Nat} {st : SearchSt}
    (hinv : SInv g depth source sink st) : st.node ∈ eff st :=
  List.mem_of_getLast?_eq_some hinv.lastCur


theorem head_last_distinct_len {l : List Nat} {a z : Nat}
    (hh : l.head? = some a) (hl : l.getLast? = some z) (hne : a ≠ z) :
    2 ≤ l.length := by
  cases l with
  | nil => exact nomatch hh
  | cons c t =>
    cases t with
    | nil =>
      have h1 : c = a := by simpa using hh
      have h2 : c = z := by simpa using hl
      exact absurd (h1.symm.trans h2) hne
    | cons d t2 => simp

theorem dropLast_head_eq {l : List Nat} (h : 2 ≤ l.length) :
    l.dropLast.head? = l.head? := by
  rcases l with _ | ⟨a, t⟩
  · simp at h
  · rcases t with _ | ⟨b, t2⟩
    · simp at h
    · simp

theorem head?_append_left {l : List Nat} {a w : Nat} (h : l.head? = some a) :
    (l ++ [w]).head? = some a := by
  cases l with
  | nil => exact nomatch h
  | cons c t => simpa using h

theorem getLast?_eq_none_nil {l : List Nat} (h : l.getLast? = none) : l = [] := by
  cases l with
  | nil => rfl
  | cons a t => simp at h

theorem measure_drop_column {c2 c1 a2 b2 a1 b1 n : Nat} (hc : c2 < c1)
    (hab : a2 + b2 ≤ 2 * n + 1) :
    c2 * (2 * n + 2) + a2 + b2 < c1 * (2 * n + 2) + a1 + b1 := by
  have h1 : (c2 + 1) * (2 * n + 2) ≤ c1 * (2 * n + 2) := Nat.mul_le_mul_right _ hc
  have h2 : (c2 + 1) * (2 * n + 2) = c2 * (2 * n + 2) + (2 * n + 2) := by ring
  omega

/-- Restatements of the step-case equations through the effective
path. -/
theorem findNextNodeInPath_advance_eff {g : Graph} {depth : List (Option Nat)}
    {source : Nat} {st : SearchSt} {w : Nat}
    (hsome : findFirstAdmissible g depth st.mF st.node = some w) :
    findNextNodeInPath g depth source st = (⟨w, eff st, false, st.mF⟩, true) :=
  findNextNodeInPath_advance hsome

theorem findNextNodeInPath_sourceFail_eff {g : Graph}
    {depth : List (Option Nat)} {source : Nat} {st : SearchSt}
    (hnone : findFirstAdmissible g depth st.mF st.node = none)
    (hs : st.node = source) :
    findNextNodeInPath g depth source st =
      (⟨st.node, eff st, false, st.mF⟩, false) :=
  findNextNodeInPath_sourceFail hnone hs

theorem findNextNodeInPath_deadEnd_eff {g : Graph} {depth : List (Option Nat)}
    {source : Nat} {st : SearchSt}
    (hnone : findFirstAdmissible g depth st.mF st.node = none)
    (hns : st.node ≠ source) :
    findNextNodeInPath g depth source st =
      (⟨match (eff st).dropLast.getLast? with
         | some x => x
         | none => st.node,
        (eff st).dropLast, true, clearMaxFlowAtNode g st.mF st.node⟩, true) :=
  findNextNodeInPath_deadEnd hnone hns

/-- One search step that returns `true` preserves the search invariant
and strictly decreases the measure: advancing lengthens the effective
path, pruning permanently zeroes the positive column of the abandoned
cursor. -/
theorem searchStep_true {g : Graph} {depth : List (Option Nat)}
    {source sink : Nat} {st st2 : SearchSt}
    (hinv : SInv g depth source sink st) (hns : st.node ≠ sink)
    (h : findNextNodeInPath g depth source st = (st2, true)) :
    SInv g depth source sink st2 ∧ smeasure g st2 < smeasure g st := by
  have hnd : (eff st).Nodup := Asc_nodup hinv.asc
  rcases hfa : findFirstAdmissible g depth st.mF st.node with _ | w
  · rcases Decidable.em (st.node = source) with hs | hs
    · rw [findNextNodeInPath_sourceFail_eff hfa hs] at h
      injection h with _ hb
      exact nomatch hb
    · rw [findNextNodeInPath_deadEnd_eff hfa hs] at h
      injection h with h1 _
      have hlen2 : 2 ≤ (eff st).length :=
        head_last_distinct_len hinv.headSrc hinv.lastCur
          (fun hc => hs hc.symm)
      split at h1
      next x hgl =>
        subst h1
        have hxmem : x ∈ (eff st).dropLast := List.mem_of_getLast?_eq_some hgl
        have hxeff : x ∈ eff st := (List.dropLast_sublist _).subset hxmem
        have heffdrop : eff (⟨x, (eff st).dropLast, true,
            clearMaxFlowAtNode g st.mF st.node⟩ : SearchSt) =
            (eff st).dropLast := rfl
        have hCC : colCount (clearMaxFlowAtNode g st.mF st.node) g.getNodes <
            colCount st.mF g.getNodes := by
          apply colCount_lt st.mF _ g.getNodes st.node
          · intro v hv
            rcases Decidable.em (v = st.node) with hvn | hvn
            · rw [hvn, colPos_false_of_colZero
                (clearMaxFlowAtNode_colZero g st.mF st.node (le_of_eq hinv.len))] at hv
              exact nomatch hv
            · rw [colPos_clear_other g st.mF st.node v hvn] at hv
              exact hv
          · exact hinv.bounds st.node hinv.curMem
          · exact hinv.cols st.node hinv.curMem hs
          · exact colPos_false_of_colZero
              (clearMaxFlowAtNode_colZero g st.mF st.node (le_of_eq hinv.len))
        constructor
        · refine ⟨?_, ?_, ?_, ?_, ?_, ?_, ?_, ?_, ?_⟩
          · dsimp only
            rw [clearMaxFlowAtNode_len]
            exact hinv.len
          · rw [heffdrop]
            exact Asc_dropLast hinv.asc
          · rw [heffdrop]
            exact List.Chain'.prefix hinv.chainReal (List.dropLast_prefix _)
          · rw [heffdrop, dropLast_head_eq hlen2]
            exact hinv.headSrc
          · rw [heffdrop]
            exact hgl
          · rw [heffdrop]
            intro y hy
            exact hinv.bounds y ((List.dropLast_sublist _).subset hy)
          · rw [heffdrop]
            intro y hy hysrc
            have hyn : y ≠ st.node := by
              intro hc
              exact nodup_last_not_mem_dropLast hnd hinv.lastCur (hc ▸ hy)
            dsimp only
            rw [colPos_clear_other g st.mF st.node y hyn]
            exact hinv.cols y ((List.dropLast_sublist _).subset hy) hysrc
          · show sink ∉ (eff st).dropLast
            intro hmem
            exact SInv.effNoSink hinv hns ((List.dropLast_sublist _).subset hmem)
          · intro _
            show x ≠ sink
            intro hc
            exact SInv.effNoSink hinv hns (hc ▸ hxeff)
        · rw [smeasure, smeasure, heffdrop]
          dsimp only
          rw [List.length_dropLast]
          have hlen3 : (eff st).length ≤ g.getNodes := hinv.effLen
          have hbit1 : (if (true = true) then (0 : Nat) else 1) = 0 := rfl
          rw [hbit1]
          have hmid : 2 * (g.getNodes + 1 - ((eff st).length - 1)) + 0 ≤
              2 * g.getNodes + 1 := by omega
          exact measure_drop_column hCC hmid
      next hgl =>
        have hnil := getLast?_eq_none_nil hgl
        have hdll := List.length_dropLast (eff st)
        rw [hnil] at hdll
        simp only [List.length_nil] at hdll
        omega
  · rw [findNextNodeInPath_advance_eff hfa] at h
    injection h with h1 _
    subst h1
    have hmemw : w ∈ g.findAdjacentNodes st.node := List.mem_of_find?_eq_some hfa
    have hp := List.find?_some hfa
    have hpred := of_decide_eq_true hp
    have hdep : optSucc (depth.getD st.node none) = depth.getD w none := hpred.1
    have hpos : 0 < matGet st.mF st.node w := hpred.2
    have hwlt : w < g.getNodes := (mem_findAdjacentNodes.mp hmemw).1
    have hreal : 0 < matGet g.adjacencyMatrix st.node w :=
      (mem_findAdjacentNodes.mp hmemw).2
    have heffapp : eff (⟨w, eff st, false, st.mF⟩ : SearchSt) =
        eff st ++ [w] := rfl
    have hasc2 : Asc depth (eff st ++ [w]) :=
      Asc_append hinv.asc hinv.lastCur hdep.symm
    have hbounds2 : ∀ y ∈ eff st ++ [w], y < g.getNodes := by
      intro y hy
      rcases List.mem_append.mp hy with h1 | h2
      · exact hinv.bounds y h1
      · have hyw : y = w := by simpa using h2
        exact hyw ▸ hwlt
    have hinv2 : SInv g depth source sink (⟨w, eff st, false, st.mF⟩ : SearchSt) := by
      refine ⟨hinv.len, ?_, ?_, ?_, ?_, ?_, ?_, ?_, ?_⟩
      · rw [heffapp]
        exact hasc2
      · rw [heffapp]
        exact chain_append_singleton hinv.chainReal hinv.lastCur hreal
      · rw [heffapp]
        exact head?_append_left hinv.headSrc
      · rw [heffapp]
        exact List.getLast?_concat _
      · rw [heffapp]
        exact hbounds2
      · rw [heffapp]
        intro y hy hysrc
        rcases List.mem_append.mp hy with h1 | h2
        · exact hinv.cols y h1 hysrc
        · have hyw : y = w := by simpa using h2
          subst hyw
          exact colPos_of_pos hpos
      · show sink ∉ eff st
        exact SInv.effNoSink hinv hns
      · intro hc
        exact nomatch hc
    refine ⟨hinv2, ?_⟩
    have hlen2 : (eff st).length + 1 ≤ g.getNodes := by
      have := nodup_length_le (Asc_nodup hasc2) hbounds2
      simpa using this
    rw [smeasure, smeasure, heffapp]
    dsimp only
    rw [List.length_append, List.length_singleton]
    have hbit1 : (if (false = true) then (0 : Nat) else 1) = 1 := rfl
    rw [hbit1]
    rcases hbt : st.backtracking with _ | _
    · have hbit2 : (if (false = true) then (0 : Nat) else 1) = 1 := rfl
      rw [hbit2]
      omega
    · have hbit2 : (if (true = true) then (0 : Nat) else 1) = 0 := rfl
      rw [hbit2]
      omega

theorem findNextNodeInPath_mF_len {g : Graph} {depth : List (Option Nat)}
    {source : Nat} {st : SearchSt} :
    (findNextNodeInPath g depth source st).1.mF.length = st.mF.length := by
  rcases hfa : findFirstAdmissible g depth st.mF st.node with _ | w
  · rcases Decidable.em (st.node = source) with hs | hs
    · rw [findNextNodeInPath_sourceFail_eff hfa hs]
    · rw [findNextNodeInPath_deadEnd_eff hfa hs]
      dsimp only
      exact clearMaxFlowAtNode_len g st.mF st.node
  · rw [findNextNodeInPath_advance_eff hfa]

/-- What a successful search hands to the committing caller: a simple
source-to-sink path with positive real capacity along each edge. -/
structure PathOK (g : Graph) (source sink : Nat) (p : List Nat) : Prop where
  headSrc : p.head? = some source
  lastSink : p.getLast? = some sink
  chainReal : List.Chain' (fun a b => 0 < matGet g.adjacencyMatrix a b) p
  nodup : p.Nodup
  bounds : ∀ x ∈ p, x < g.getNodes

/-- With fuel above the measure, the search loop completes, and a
`true` result carries a well-formed augmenting path. -/
theorem searchLoop_total {g : Graph} {depth : List (Option Nat)}
    {source sink : Nat} :
    ∀ (fuel : Nat) (st : SearchSt), SInv g depth source sink st →
      st.node ≠ sink → smeasure g st < fuel →
      ∃ r, searchLoop g depth source sink fuel st = some r ∧
        r.1.mF.length = g.getNodes ∧
        (r.2 = true → PathOK g source sink r.1.path) := by
  intro fuel
  induction fuel with
  | zero =>
    intro st _ _ hm
    omega
  | succ fuel ih =>
    intro st hinv hns hm
    have hunfold : searchLoop g depth source sink (fuel + 1) st =
        (match findNextNodeInPath g depth source st with
         | (st3, false) => some (st3, false)
         | (st3, true) =>
           if st3.node = sink then
             some (⟨st3.node, st3.path ++ [sink], st3.backtracking, st3.mF⟩, true)
           else searchLoop g depth source sink fuel st3) := rfl
    rw [hunfold]
    rcases hstep : findNextNodeInPath g depth source st with ⟨st3, b⟩
    have hlen3 : st3.mF.length = g.getNodes := by
      have := @findNextNodeInPath_mF_len g depth source st
      rw [hstep] at this
      rw [this]
      exact hinv.len
    cases b with
    | false =>
      refine ⟨(st3, false), rfl, hlen3, ?_⟩
      intro hc
      exact nomatch hc
    | true =>
      rcases searchStep_true hinv hns hstep with ⟨hinv3, hm3⟩
      dsimp only
      rcases Decidable.em (st3.node = sink) with hsk | hsk
      · rw [if_pos hsk]
        refine ⟨_, rfl, hlen3, ?_⟩
        intro _
        have hbt : st3.backtracking = false := by
          rcases hb3 : st3.backtracking with _ | _
          · rfl
          · exact absurd hsk (hinv3.btNoSink hb3)
        have heff3 : eff st3 = st3.path ++ [sink] := by
          rw [eff, hbt]
          simp only [Bool.false_eq_true, if_false]
          rw [hsk]
        refine ⟨?_, ?_, ?_, ?_, ?_⟩
        · show (st3.path ++ [sink]).head? = some source
          rw [← heff3]
          exact hinv3.headSrc
        · show (st3.path ++ [sink]).getLast? = some sink
          exact List.getLast?_concat _
        · show List.Chain' _ (st3.path ++ [sink])
          rw [← heff3]
          exact hinv3.chainReal
        · show (st3.path ++ [sink]).Nodup
          rw [← heff3]
          exact Asc_nodup hinv3.asc
        · show ∀ x ∈ st3.path ++ [sink], x < g.getNodes
          rw [← heff3]
          exact hinv3.bounds
      · rw [if_neg hsk]
        exact ih st3 hinv3 hsk (by omega)

/-! Admissible-path invariant: while a depth-ascending positive path
from source to sink survives in the snapshot, the search cannot fail;
pruning preserves it because a pruned dead end lies on no such path. -/

/-- One admissible edge: in range, one BFS level deeper, positive in
the real graph (so the neighbor scan lists it) and in the snapshot. -/
def admRel (g : Graph) (depth : List (Option Nat)) (mF : Mat)
    (a b : Nat) : Prop :=
  b < g.getNodes ∧ depth.getD b none = optSucc (depth.getD a none) ∧
    0 < matGet g.adjacencyMatrix a b ∧ 0 < matGet mF a b

/-- A surviving admissible source-to-sink path. -/
def AdmPath (g : Graph) (depth : List (Option Nat)) (mF : Mat)
    (source sink : Nat) : Prop :=
  ∃ l : List Nat, l.head? = some source ∧ l.getLast? = some sink ∧
    List.Chain' (admRel g depth mF) l

theorem chain'_imp_mem {R S : Nat → Nat → Prop} :
    ∀ {l : List Nat}, List.Chain' R l →
      (∀ a ∈ l, ∀ b ∈ l, R a b → S a b) → List.Chain' S l := by
  intro l
  induction l with
  | nil => intro _ _; exact List.chain'_nil
  | cons a rest ih =>
    intro hc himp
    cases rest with
    | nil => exact List.chain'_singleton a
    | cons b rest2 =>
      have h2 := List.chain'_cons.mp hc
      refine List.chain'_cons.mpr ⟨?_, ?_⟩
      · exact himp a (List.mem_cons_self _ _)
          b (List.mem_cons_of_mem _ (List.mem_cons_self _ _)) h2.1
      · exact ih h2.2 (fun x hx y hy hr =>
          himp x (List.mem_cons_of_mem _ hx) y (List.mem_cons_of_mem _ hy) hr)

/-- A node with an admissible out-edge is found by the neighbor scan. -/
theorem findFirstAdmissible_of_admRel {g : Graph} {depth : List (Option Nat)}
    {mF : Mat} {z w : Nat} (hR : admRel g depth mF z w) :
    findFirstAdmissible g depth mF z ≠ none := by
  rw [findFirstAdmissible]
  intro hfa
  have hwmem : w ∈ g.findAdjacentNodes z :=
    mem_findAdjacentNodes.mpr ⟨hR.1, hR.2.2.1⟩
  have hno := List.find?_eq_none.mp hfa w hwmem
  exact hno (decide_eq_true ⟨hR.2.1.symm, hR.2.2.2⟩)

/-- A dead-end node (no admissible neighbor, not the sink) lies on no
admissible chain ending at the sink. -/
theorem dead_not_on_chain {g : Graph} {depth : List (Option Nat)}
    {mF : Mat} {sink z : Nat} (hzs : z ≠ sink)
    (hfa : findFirstAdmissible g depth mF z = none) :
    ∀ {l : List Nat}, l.getLast? = some sink →
      List.Chain' (admRel g depth mF) l → z ∉ l := by
  intro l hlast hchain hmem
  rcases chain'_mem_next hchain hmem hlast hzs with ⟨w, _, hR⟩
  exact findFirstAdmissible_of_admRel hR hfa

/-- Pruning a dead end preserves the admissible path. -/
theorem AdmPath_prune {g : Graph} {depth : List (Option Nat)} {mF : Mat}
    {source sink z : Nat} (hadm : AdmPath g depth mF source sink)
    (hzs : z ≠ sink) (hfa : findFirstAdmissible g depth mF z = none) :
    AdmPath g depth (clearMaxFlowAtNode g mF z) source sink := by
  obtain ⟨l, hh, hl, hc⟩ := hadm
  have hznot : z ∉ l := dead_not_on_chain hzs hfa hl hc
  refine ⟨l, hh, hl, ?_⟩
  apply chain'_imp_mem hc
  intro a _ b hb hR
  refine ⟨hR.1, hR.2.1, hR.2.2.1, ?_⟩
  have hbz : b ≠ z := fun hc2 => hznot (hc2 ▸ hb)
  rw [clearMaxFlowAtNode_other g mF z a b hbz]
  exact hR.2.2.2

/-- Any search step preserves the admissible-path invariant. -/
theorem searchStep_AdmPath {g : Graph} {depth : List (Option Nat)}
    {source sink : Nat} {st st2 : SearchSt} {b : Bool}
    (hadm : AdmPath g depth st.mF source sink) (hns : st.node ≠ sink)
    (h : findNextNodeInPath g depth source st = (st2, b)) :
    AdmPath g depth st2.mF source sink := by
  rcases hfa : findFirstAdmissible g depth st.mF st.node with _ | w
  · rcases Decidable.em (st.node = source) with hs | hs
    · rw [findNextNodeInPath_sourceFail_eff hfa hs] at h
      injection h with h1 _
      subst h1
      exact hadm
    · rw [findNextNodeInPath_deadEnd_eff hfa hs] at h
      injection h with h1 _
      split at h1
      next x hgl =>
        subst h1
        exact AdmPath_prune hadm hns hfa
      next hgl =>
        subst h1
        exact AdmPath_prune hadm hns hfa
  · rw [findNextNodeInPath_advance_eff hfa] at h
    injection h with h1 _
    subst h1
    exact hadm

/-- With a surviving admissible path and `source ≠ sink`, no step
returns `false`. -/
theorem searchStep_no_false {g : Graph} {depth : List (Option Nat)}
    {source sink : Nat} {st st2 : SearchSt}
    (hadm : AdmPath g depth st.mF source sink) (hnss : source ≠ sink)
    (h : findNextNodeInPath g depth source st = (st2, false)) : False := by
  rcases hfa : findFirstAdmissible g depth st.mF st.node with _ | w
  · rcases Decidable.em (st.node = source) with hs | hs
    · obtain ⟨l, hh, hl, hc⟩ := hadm
      have hsrcmem : source ∈ l := List.mem_of_mem_head? (by rw [hh]; rfl)
      exact dead_not_on_chain hnss (hs ▸ hfa) hl hc hsrcmem
    · rw [findNextNodeInPath_deadEnd_eff hfa hs] at h
      injection h with _ hb
      exact nomatch hb
  · rw [findNextNodeInPath_advance_eff hfa] at h
    injection h with _ hb
    exact nomatch hb

/-- While the admissible path survives, the search loop never reports
failure: any result it produces is a found path. -/
theorem searchLoop_noFail {g : Graph} {depth : List (Option Nat)}
    {source sink : Nat} (hnss : source ≠ sink) :
    ∀ (fuel : Nat) (st : SearchSt), AdmPath g depth st.mF source sink →
      st.node ≠ sink →
      ∀ r, searchLoop g depth source sink fuel st = some r → r.2 = true := by
  intro fuel
  induction fuel with
  | zero =>
    intro st _ _ r hr
    exact nomatch hr
  | succ fuel ih =>
    intro st hadm hns r hr
    have hunfold : searchLoop g depth source sink (fuel + 1) st =
        (match findNextNodeInPath g depth source st with
         | (st3, false) => some (st3, false)
         | (st3, true) =>
           if st3.node = sink then
             some (⟨st3.node, st3.path ++ [sink], st3.backtracking, st3.mF⟩, true)
           else searchLoop g depth source sink fuel st3) := rfl
    rw [hunfold] at hr
    rcases hstep : findNextNodeInPath g depth source st with ⟨st3, b⟩
    rw [hstep] at hr
    cases b with
    | false => exact absurd hstep (fun hc => searchStep_no_false hadm hnss hc)
    | true =>
      dsimp only at hr
      rcases Decidable.em (st3.node = sink) with hsk | hsk
      · rw [if_pos hsk] at hr
        rcases Option.some.inj hr with rfl
        rfl
      · rw [if_neg hsk] at hr
        exact ih st3 (searchStep_AdmPath hadm hns hstep) hsk r hr


/-- Fuel sufficient for any single path search on an
`totalNodes`-by-`totalNodes` snapshot. -/
def searchFuel (g : Graph) : Nat :=
  g.getNodes * (2 * g.getNodes + 2) + 2 * g.getNodes + 2

theorem smeasure_init_lt {g : Graph} {mF : Mat} {source : Nat}
    (_hlen : mF.length = g.getNodes) :
    smeasure g ⟨source, [], false, mF⟩ < searchFuel g := by
  rw [smeasure, searchFuel]
  dsimp only
  have h1 : colCount mF g.getNodes ≤ g.getNodes := colCount_le_n mF g.getNodes
  have h2 : colCount mF g.getNodes * (2 * g.getNodes + 2) ≤
      g.getNodes * (2 * g.getNodes + 2) := Nat.mul_le_mul_right _ h1
  have h3 : (eff (⟨source, [], false, mF⟩ : SearchSt)).length = 1 := rfl
  rw [h3]
  have hbit : (if (false = true) then (0 : Nat) else 1) = 1 := rfl
  rw [hbit]
  omega

/-- A complete run of `findAugmentingPath` from the callers' fresh
state: with `source ≠ sink` and the standard fuel it returns; a `true`
result carries a well-formed path; and it cannot return `false` while
an admissible path survives in the snapshot. -/
theorem findAugmentingPath_total {g : Graph} {depth : List (Option Nat)}
    {mF : Mat} {source sink : Nat}
    (hlen : mF.length = g.getNodes) (hsrc : source < g.getNodes)
    (hnss : source ≠ sink) :
    ∃ r, findAugmentingPath g depth mF source sink (searchFuel g) = some r ∧
      r.1.mF.length = g.getNodes ∧
      (r.2 = true → PathOK g source sink r.1.path) ∧
      (AdmPath g depth mF source sink → r.2 = true) := by
  rw [findAugmentingPath, if_neg hnss]
  have hinv0 : SInv g depth source sink ⟨source, [], false, mF⟩ := by
    refine ⟨hlen, ?_, ?_, rfl, rfl, ?_, ?_, ?_, ?_⟩
    · exact Asc_singleton depth source
    · exact List.chain'_singleton source
    · intro x hx
      have hx2 : x ∈ ([source] : List Nat) := hx
      have hxs : x = source := by simpa using hx2
      exact hxs ▸ hsrc
    · intro x hx hxs
      have hx2 : x ∈ ([source] : List Nat) := hx
      have hxs2 : x = source := by simpa using hx2
      exact absurd hxs2 hxs
    · exact List.not_mem_nil sink
    · intro hc
      exact nomatch hc
  rcases searchLoop_total (searchFuel g) ⟨source, [], false, mF⟩ hinv0 hnss
      (smeasure_init_lt hlen) with ⟨r, hr, hrlen, hok⟩
  refine ⟨r, hr, hrlen, hok, ?_⟩
  intro hadm
  exact searchLoop_noFail hnss (searchFuel g) ⟨source, [], false, mF⟩ hadm hnss r hr

/-! Source-row potential: each commit removes exactly one unit from the
source row of the capacity matrix, bounding the total number of
augmenting paths the whole run can push. -/

theorem nodup_getD_inj {l : List Nat} (hnd : l.Nodup) {i j : Nat}
    (hi : i < l.length) (hj : j < l.length)
    (h : l.getD i 0 = l.getD j 0) : i = j := by
  rw [List.getD_eq_getElem?_getD, List.getElem?_eq_getElem hi] at h
  rw [List.getD_eq_getElem?_getD, List.getElem?_eq_getElem hj] at h
  simp only [Option.getD_some] at h
  exact (List.Nodup.getElem_inj_iff hnd).mp h

/-- Cells that coincide with no consecutive pair of the path (in either
orientation) survive the commit loop unchanged. -/
theorem commitPath_frame_pairs (a b : Nat) : ∀ (path : List Nat) (g : Graph),
    (∀ k, k + 1 < path.length →
      ¬ (path.getD k 0 = a ∧ path.getD (k + 1) 0 = b) ∧
      ¬ (path.getD (k + 1) 0 = a ∧ path.getD k 0 = b)) →
    matGet (commitPath g path).1.adjacencyMatrix a b =
      matGet g.adjacencyMatrix a b := by
  intro path
  induction path with
  | nil => intro g _; rfl
  | cons u tl ih =>
    cases tl with
    | nil => intro g _; rfl
    | cons v rest =>
      intro g hcond
      rw [commitPath_cons]
      rcases h : updateResidualGraph g (u : Int) (v : Int) with ⟨g1, e⟩
      have hc0 := hcond 0 (by simp)
      have hfr := updateResidualGraph_frame g (u : Int) (v : Int) a b
        (by
          simp only [Int.toNat_natCast]
          rintro ⟨rfl, rfl⟩
          exact hc0.1 ⟨rfl, rfl⟩)
        (by
          simp only [Int.toNat_natCast]
          rintro ⟨rfl, rfl⟩
          exact hc0.2 ⟨rfl, rfl⟩)
      rw [h] at hfr
      cases e with
      | some err => exact hfr
      | none =>
        have hshift : ∀ k, k + 1 < (v :: rest).length →
            ¬ ((v :: rest).getD k 0 = a ∧ (v :: rest).getD (k + 1) 0 = b) ∧
            ¬ ((v :: rest).getD (k + 1) 0 = a ∧ (v :: rest).getD k 0 = b) := by
          intro k hk
          exact hcond (k + 1)
            (by simp only [List.length_cons] at hk ⊢; omega)
        rw [ih g1 hshift]
        exact hfr

/-- Pointwise-equal maps except one entry that drops by exactly one. -/
theorem sum_map_pred {f h : Nat → Nat} :
    ∀ (l : List Nat), l.Nodup → ∀ j0 ∈ l, h j0 + 1 = f j0 →
      (∀ x ∈ l, x ≠ j0 → h x = f x) →
      (l.map h).sum + 1 = (l.map f).sum := by
  intro l
  induction l with
  | nil =>
    intro _ j0 hj0
    exact absurd hj0 (List.not_mem_nil j0)
  | cons a rest ih =>
    intro hnd j0 hj0 hdelta hothers
    rcases List.mem_cons.mp hj0 with rfl | hj2
    · have hresteq : rest.map h = rest.map f := by
        apply List.map_congr_left
        intro x hx
        exact hothers x (List.mem_cons_of_mem _ hx)
          (fun hc => (List.nodup_cons.mp hnd).1 (hc ▸ hx))
      simp only [List.map_cons, List.sum_cons, hresteq]
      omega
    · have ha : h a = f a := hothers a (List.mem_cons_self _ _)
        (fun hc => (List.nodup_cons.mp hnd).1 (hc ▸ hj2))
      have hih := ih (List.nodup_cons.mp hnd).2 j0 hj2 hdelta
        (fun x hx hxj => hothers x (List.mem_cons_of_mem _ hx) hxj)
      simp only [List.map_cons, List.sum_cons, ha]
      omega

/-- Total positive capacity leaving the source row. -/
def srcPot (g : Graph) (source : Nat) : Nat :=
  ((List.range g.getNodes).map
    (fun j => (matGet g.adjacencyMatrix source j).toNat)).sum

/-- Committing a found path removes exactly one unit of source-row
potential: the first hop leaves the source with positive capacity and
is decremented, no other pair touches the source row. -/
theorem commitPath_srcPot {g : Graph} {source sink : Nat} {p : List Nat}
    (hwf : g.WF) (hok : PathOK g source sink p) (hnss : source ≠ sink) :
    srcPot (commitPath g p).1 source + 1 = srcPot g source := by
  have hlen2 : 2 ≤ p.length :=
    head_last_distinct_len hok.headSrc hok.lastSink hnss
  have hp0 : p.getD 0 0 = source := by
    cases p with
    | nil => exact nomatch hok.headSrc
    | cons c t =>
      have : c = source := by
        have hh := hok.headSrc
        simpa using hh
      simpa using this
  have hdelta := (commitPath_deltas p g hwf hok.nodup hok.bounds 0 (by omega)).1
  simp only [Nat.zero_add] at hdelta
  rw [hp0] at hdelta
  have hp1mem : p.getD 1 0 ∈ p := getD_mem_of_lt (by omega)
  have hp1lt : p.getD 1 0 < g.getNodes := hok.bounds _ hp1mem
  have hpos : 0 < matGet g.adjacencyMatrix source (p.getD 1 0) := by
    cases p with
    | nil => exact nomatch hok.headSrc
    | cons c t =>
      cases t with
      | nil => simp at hlen2
      | cons d t2 =>
        have hc := List.chain'_cons.mp hok.chainReal
        have hcsrc : c = source := by
          have hh := hok.headSrc
          simpa using hh
        have hd : (c :: d :: t2).getD 1 0 = d := rfl
        rw [hd, ← hcsrc]
        exact hc.1
  have hframe : ∀ j, j ≠ p.getD 1 0 →
      matGet (commitPath g p).1.adjacencyMatrix source j =
        matGet g.adjacencyMatrix source j := by
    intro j hj
    apply commitPath_frame_pairs source j p g
    intro k hk
    constructor
    · rintro ⟨hka, hkb⟩
      have hk0 : k = 0 := by
        apply nodup_getD_inj hok.nodup (by omega) (by omega)
        rw [hka, hp0]
      rw [hk0] at hkb
      exact hj hkb.symm
    · rintro ⟨hka, _⟩
      have hk0 : k + 1 = 0 := by
        apply nodup_getD_inj hok.nodup (by omega) (by omega)
        rw [hka, hp0]
      exact nomatch hk0
  have hnodes : (commitPath g p).1.getNodes = g.getNodes := by
    rw [Graph.getNodes, Graph.getNodes, commitPath_nodes]
  rw [srcPot, srcPot, hnodes]
  apply sum_map_pred (List.range g.getNodes) (List.nodup_range g.getNodes)
    (p.getD 1 0) (List.mem_range.mpr hp1lt)
  · show (matGet (commitPath g p).1.adjacencyMatrix source (p.getD 1 0)).toNat + 1 =
        (matGet g.adjacencyMatrix source (p.getD 1 0)).toNat
    rw [hdelta]
    omega
  · intro x _ hx
    show (matGet (commitPath g p).1.adjacencyMatrix source x).toNat =
        (matGet g.adjacencyMatrix source x).toNat
    rw [hframe x hx]


/-- A complete run of `augmentFlowAlongPath`'s search-and-commit loop:
with iteration fuel above the source-row potential it ends normally,
pushing one unit per committed path, each commit paying one unit of
source-row potential; if an admissible path survives in the snapshot on
entry, at least one unit is pushed. -/
theorem augmentLoop_run (source sink n : Nat) (hnss : source ≠ sink)
    (hsrc : source < n) :
    ∀ (afuel : Nat) (st : FFState), st.graph.WF →
      st.graph.getNodes = n →
      st.maxFlow.length = n →
      srcPot st.graph source < afuel →
      ∃ st2 k,
        augmentLoop source sink (n * (2 * n + 2) + 2 * n + 2) afuel st =
          (st2, none) ∧
        st2.graph.WF ∧
        st2.graph.getNodes = n ∧
        st2.depth = st.depth ∧
        st2.pushed = st.pushed + k ∧
        srcPot st2.graph source + k = srcPot st.graph source ∧
        (AdmPath st.graph st.depth st.maxFlow source sink → 1 ≤ k) := by
  intro afuel
  induction afuel with
  | zero =>
    intro st _ _ _ hpot
    omega
  | succ afuel ih =>
    intro st hwf hn hlen hpot
    have hunfold : augmentLoop source sink (n * (2 * n + 2) + 2 * n + 2)
        (afuel + 1) st =
        (match findAugmentingPath st.graph st.depth st.maxFlow source sink
            (n * (2 * n + 2) + 2 * n + 2) with
         | none => (st, some Err.fuelOut)
         | some (s2, false) => ({ st with maxFlow := s2.mF }, none)
         | some (s2, true) =>
           match commitPath st.graph s2.path with
           | (g2, none) =>
             augmentLoop source sink (n * (2 * n + 2) + 2 * n + 2) afuel
               { graph := g2, depth := st.depth, maxFlow := s2.mF,
                 pushed := st.pushed + 1 }
           | (g2, some e) =>
             ({ graph := g2, depth := st.depth, maxFlow := s2.mF,
                pushed := st.pushed }, some e)) := rfl
    have hSF : searchFuel st.graph = n * (2 * n + 2) + 2 * n + 2 := by
      rw [searchFuel, hn]
    rcases @findAugmentingPath_total st.graph st.depth st.maxFlow source sink
        (by rw [hlen, hn]) (by rw [hn]; exact hsrc) hnss
      with ⟨r, hr, hrlen, hok, hnofail⟩
    rw [hSF] at hr
    rw [hunfold, hr]
    rcases r with ⟨s2, b⟩
    cases b with
    | false =>
      refine ⟨{ st with maxFlow := s2.mF }, 0, rfl, hwf, hn, rfl, rfl,
        (by dsimp only; omega), ?_⟩
      intro hadm
      have := hnofail hadm
      exact nomatch this
    | true =>
      dsimp only
      have hokP : PathOK st.graph source sink s2.path := hok rfl
      have hsnd := commitPath_snd_none s2.path st.graph hokP.bounds
      rcases hcp : commitPath st.graph s2.path with ⟨g2, e⟩
      rw [hcp] at hsnd
      dsimp only at hsnd
      subst hsnd
      have hg2wf : g2.WF := by
        have h2 := WF_commitPath s2.path st.graph hwf
        rw [hcp] at h2
        exact h2
      have hg2n : g2.getNodes = n := by
        have h2 := commitPath_nodes s2.path st.graph
        rw [hcp] at h2
        rw [Graph.getNodes, h2, ← Graph.getNodes, hn]
      have hg2pot : srcPot g2 source + 1 = srcPot st.graph source := by
        have h2 := commitPath_srcPot hwf hokP hnss
        rw [hcp] at h2
        exact h2
      have hmFlen : s2.mF.length = n := by
        rw [hrlen, hn]
      rcases ih ⟨g2, st.depth, s2.mF, st.pushed + 1⟩ hg2wf hg2n hmFlen
        (by dsimp only; omega)
        with ⟨st2, k, hal, hwf2, hn2, hd2, hp2, hpot2, _⟩
      dsimp only at hp2 hpot2
      refine ⟨st2, k + 1, hal, hwf2, hn2, hd2, ?_, ?_, fun _ => by omega⟩
      · omega
      · omega


/-- From the BFS parent pointers, every assigned node is reached by a
depth-ascending chain of positive-capacity edges from the source. -/
theorem bfs_chain (g : Graph) (source sink : Nat)
    (res : List (Option Nat) × Bool)
    (hB : BfsRes g source sink (initDepth g source) [source] res) :
    ∀ (m : Nat) (v : Nat), res.1.getD v none ≠ none →
      dval (res.1.getD v none) ≤ m →
      ∃ l : List Nat, l.head? = some source ∧ l.getLast? = some v ∧
        List.Chain' (admRel g res.1 g.adjacencyMatrix) l := by
  intro m
  induction m with
  | zero =>
    intro v hv hd
    rcases hres : res.1.getD v none with _ | d
    · exact absurd hres hv
    · rw [hres] at hd
      rw [dval] at hd
      omega
  | succ m ih =>
    intro v hv hd
    rcases hB.parent v hv with rfl | ⟨u, hedge, hu, hvd⟩
    · exact ⟨[v], rfl, rfl, List.chain'_singleton v⟩
    · have hdu : dval (res.1.getD u none) ≤ m := by
        rw [hvd, dval_optSucc] at hd
        omega
      rcases ih u hu hdu with ⟨l, hh, hl, hc⟩
      refine ⟨l ++ [v], head?_append_left hh, List.getLast?_concat _, ?_⟩
      exact chain_append_singleton hc hl ⟨hedge.1, hvd, hedge.2, hedge.2⟩

/-- When `levelGraph` reports the sink reachable, an admissible path
survives in the fresh snapshot (which is the capacity matrix itself). -/
theorem AdmPath_of_levelGraph (g : Graph) (source sink : Nat)
    (hsrc : source < g.getNodes)
    (hlg : (levelGraph g source sink).2 = true) :
    AdmPath g (levelGraph g source sink).1 g.adjacencyMatrix source sink := by
  rcases levelGraph_run g source sink hsrc with ⟨res, _, hres, hB⟩
  rw [hres] at hlg ⊢
  have hsink := hB.sinkT hlg
  rcases bfs_chain g source sink res hB (dval (res.1.getD sink none)) sink
    hsink (le_refl _) with ⟨l, hh, hl, hc⟩
  exact ⟨l, hh, hl, hc⟩

/-- A `true` BFS verdict separates source and sink: the source is
pre-assigned depth `0` and can never be "found". -/
theorem levelGraph_true_ne (g : Graph) (source sink : Nat)
    (hsrc : source < g.getNodes)
    (hlg : (levelGraph g source sink).2 = true) : source ≠ sink := by
  rcases levelGraph_run g source sink hsrc with ⟨res, _, hres, hB⟩
  rw [hres] at hlg
  have hpre := hB.sinkPre hlg
  intro hc
  rw [← hc, initDepth_source hsrc] at hpre
  exact nomatch hpre

/-- A complete run of the phase loop: with both fuels above the
source-row potential it ends normally with the sink unreachable, and
every unit pushed pays one unit of source-row potential. -/
theorem phaseLoop_run (source sink n : Nat) (hsrc : source < n)
    (afuel : Nat) :
    ∀ (pfuel : Nat) (st : FFState), st.graph.WF →
      st.graph.getNodes = n →
      srcPot st.graph source < afuel →
      srcPot st.graph source < pfuel →
      ∃ st2 K,
        phaseLoop source sink (n * (2 * n + 2) + 2 * n + 2) afuel pfuel st =
          (st2, none) ∧
        st2.graph.WF ∧
        st2.graph.getNodes = n ∧
        st2.pushed = st.pushed + K ∧
        srcPot st2.graph source + K = srcPot st.graph source ∧
        (levelGraph st2.graph source sink).2 = false ∧
        st2.depth = (levelGraph st2.graph source sink).1 := by
  intro pfuel
  induction pfuel with
  | zero =>
    intro st _ _ _ hpot
    omega
  | succ pfuel ih =>
    intro st hwf hn hpa hpot
    have hunfold : phaseLoop source sink (n * (2 * n + 2) + 2 * n + 2) afuel
        (pfuel + 1) st =
        (match levelGraph st.graph source sink with
         | (depth2, false) => ({ st with depth := depth2 }, none)
         | (depth2, true) =>
           match augmentLoop source sink (n * (2 * n + 2) + 2 * n + 2) afuel
               { graph := st.graph, depth := depth2,
                 maxFlow := st.graph.adjacencyMatrix, pushed := st.pushed } with
           | (st2, none) =>
             phaseLoop source sink (n * (2 * n + 2) + 2 * n + 2) afuel pfuel st2
           | (st2, some e) => (st2, some e)) := rfl
    rw [hunfold]
    rcases hlg : levelGraph st.graph source sink with ⟨d2, b⟩
    cases b with
    | false =>
      refine ⟨{ st with depth := d2 }, 0, rfl, hwf, hn, rfl,
        (by dsimp only; omega), ?_, ?_⟩
      · show (levelGraph st.graph source sink).2 = false
        rw [hlg]
      · show d2 = (levelGraph st.graph source sink).1
        rw [hlg]
    | true =>
      dsimp only
      have hlgt : (levelGraph st.graph source sink).2 = true := by
        rw [hlg]
      have hne : source ≠ sink :=
        levelGraph_true_ne st.graph source sink (by rw [hn]; exact hsrc) hlgt
      have hadm : AdmPath st.graph d2 st.graph.adjacencyMatrix source sink := by
        have h2 := AdmPath_of_levelGraph st.graph source sink
          (by rw [hn]; exact hsrc) hlgt
        rw [hlg] at h2
        exact h2
      rcases augmentLoop_run source sink n hne hsrc afuel
          ⟨st.graph, d2, st.graph.adjacencyMatrix, st.pushed⟩ hwf hn
          (by dsimp only; rw [hwf.1, hn]) (by dsimp only; exact hpa)
        with ⟨stA, k, hal, hwfA, hnA, _, hpA, hpotA, hge1⟩
      dsimp only at hpA hpotA
      have hk1 : 1 ≤ k := hge1 hadm
      rw [hal]
      rcases ih stA hwfA hnA (by omega) (by omega)
        with ⟨st2, K2, hpl, hwf2, hn2, hp2, hpot2, hfin1, hfin2⟩
      refine ⟨st2, k + K2, hpl, hwf2, hn2, ?_, ?_, hfin1, hfin2⟩
      · omega
      · omega


/-! ## Claim C2: termination of calculateMaxFlow

With in-range source and sink, the run terminates with explicit fuel
bounds derived from the code's own progress: the search measure
(pruned columns and path length) bounds every path search, each
committed path pays one unit of source-row potential, and each phase
with a reachable sink pushes at least one unit, so the potential also
bounds the augment iterations and the number of phases.  The phase
loop ends exactly when `levelGraph` reports the sink unassigned. -/

/-- C2: `calculateMaxFlow(source, sink)` on a well-formed graph with
in-range `source` and `sink` terminates (the stated fuels suffice; no
`fuelOut` marker and no error escapes), the units pushed are paid for
one-for-one by the source-row potential, and the run ends exactly when
the BFS no longer assigns the sink a depth; moreover every phase whose
BFS reports the sink reachable completes its augment loop having
pushed at least one unit. -/
theorem calculateMaxFlow_terminates (st : FFState) (source sink : Nat)
    (hwf : st.graph.WF) (hsrc : source < st.graph.getNodes)
    (hsink : sink < st.graph.getNodes) :
    (∃ st2 K,
      calculateMaxFlow st (source : Int) (sink : Int) (searchFuel st.graph)
          (srcPot st.graph source + 1) (srcPot st.graph source + 1) =
        (st2, none) ∧
      st2.pushed = st.pushed + K ∧
      srcPot st2.graph source + K = srcPot st.graph source ∧
      (levelGraph st2.graph source sink).2 = false ∧
      st2.depth = (levelGraph st2.graph source sink).1) ∧
    (∀ (st3 : FFState) (p : Nat), st3.graph.WF →
      st3.graph.getNodes = st.graph.getNodes →
      (levelGraph st3.graph source sink).2 = true →
      ∃ stA k, 1 ≤ k ∧ stA.pushed = p + k ∧
        augmentLoop source sink (searchFuel st.graph)
            (srcPot st3.graph source + 1)
            ⟨st3.graph, (levelGraph st3.graph source sink).1,
              st3.graph.adjacencyMatrix, p⟩ = (stA, none)) := by
  have hSF : searchFuel st.graph = st.graph.getNodes *
      (2 * st.graph.getNodes + 2) + 2 * st.graph.getNodes + 2 := rfl
  constructor
  · rw [calculateMaxFlow]
    have hcond : ¬ ((source : Int) < 0 ∨
        (st.graph.getNodes : Int) ≤ (source : Int) ∨
        (sink : Int) < 0 ∨ (st.graph.getNodes : Int) ≤ (sink : Int)) := by
      omega
    rw [if_neg hcond]
    simp only [Int.toNat_natCast]
    rcases phaseLoop_run source sink st.graph.getNodes hsrc
        (srcPot st.graph source + 1) (srcPot st.graph source + 1) st hwf rfl
        (by omega) (by omega)
      with ⟨st2, K, hpl, _, _, hp, hpot, hf1, hf2⟩
    refine ⟨st2, K, ?_, hp, hpot, hf1, hf2⟩
    rw [hSF]
    exact hpl
  · intro st3 p hwf3 hn3 hlg3
    have hne : source ≠ sink :=
      levelGraph_true_ne st3.graph source sink (by rw [hn3]; exact hsrc) hlg3
    have hadm := AdmPath_of_levelGraph st3.graph source sink
      (by rw [hn3]; exact hsrc) hlg3
    rcases augmentLoop_run source sink st.graph.getNodes hne hsrc
        (srcPot st3.graph source + 1)
        ⟨st3.graph, (levelGraph st3.graph source sink).1,
          st3.graph.adjacencyMatrix, p⟩ hwf3 hn3
        (by dsimp only; rw [hwf3.1, hn3]) (by dsimp only; omega)
      with ⟨stA, k, hal, _, _, _, hpA, _, hge1⟩
    dsimp only at hpA
    have hk := hge1 (by dsimp only; exact hadm)
    refine ⟨stA, k, hk, hpA, ?_⟩
    rw [hSF]
    exact hal

/-- C2 witness: the wired two-node unit graph with an edge `0 → 1`; the
run terminates error-free at the stated fuels and every reachable-sink
phase pushes at least one unit. -/
theorem calculateMaxFlow_terminates_witness :
    ((Graph.mkNew 0).createEdge 0 1 1).WF ∧
    0 < ((Graph.mkNew 0).createEdge 0 1 1).getNodes ∧
    1 < ((Graph.mkNew 0).createEdge 0 1 1).getNodes ∧
    ((∃ st2 K,
      calculateMaxFlow ⟨(Graph.mkNew 0).createEdge 0 1 1, [], [], 0⟩
          (0 : Int) (1 : Int)
          (searchFuel ((Graph.mkNew 0).createEdge 0 1 1))
          (srcPot ((Graph.mkNew 0).createEdge 0 1 1) 0 + 1)
          (srcPot ((Graph.mkNew 0).createEdge 0 1 1) 0 + 1) =
        (st2, none) ∧
      st2.pushed = 0 + K ∧
      srcPot st2.graph 0 + K = srcPot ((Graph.mkNew 0).createEdge 0 1 1) 0 ∧
      (levelGraph st2.graph 0 1).2 = false ∧
      st2.depth = (levelGraph st2.graph 0 1).1) ∧
    (∀ (st3 : FFState) (p : Nat), st3.graph.WF →
      st3.graph.getNodes = ((Graph.mkNew 0).createEdge 0 1 1).getNodes →
      (levelGraph st3.graph 0 1).2 = true →
      ∃ stA k, 1 ≤ k ∧ stA.pushed = p + k ∧
        augmentLoop 0 1 (searchFuel ((Graph.mkNew 0).createEdge 0 1 1))
            (srcPot st3.graph 0 + 1)
            ⟨st3.graph, (levelGraph st3.graph 0 1).1,
              st3.graph.adjacencyMatrix, p⟩ = (stA, none))) :=
  ⟨by decide, by decide, by decide,
    calculateMaxFlow_terminates
      ⟨(Graph.mkNew 0).createEdge 0 1 1, [], [], 0⟩ 0 1
      (by decide) (by decide) (by decide)⟩


/-! ## Claim C1: machinery

Generic invariant preservation: any property of the graph and the push
counter that survives committing one well-formed augmenting path
survives the whole run. -/

theorem augmentLoop_inv (source sink n : Nat) (Inv : Graph → Nat → Prop)
    (hstep : ∀ g p c, Inv g c → PathOK g source sink p →
      Inv (commitPath g p).1 (c + 1))
    (hnss : source ≠ sink) (hsrc : source < n) :
    ∀ (afuel : Nat) (st : FFState), st.graph.WF → st.graph.getNodes = n →
      st.maxFlow.length = n →
      Inv st.graph st.pushed →
      Inv (augmentLoop source sink (n * (2 * n + 2) + 2 * n + 2) afuel st).1.graph
        (augmentLoop source sink (n * (2 * n + 2) + 2 * n + 2) afuel st).1.pushed := by
  intro afuel
  induction afuel with
  | zero =>
    intro st _ _ _ hInv
    exact hInv
  | succ afuel ih =>
    intro st hwf hn hlen hInv
    have hunfold : augmentLoop source sink (n * (2 * n + 2) + 2 * n + 2)
        (afuel + 1) st =
        (match findAugmentingPath st.graph st.depth st.maxFlow source sink
            (n * (2 * n + 2) + 2 * n + 2) with
         | none => (st, some Err.fuelOut)
         | some (s2, false) => ({ st with maxFlow := s2.mF }, none)
         | some (s2, true) =>
           match commitPath st.graph s2.path with
           | (g2, none) =>
             augmentLoop source sink (n * (2 * n + 2) + 2 * n + 2) afuel
               { graph := g2, depth := st.depth, maxFlow := s2.mF,
                 pushed := st.pushed + 1 }
           | (g2, some e) =>
             ({ graph := g2, depth := st.depth, maxFlow := s2.mF,
                pushed := st.pushed }, some e)) := rfl
    have hSF : searchFuel st.graph = n * (2 * n + 2) + 2 * n + 2 := by
      rw [searchFuel, hn]
    rcases @findAugmentingPath_total st.graph st.depth st.maxFlow source sink
        (by rw [hlen, hn]) (by rw [hn]; exact hsrc) hnss
      with ⟨r, hr, hrlen, hok, _⟩
    rw [hSF] at hr
    rw [hunfold, hr]
    rcases r with ⟨s2, b⟩
    cases b with
    | false => exact hInv
    | true =>
      dsimp only
      have hokP : PathOK st.graph source sink s2.path := hok rfl
      have hsnd := commitPath_snd_none s2.path st.graph hokP.bounds
      rcases hcp : commitPath st.graph s2.path with ⟨g2, e⟩
      rw [hcp] at hsnd
      dsimp only at hsnd
      subst hsnd
      have hg2wf : g2.WF := by
        have h2 := WF_commitPath s2.path st.graph hwf
        rw [hcp] at h2
        exact h2
      have hg2n : g2.getNodes = n := by
        have h2 := commitPath_nodes s2.path st.graph
        rw [hcp] at h2
        rw [Graph.getNodes, h2, ← Graph.getNodes, hn]
      have hmFlen : s2.mF.length = n := by
        rw [hrlen, hn]
      have hInv2 : Inv g2 (st.pushed + 1) := by
        have h2 := hstep st.graph s2.path st.pushed hInv hokP
        rw [hcp] at h2
        exact h2
      exact ih ⟨g2, st.depth, s2.mF, st.pushed + 1⟩ hg2wf hg2n hmFlen hInv2

theorem phaseLoop_inv (source sink n : Nat) (Inv : Graph → Nat → Prop)
    (hstep : ∀ g p c, Inv g c → PathOK g source sink p →
      Inv (commitPath g p).1 (c + 1))
    (hsrc : source < n) (afuel : Nat) :
    ∀ (pfuel : Nat) (st : FFState), st.graph.WF → st.graph.getNodes = n →
      srcPot st.graph source < afuel →
      Inv st.graph st.pushed →
      Inv (phaseLoop source sink (n * (2 * n + 2) + 2 * n + 2) afuel pfuel
          st).1.graph
        (phaseLoop source sink (n * (2 * n + 2) + 2 * n + 2) afuel pfuel
          st).1.pushed := by
  intro pfuel
  induction pfuel with
  | zero =>
    intro st _ _ _ hInv
    exact hInv
  | succ pfuel ih =>
    intro st hwf hn hpa hInv
    have hunfold : phaseLoop source sink (n * (2 * n + 2) + 2 * n + 2) afuel
        (pfuel + 1) st =
        (match levelGraph st.graph source sink with
         | (depth2, false) => ({ st with depth := depth2 }, none)
         | (depth2, true) =>
           match augmentLoop source sink (n * (2 * n + 2) + 2 * n + 2) afuel
               { graph := st.graph, depth := depth2,
                 maxFlow := st.graph.adjacencyMatrix, pushed := st.pushed } with
           | (st2, none) =>
             phaseLoop source sink (n * (2 * n + 2) + 2 * n + 2) afuel pfuel st2
           | (st2, some e) => (st2, some e)) := rfl
    rw [hunfold]
    rcases hlg : levelGraph st.graph source sink with ⟨d2, b⟩
    cases b with
    | false => exact hInv
    | true =>
      dsimp only
      have hlgt : (levelGraph st.graph source sink).2 = true := by
        rw [hlg]
      have hne : source ≠ sink :=
        levelGraph_true_ne st.graph source sink (by rw [hn]; exact hsrc) hlgt
      rcases augmentLoop_run source sink n hne hsrc afuel
          ⟨st.graph, d2, st.graph.adjacencyMatrix, st.pushed⟩ hwf hn
          (by dsimp only; rw [hwf.1, hn]) (by dsimp only; exact hpa)
        with ⟨stA, k, hal, hwfA, hnA, _, hpA, hpotA, _⟩
      have hIA := augmentLoop_inv source sink n Inv hstep hne hsrc afuel
        ⟨st.graph, d2, st.graph.adjacencyMatrix, st.pushed⟩ hwf hn
        (by dsimp only; rw [hwf.1, hn]) hInv
      rw [hal] at hIA
      rw [hal]
      dsimp only at hpA hpotA hIA
      exact ih stA hwfA hnA (by omega) hIA


/-! The fully wired unit-capacity bipartite network, as the driver
builds it: the input edges are created first (`readEdges`), then
`connectSourceAndSinkNodes(0, nodes + 1)` wires the source to the left
partition `1 .. nodes/2` and the right partition `nodes/2 + 1 .. nodes`
to the sink, all with capacity 1. -/

def buildGraph (n0 : Nat) (E : List (Nat × Nat)) : Graph :=
  (E.foldl (fun g e => g.createEdge e.1 e.2 1)
    (Graph.mkNew n0)).connectSourceAndSinkNodes 0 (n0 + 1)

/-- Input validity: every edge goes from the left partition to the
right partition. -/
def EdgesOK (n0 : Nat) (E : List (Nat × Nat)) : Prop :=
  ∀ e ∈ E, (1 ≤ e.1 ∧ e.1 ≤ n0 / 2) ∧ (n0 / 2 + 1 ≤ e.2 ∧ e.2 ≤ n0)

/-- The initial capacity table of the wired network. -/
def cap0 (n0 : Nat) (E : List (Nat × Nat)) (a b : Nat) : Int :=
  if a = 0 ∧ 1 ≤ b ∧ b ≤ n0 / 2 then 1
  else if n0 / 2 + 1 ≤ a ∧ a ≤ n0 ∧ b = n0 + 1 then 1
  else if (a, b) ∈ E then 1 else 0

theorem createEdge_nodes (g : Graph) (a b : Nat) (c : Int) :
    (g.createEdge a b c).nodes = g.nodes := rfl

theorem foldE_nodes : ∀ (E : List (Nat × Nat)) (g : Graph),
    (E.foldl (fun h e => h.createEdge e.1 e.2 1) g).nodes = g.nodes := by
  intro E
  induction E with
  | nil => intro g; rfl
  | cons e rest ih =>
    intro g
    rw [List.foldl_cons, ih]
    rfl

theorem foldE_WF : ∀ (E : List (Nat × Nat)) (g : Graph), g.WF →
    (E.foldl (fun h e => h.createEdge e.1 e.2 1) g).WF := by
  intro E
  induction E with
  | nil => intro g hwf; exact hwf
  | cons e rest ih =>
    intro g hwf
    rw [List.foldl_cons]
    exact ih _ (WF_createEdge hwf e.1 e.2 1)

theorem foldE_cap : ∀ (E : List (Nat × Nat)) (g : Graph) (a b : Nat), g.WF →
    (∀ e ∈ E, e.1 < g.getNodes ∧ e.2 < g.getNodes) →
    matGet ((E.foldl (fun h e => h.createEdge e.1 e.2 1) g).adjacencyMatrix) a b =
      if (a, b) ∈ E then 1 else matGet g.adjacencyMatrix a b := by
  intro E
  induction E with
  | nil =>
    intro g a b _ _
    rw [if_neg (List.not_mem_nil (a, b))]
    rfl
  | cons e rest ih =>
    intro g a b hwf hb
    rw [List.foldl_cons]
    have hbe := hb e (List.mem_cons_self _ _)
    have hg2wf : (g.createEdge e.1 e.2 1).WF := WF_createEdge hwf e.1 e.2 1
    have hg2n : (g.createEdge e.1 e.2 1).getNodes = g.getNodes := rfl
    rw [ih _ a b hg2wf (fun x hx => by
      rw [hg2n]
      exact hb x (List.mem_cons_of_mem _ hx))]
    rcases Decidable.em ((a, b) ∈ rest) with hmem | hmem
    · rw [if_pos hmem, if_pos (List.mem_cons_of_mem _ hmem)]
    · rw [if_neg hmem]
      rcases Decidable.em ((a, b) = e) with heq | heq
      · have ha : a = e.1 := by rw [← heq]
        have hbb : b = e.2 := by rw [← heq]
        subst ha
        subst hbb
        rw [if_pos (List.mem_cons_self _ _), Graph.createEdge]
        exact matGet_matSet_self g.adjacencyMatrix 1
          (by rw [hwf.1]; exact hbe.1)
          (by rw [hwf.row_len (by rw [hwf.1]; exact hbe.1)]; exact hbe.2)
      · rw [if_neg (by
          intro hc
          rcases List.mem_cons.mp hc with hc1 | hc2
          · exact heq hc1
          · exact hmem hc2)]
        rw [Graph.createEdge]
        apply matGet_matSet_ne
        rcases Decidable.em (e.1 = a) with rfl | hne1
        · refine Or.inr ?_
          intro hc
          exact heq (by rw [← hc])
        · exact Or.inl hne1

theorem foldRow_nodes (s : Nat) : ∀ (L : List Nat) (g : Graph),
    (L.foldl (fun h i => h.createEdge s i 1) g).nodes = g.nodes := by
  intro L
  induction L with
  | nil => intro g; rfl
  | cons i rest ih =>
    intro g
    rw [List.foldl_cons, ih]
    rfl

theorem foldRow_WF (s : Nat) : ∀ (L : List Nat) (g : Graph), g.WF →
    (L.foldl (fun h i => h.createEdge s i 1) g).WF := by
  intro L
  induction L with
  | nil => intro g hwf; exact hwf
  | cons i rest ih =>
    intro g hwf
    rw [List.foldl_cons]
    exact ih _ (WF_createEdge hwf s i 1)

theorem foldRow_cap (s : Nat) : ∀ (L : List Nat) (g : Graph) (a b : Nat), g.WF →
    s < g.getNodes → (∀ i ∈ L, i < g.getNodes) →
    matGet ((L.foldl (fun h i => h.createEdge s i 1) g).adjacencyMatrix) a b =
      if a = s ∧ b ∈ L then 1 else matGet g.adjacencyMatrix a b := by
  intro L
  induction L with
  | nil =>
    intro g a b _ _ _
    rw [if_neg (by rintro ⟨_, hc⟩; exact List.not_mem_nil b hc)]
    rfl
  | cons i rest ih =>
    intro g a b hwf hs hb
    rw [List.foldl_cons]
    have hbi := hb i (List.mem_cons_self _ _)
    have hg2wf : (g.createEdge s i 1).WF := WF_createEdge hwf s i 1
    rw [ih _ a b hg2wf hs (fun x hx => hb x (List.mem_cons_of_mem _ hx))]
    rcases Decidable.em (a = s ∧ b ∈ rest) with hmem | hmem
    · rw [if_pos hmem, if_pos ⟨hmem.1, List.mem_cons_of_mem _ hmem.2⟩]
    · rw [if_neg hmem]
      rcases Decidable.em (a = s ∧ b = i) with ⟨rfl, rfl⟩ | heq
      · rw [if_pos ⟨rfl, List.mem_cons_self _ _⟩, Graph.createEdge]
        exact matGet_matSet_self g.adjacencyMatrix 1
          (by rw [hwf.1]; exact hs)
          (by rw [hwf.row_len (by rw [hwf.1]; exact hs)]; exact hbi)
      · rw [if_neg (by
          rintro ⟨rfl, hc⟩
          rcases List.mem_cons.mp hc with rfl | hc2
          · exact heq ⟨rfl, rfl⟩
          · exact hmem ⟨rfl, hc2⟩)]
        rw [Graph.createEdge]
        apply matGet_matSet_ne
        rcases Decidable.em (s = a) with rfl | hne1
        · refine Or.inr ?_
          intro hc
          exact heq ⟨rfl, hc.symm⟩
        · exact Or.inl hne1

theorem foldCol_nodes (t : Nat) : ∀ (L : List Nat) (g : Graph),
    (L.foldl (fun h i => h.createEdge i t 1) g).nodes = g.nodes := by
  intro L
  induction L with
  | nil => intro g; rfl
  | cons i rest ih =>
    intro g
    rw [List.foldl_cons, ih]
    rfl

theorem foldCol_WF (t : Nat) : ∀ (L : List Nat) (g : Graph), g.WF →
    (L.foldl (fun h i => h.createEdge i t 1) g).WF := by
  intro L
  induction L with
  | nil => intro g hwf; exact hwf
  | cons i rest ih =>
    intro g hwf
    rw [List.foldl_cons]
    exact ih _ (WF_createEdge hwf i t 1)

theorem foldCol_cap (t : Nat) : ∀ (L : List Nat) (g : Graph) (a b : Nat), g.WF →
    t < g.getNodes → (∀ i ∈ L, i < g.getNodes) →
    matGet ((L.foldl (fun h i => h.createEdge i t 1) g).adjacencyMatrix) a b =
      if b = t ∧ a ∈ L then 1 else matGet g.adjacencyMatrix a b := by
  intro L
  induction L with
  | nil =>
    intro g a b _ _ _
    rw [if_neg (by rintro ⟨_, hc⟩; exact List.not_mem_nil a hc)]
    rfl
  | cons i rest ih =>
    intro g a b hwf ht hb
    rw [List.foldl_cons]
    have hbi := hb i (List.mem_cons_self _ _)
    have hg2wf : (g.createEdge i t 1).WF := WF_createEdge hwf i t 1
    rw [ih _ a b hg2wf ht (fun x hx => hb x (List.mem_cons_of_mem _ hx))]
    rcases Decidable.em (b = t ∧ a ∈ rest) with hmem | hmem
    · rw [if_pos hmem, if_pos ⟨hmem.1, List.mem_cons_of_mem _ hmem.2⟩]
    · rw [if_neg hmem]
      rcases Decidable.em (b = t ∧ a = i) with ⟨rfl, rfl⟩ | heq
      · rw [if_pos ⟨rfl, List.mem_cons_self _ _⟩, Graph.createEdge]
        exact matGet_matSet_self g.adjacencyMatrix 1
          (by rw [hwf.1]; exact hbi)
          (by rw [hwf.row_len (by rw [hwf.1]; exact hbi)]; exact ht)
      · rw [if_neg (by
          rintro ⟨rfl, hc⟩
          rcases List.mem_cons.mp hc with rfl | hc2
          · exact heq ⟨rfl, rfl⟩
          · exact hmem ⟨rfl, hc2⟩)]
        rw [Graph.createEdge]
        apply matGet_matSet_ne
        rcases Decidable.em (i = a) with rfl | hne1
        · refine Or.inr ?_
          intro hc
          exact heq ⟨hc.symm, rfl⟩
        · exact Or.inl hne1

theorem buildGraph_nodes (n0 : Nat) (E : List (Nat × Nat)) :
    (buildGraph n0 E).nodes = n0 := by
  rw [buildGraph, Graph.connectSourceAndSinkNodes, Graph.createSinkNode]
  rw [foldCol_nodes]
  rw [Graph.createSourceNode]
  rw [foldRow_nodes, foldE_nodes]
  rfl

theorem buildGraph_WF (n0 : Nat) (E : List (Nat × Nat)) :
    (buildGraph n0 E).WF := by
  rw [buildGraph, Graph.connectSourceAndSinkNodes, Graph.createSinkNode]
  apply foldCol_WF
  rw [Graph.createSourceNode]
  apply foldRow_WF
  exact foldE_WF E _ (WF_mkNew n0)

theorem buildGraph_cap (n0 : Nat) (E : List (Nat × Nat)) (hE : EdgesOK n0 E)
    (a b : Nat) :
    matGet (buildGraph n0 E).adjacencyMatrix a b = cap0 n0 E a b := by
  have hGE : (E.foldl (fun h e => h.createEdge e.1 e.2 1)
      (Graph.mkNew n0)).getNodes = n0 + 2 := by
    rw [Graph.getNodes, foldE_nodes]
    rfl
  have hWE := foldE_WF E _ (WF_mkNew n0)
  have hGR : ((E.foldl (fun h e => h.createEdge e.1 e.2 1)
      (Graph.mkNew n0)).createSourceNode 0).getNodes = n0 + 2 := by
    rw [Graph.getNodes, Graph.createSourceNode, foldRow_nodes, foldE_nodes]
    rfl
  have hWR : ((E.foldl (fun h e => h.createEdge e.1 e.2 1)
      (Graph.mkNew n0)).createSourceNode 0).WF := by
    rw [Graph.createSourceNode]
    exact foldRow_WF 0 _ _ hWE
  have hnn : (E.foldl (fun h e => h.createEdge e.1 e.2 1)
      (Graph.mkNew n0)).nodes = n0 := by
    rw [foldE_nodes]
    rfl
  have hnnR : ((E.foldl (fun h e => h.createEdge e.1 e.2 1)
      (Graph.mkNew n0)).createSourceNode 0).nodes = n0 := by
    rw [Graph.createSourceNode, foldRow_nodes, hnn]
  rw [buildGraph, Graph.connectSourceAndSinkNodes, Graph.createSinkNode]
  rw [foldCol_cap (n0 + 1) _ _ a b hWR (by rw [hGR]; omega)
    (fun i hi => by
      rw [hGR]
      rcases List.mem_range'_1.mp hi with ⟨h1, h2⟩
      rw [hnnR] at h2
      omega)]
  rw [Graph.createSourceNode]
  rw [foldRow_cap 0 _ _ a b hWE (by rw [hGE]; omega)
    (fun i hi => by
      rw [hGE]
      rcases List.mem_range'_1.mp hi with ⟨h1, h2⟩
      rw [hnn] at h2
      omega)]
  rw [foldE_cap E _ a b (WF_mkNew n0)
    (fun e he => by
      have h2 := hE e he
      have hg : Graph.getNodes (Graph.mkNew n0) = n0 + 2 := rfl
      rw [hg]
      constructor <;> omega)]
  rw [matGet_mkNew]
  rw [foldRow_nodes, hnn]
  rw [cap0]
  rcases Decidable.em (b = n0 + 1 ∧ a ∈ List.range' (n0 / 2 + 1) (n0 - n0 / 2))
    with hsk | hsk
  · rcases hsk with ⟨rfl, hmem⟩
    rcases List.mem_range'_1.mp hmem with ⟨h1, h2⟩
    rw [if_pos ⟨rfl, hmem⟩]
    rw [if_neg (show ¬ (a = 0 ∧ 1 ≤ n0 + 1 ∧ n0 + 1 ≤ n0 / 2) from by
      rintro ⟨_, _, hc⟩
      omega)]
    rw [if_pos (show n0 / 2 + 1 ≤ a ∧ a ≤ n0 ∧ n0 + 1 = n0 + 1 from
      ⟨h1, by omega, rfl⟩)]
  · rw [if_neg hsk]
    rcases Decidable.em (a = 0 ∧ b ∈ List.range' 1 (n0 / 2)) with hsr | hsr
    · rcases hsr with ⟨rfl, hmem⟩
      rcases List.mem_range'_1.mp hmem with ⟨h1, h2⟩
      rw [if_pos ⟨rfl, hmem⟩]
      rw [if_pos (show (0 : Nat) = 0 ∧ 1 ≤ b ∧ b ≤ n0 / 2 from ⟨rfl, h1, by omega⟩)]
    · rw [if_neg hsr]
      rcases Decidable.em ((a, b) ∈ E) with hme | hme
      · have h2 := hE (a, b) hme
        dsimp only at h2
        rw [if_neg (show ¬ (a = 0 ∧ 1 ≤ b ∧ b ≤ n0 / 2) from by
          rintro ⟨rfl, _, _⟩
          omega)]
        rw [if_neg (show ¬ (n0 / 2 + 1 ≤ a ∧ a ≤ n0 ∧ b = n0 + 1) from by
          rintro ⟨_, _, rfl⟩
          omega)]
      · rw [if_neg hme]
        rw [if_neg (show ¬ (a = 0 ∧ 1 ≤ b ∧ b ≤ n0 / 2) from by
          rintro ⟨rfl, h1, h2⟩
          exact hsr ⟨rfl, List.mem_range'_1.mpr ⟨h1, by omega⟩⟩)]
        rw [if_neg (show ¬ (n0 / 2 + 1 ≤ a ∧ a ≤ n0 ∧ b = n0 + 1) from by
          rintro ⟨h1, h2, rfl⟩
          exact hsk ⟨rfl, List.mem_range'_1.mpr ⟨h1, by omega⟩⟩)]

/-! Cell-level accounting of the commit loop: each cell moves by `-1`
(a forward pair of the path), `+1` (the reverse of a pair), or not at
all. -/

/-- `(a, b)` occurs as a consecutive pair of `p`. -/
def FwdAt (p : List Nat) (a b : Nat) : Prop :=
  ∃ k, k + 1 < p.length ∧ p.getD k 0 = a ∧ p.getD (k + 1) 0 = b

theorem FwdAt_mem_fst {p : List Nat} {a b : Nat} (h : FwdAt p a b) : a ∈ p := by
  obtain ⟨k, hk, hka, _⟩ := h
  exact hka ▸ getD_mem_of_lt (by omega)

theorem FwdAt_mem_snd {p : List Nat} {a b : Nat} (h : FwdAt p a b) : b ∈ p := by
  obtain ⟨k, hk, _, hkb⟩ := h
  exact hkb ▸ getD_mem_of_lt hk

theorem mem_getD_ex {l : List Nat} {x : Nat} (h : x ∈ l) :
    ∃ k, k < l.length ∧ l.getD k 0 = x := by
  rcases List.mem_iff_getElem.mp h with ⟨i, hi, hx⟩
  refine ⟨i, hi, ?_⟩
  rw [List.getD_eq_getElem?_getD, List.getElem?_eq_getElem hi]
  simpa using hx

theorem getLast?_getD {l : List Nat} {z : Nat} (h : l.getLast? = some z) :
    l.getD (l.length - 1) 0 = z := by
  have hne : l ≠ [] := by
    intro hc
    rw [hc] at h
    exact nomatch h
  have h2 := List.getLast?_eq_getLast l hne
  rw [h] at h2
  have h3 := List.getLast_eq_getElem l hne
  have hlt : l.length - 1 < l.length := by
    have := List.length_pos.mpr hne
    omega
  rw [List.getD_eq_getElem?_getD, List.getElem?_eq_getElem hlt]
  have h4 : z = l.getLast hne := Option.some.inj h2
  rw [h4, h3]
  rfl

theorem head?_getD {l : List Nat} {z : Nat} (h : l.head? = some z) :
    l.getD 0 0 = z := by
  cases l with
  | nil => exact nomatch h
  | cons a t =>
    have : a = z := by simpa using h
    simpa using this

theorem chain'_getD {R : Nat → Nat → Prop} :
    ∀ {l : List Nat}, List.Chain' R l → ∀ k, k + 1 < l.length →
      R (l.getD k 0) (l.getD (k + 1) 0) := by
  intro l
  induction l with
  | nil =>
    intro _ k hk
    simp at hk
  | cons a rest ih =>
    intro hc k hk
    cases rest with
    | nil => simp at hk
    | cons b rest2 =>
      have h2 := List.chain'_cons.mp hc
      cases k with
      | zero => exact h2.1
      | succ k =>
        have := ih h2.2 k (by simpa using hk)
        exact this

theorem FwdAt_not_both {p : List Nat} {a b : Nat} (hnd : p.Nodup)
    (h1 : FwdAt p a b) (h2 : FwdAt p b a) : False := by
  obtain ⟨k, hk, hka, hkb⟩ := h1
  obtain ⟨m, hm, hmb, hma⟩ := h2
  have e1 : k + 1 = m := nodup_getD_inj hnd hk (by omega) (by rw [hkb, hmb])
  have e2 : m + 1 = k := nodup_getD_inj hnd hm (by omega) (by rw [hma, hka])
  omega

theorem commitPath_cell_fwd {g : Graph} {p : List Nat} (hwf : g.WF)
    (hnd : p.Nodup) (hin : ∀ x ∈ p, x < g.getNodes) {a b : Nat}
    (h : FwdAt p a b) :
    matGet (commitPath g p).1.adjacencyMatrix a b =
      matGet g.adjacencyMatrix a b - 1 := by
  obtain ⟨k, hk, hka, hkb⟩ := h
  have := (commitPath_deltas p g hwf hnd hin k hk).1
  rw [hka, hkb] at this
  exact this

theorem commitPath_cell_rev {g : Graph} {p : List Nat} (hwf : g.WF)
    (hnd : p.Nodup) (hin : ∀ x ∈ p, x < g.getNodes) {a b : Nat}
    (h : FwdAt p a b) :
    matGet (commitPath g p).1.adjacencyMatrix b a =
      matGet g.adjacencyMatrix b a + 1 := by
  obtain ⟨k, hk, hka, hkb⟩ := h
  have := (commitPath_deltas p g hwf hnd hin k hk).2
  rw [hka, hkb] at this
  exact this

theorem commitPath_cell_frame {g : Graph} {p : List Nat} {a b : Nat}
    (hf : ¬ FwdAt p a b) (hr : ¬ FwdAt p b a) :
    matGet (commitPath g p).1.adjacencyMatrix a b =
      matGet g.adjacencyMatrix a b := by
  apply commitPath_frame_pairs
  intro k hk
  constructor
  · rintro ⟨h1, h2⟩
    exact hf ⟨k, hk, h1, h2⟩
  · rintro ⟨h1, h2⟩
    exact hr ⟨k, hk, h2, h1⟩

/-- Uniqueness of the successor along a duplicate-free path. -/
theorem FwdAt_fst_unique {p : List Nat} {a b c : Nat} (hnd : p.Nodup)
    (h1 : FwdAt p a b) (h2 : FwdAt p a c) : b = c := by
  obtain ⟨k, hk, hka, hkb⟩ := h1
  obtain ⟨m, hm, hma, hmc⟩ := h2
  have : k = m := nodup_getD_inj hnd (by omega) (by omega) (by rw [hka, hma])
  subst this
  rw [← hkb, hmc]

/-- Uniqueness of the predecessor along a duplicate-free path. -/
theorem FwdAt_snd_unique {p : List Nat} {a b c : Nat} (hnd : p.Nodup)
    (h1 : FwdAt p a c) (h2 : FwdAt p b c) : a = b := by
  obtain ⟨k, hk, hka, hkc⟩ := h1
  obtain ⟨m, hm, hmb, hmc⟩ := h2
  have : k + 1 = m + 1 := nodup_getD_inj hnd hk hm (by rw [hkc, hmc])
  have hkm : k = m := by omega
  subst hkm
  rw [← hka, hmb]

/-- Committing a well-formed path keeps every capacity nonnegative: the
decremented cells are exactly the path pairs, which carry positive
capacity. -/
theorem commitPath_nonneg {g : Graph} {source sink : Nat} {p : List Nat}
    (hwf : g.WF) (hok : PathOK g source sink p)
    (hnn : ∀ a b, 0 ≤ matGet g.adjacencyMatrix a b) :
    ∀ a b, 0 ≤ matGet (commitPath g p).1.adjacencyMatrix a b := by
  intro a b
  rcases Classical.em (FwdAt p a b) with hf | hf
  · rw [commitPath_cell_fwd hwf hok.nodup hok.bounds hf]
    obtain ⟨k, hk, hka, hkb⟩ := hf
    have := chain'_getD hok.chainReal k hk
    rw [hka, hkb] at this
    omega
  · rcases Classical.em (FwdAt p b a) with hr | hr
    · rw [commitPath_cell_rev hwf hok.nodup hok.bounds hr]
      have := hnn a b
      omega
    · rw [commitPath_cell_frame hf hr]
      exact hnn a b

/-- Committing preserves every `capacity[a][b] + capacity[b][a]`. -/
theorem commitPath_pairSum {g : Graph} {source sink : Nat} {p : List Nat}
    (hwf : g.WF) (hok : PathOK g source sink p) :
    ∀ a b, matGet (commitPath g p).1.adjacencyMatrix a b +
        matGet (commitPath g p).1.adjacencyMatrix b a =
      matGet g.adjacencyMatrix a b + matGet g.adjacencyMatrix b a := by
  intro a b
  rcases Classical.em (FwdAt p a b) with hf | hf
  · rw [commitPath_cell_fwd hwf hok.nodup hok.bounds hf,
      commitPath_cell_rev hwf hok.nodup hok.bounds hf]
    omega
  · rcases Classical.em (FwdAt p b a) with hr | hr
    · rw [commitPath_cell_rev hwf hok.nodup hok.bounds hr,
      commitPath_cell_fwd hwf hok.nodup hok.bounds hr]
      omega
    · rw [commitPath_cell_frame hf hr, commitPath_cell_frame hr hf]


/-! Row and column sums of the capacity matrix, and how one commit
moves them: interior path nodes are conserved. -/

def rowSumI (g : Graph) (v : Nat) : Int :=
  ((List.range g.getNodes).map (fun j => matGet g.adjacencyMatrix v j)).sum

def colSumI (g : Graph) (v : Nat) : Int :=
  ((List.range g.getNodes).map (fun i => matGet g.adjacencyMatrix i v)).sum

theorem sum_change_one {f h : Nat → Int} (d : Int) :
    ∀ (l : List Nat), l.Nodup → ∀ j0 ∈ l, h j0 = f j0 + d →
      (∀ x ∈ l, x ≠ j0 → h x = f x) → (l.map h).sum = (l.map f).sum + d := by
  intro l
  induction l with
  | nil =>
    intro _ j0 hj0
    exact absurd hj0 (List.not_mem_nil j0)
  | cons a rest ih =>
    intro hnd j0 hj0 hdelta hothers
    rcases List.mem_cons.mp hj0 with rfl | hj2
    · have hresteq : rest.map h = rest.map f := by
        apply List.map_congr_left
        intro x hx
        exact hothers x (List.mem_cons_of_mem _ hx)
          (fun hc => (List.nodup_cons.mp hnd).1 (hc ▸ hx))
      simp only [List.map_cons, List.sum_cons, hresteq, hdelta]
      ring
    · have ha : h a = f a := hothers a (List.mem_cons_self _ _)
        (fun hc => (List.nodup_cons.mp hnd).1 (hc ▸ hj2))
      have hih := ih (List.nodup_cons.mp hnd).2 j0 hj2 hdelta
        (fun x hx hxj => hothers x (List.mem_cons_of_mem _ hx) hxj)
      simp only [List.map_cons, List.sum_cons, ha, hih]
      ring

theorem sum_change_two {f h : Nat → Int} (d0 d1 : Int) (l : List Nat)
    (hnd : l.Nodup) (j0 j1 : Nat) (hj0 : j0 ∈ l) (hj1 : j1 ∈ l)
    (hne : j0 ≠ j1) (h0 : h j0 = f j0 + d0) (h1 : h j1 = f j1 + d1)
    (hothers : ∀ x ∈ l, x ≠ j0 → x ≠ j1 → h x = f x) :
    (l.map h).sum = (l.map f).sum + d0 + d1 := by
  have hmid : (l.map h).sum =
      (l.map (fun x => if x = j1 then f x + d1 else f x)).sum + d0 := by
    apply sum_change_one d0 l hnd j0 hj0
    · rw [if_neg hne]
      exact h0
    · intro x hx hxj0
      rcases Decidable.em (x = j1) with rfl | hxj1
      · rw [if_pos rfl]
        exact h1
      · rw [if_neg hxj1]
        exact hothers x hx hxj0 hxj1
  have hmid2 : (l.map (fun x => if x = j1 then f x + d1 else f x)).sum =
      (l.map f).sum + d1 := by
    apply sum_change_one d1 l hnd j1 hj1
    · rw [if_pos rfl]
    · intro x _ hxj1
      rw [if_neg hxj1]
  rw [hmid, hmid2]
  ring

theorem sum_unchanged {f h : Nat → Int} (l : List Nat)
    (hall : ∀ x ∈ l, h x = f x) : (l.map h).sum = (l.map f).sum := by
  rw [List.map_congr_left hall]

/-- Interior nodes of a committed path (and nodes off the path) keep
both their row sum and their column sum. -/
theorem commitPath_conserve {g : Graph} {source sink : Nat} {p : List Nat}
    (hwf : g.WF) (hok : PathOK g source sink p) (v : Nat)
    (hvs : v ≠ source) (hvt : v ≠ sink) :
    rowSumI (commitPath g p).1 v = rowSumI g v ∧
    colSumI (commitPath g p).1 v = colSumI g v := by
  have hn2 : (commitPath g p).1.getNodes = g.getNodes := by
    rw [Graph.getNodes, commitPath_nodes, Graph.getNodes]
  simp only [rowSumI, colSumI]
  rw [hn2]
  rcases Classical.em (v ∈ p) with hv | hv
  · obtain ⟨k, hk, hkv⟩ := mem_getD_ex hv
    have hk0 : k ≠ 0 := by
      intro hc
      subst hc
      exact hvs (by rw [← hkv, head?_getD hok.headSrc])
    have hklast : k + 1 < p.length := by
      rcases Decidable.em (k + 1 < p.length) with hlt | hge
      · exact hlt
      · exfalso
        have : k = p.length - 1 := by omega
        subst this
        exact hvt (by rw [← hkv, getLast?_getD hok.lastSink])
    have hprev : FwdAt p (p.getD (k - 1) 0) v := by
      refine ⟨k - 1, by omega, rfl, ?_⟩
      rw [show k - 1 + 1 = k from by omega, hkv]
    have hsucc : FwdAt p v (p.getD (k + 1) 0) := ⟨k, hklast, hkv, rfl⟩
    have hnexy : p.getD (k + 1) 0 ≠ p.getD (k - 1) 0 := by
      intro hc
      have := nodup_getD_inj hok.nodup hklast (by omega) hc
      omega
    constructor
    · have h2 := @sum_change_two
        (fun j => matGet g.adjacencyMatrix v j)
        (fun j => matGet (commitPath g p).1.adjacencyMatrix v j)
        (-1) 1 (List.range g.getNodes) (List.nodup_range _)
        (p.getD (k + 1) 0) (p.getD (k - 1) 0)
        (List.mem_range.mpr (hok.bounds _ (getD_mem_of_lt hklast)))
        (List.mem_range.mpr (hok.bounds _ (getD_mem_of_lt (by omega))))
        hnexy
        (by
          show matGet (commitPath g p).1.adjacencyMatrix v (p.getD (k + 1) 0) =
            matGet g.adjacencyMatrix v (p.getD (k + 1) 0) + (-1)
          rw [commitPath_cell_fwd hwf hok.nodup hok.bounds hsucc]
          ring)
        (by
          show matGet (commitPath g p).1.adjacencyMatrix v (p.getD (k - 1) 0) =
            matGet g.adjacencyMatrix v (p.getD (k - 1) 0) + 1
          exact commitPath_cell_rev hwf hok.nodup hok.bounds hprev)
        (by
          intro x _ hx0 hx1
          show matGet (commitPath g p).1.adjacencyMatrix v x =
            matGet g.adjacencyMatrix v x
          apply commitPath_cell_frame
          · intro hc
            exact hx0 (FwdAt_fst_unique hok.nodup hc hsucc)
          · intro hc
            exact hx1 (FwdAt_snd_unique hok.nodup hc hprev))
      omega
    · have h2 := @sum_change_two
        (fun i => matGet g.adjacencyMatrix i v)
        (fun i => matGet (commitPath g p).1.adjacencyMatrix i v)
        (-1) 1 (List.range g.getNodes) (List.nodup_range _)
        (p.getD (k - 1) 0) (p.getD (k + 1) 0)
        (List.mem_range.mpr (hok.bounds _ (getD_mem_of_lt (by omega))))
        (List.mem_range.mpr (hok.bounds _ (getD_mem_of_lt hklast)))
        (fun hc => hnexy hc.symm)
        (by
          show matGet (commitPath g p).1.adjacencyMatrix (p.getD (k - 1) 0) v =
            matGet g.adjacencyMatrix (p.getD (k - 1) 0) v + (-1)
          rw [commitPath_cell_fwd hwf hok.nodup hok.bounds hprev]
          ring)
        (by
          show matGet (commitPath g p).1.adjacencyMatrix (p.getD (k + 1) 0) v =
            matGet g.adjacencyMatrix (p.getD (k + 1) 0) v + 1
          exact commitPath_cell_rev hwf hok.nodup hok.bounds hsucc)
        (by
          intro x _ hx0 hx1
          show matGet (commitPath g p).1.adjacencyMatrix x v =
            matGet g.adjacencyMatrix x v
          apply commitPath_cell_frame
          · intro hc
            exact hx0 (FwdAt_snd_unique hok.nodup hc hprev)
          · intro hc
            exact hx1 (FwdAt_fst_unique hok.nodup hc hsucc))
      omega
  · constructor
    · apply sum_unchanged
      intro x _
      show matGet (commitPath g p).1.adjacencyMatrix v x =
        matGet g.adjacencyMatrix v x
      apply commitPath_cell_frame
      · intro hc
        exact hv (FwdAt_mem_fst hc)
      · intro hc
        exact hv (FwdAt_mem_snd hc)
    · apply sum_unchanged
      intro x _
      show matGet (commitPath g p).1.adjacencyMatrix x v =
        matGet g.adjacencyMatrix x v
      apply commitPath_cell_frame
      · intro hc
        exact hv (FwdAt_mem_snd hc)
      · intro hc
        exact hv (FwdAt_mem_fst hc)

/-- The run invariant on the wired bipartite network: well-formedness,
nonnegative capacities, conservation of every `cap[a][b] + cap[b][a]`
against the initial table, and flow conservation at every partition
node. -/
def MInv (n0 : Nat) (E : List (Nat × Nat)) (g : Graph) : Prop :=
  g.nodes = n0 ∧ g.WF ∧
  (∀ a b, 0 ≤ matGet g.adjacencyMatrix a b) ∧
  (∀ a b, matGet g.adjacencyMatrix a b + matGet g.adjacencyMatrix b a =
    cap0 n0 E a b + cap0 n0 E b a) ∧
  (∀ v, 1 ≤ v → v ≤ n0 →
    rowSumI g v - colSumI g v =
      rowSumI (buildGraph n0 E) v - colSumI (buildGraph n0 E) v)

theorem MInv_step (n0 : Nat) (E : List (Nat × Nat)) :
    ∀ (g : Graph) (p : List Nat), MInv n0 E g → PathOK g 0 (n0 + 1) p →
      MInv n0 E (commitPath g p).1 := by
  intro g p hI hok
  obtain ⟨hn, hwf, hnn, hps, hcons⟩ := hI
  refine ⟨by rw [commitPath_nodes, hn], WF_commitPath p g hwf,
    commitPath_nonneg hwf hok hnn, ?_, ?_⟩
  · intro a b
    rw [commitPath_pairSum hwf hok a b]
    exact hps a b
  · intro v h1 h2
    have hc := commitPath_conserve hwf hok v (by omega) (by omega)
    rw [hc.1, hc.2]
    exact hcons v h1 h2

theorem MInv_init (n0 : Nat) (E : List (Nat × Nat)) (hE : EdgesOK n0 E) :
    MInv n0 E (buildGraph n0 E) := by
  refine ⟨buildGraph_nodes n0 E, buildGraph_WF n0 E, ?_, ?_, fun v _ _ => rfl⟩
  · intro a b
    rw [buildGraph_cap n0 E hE a b, cap0]
    split
    · omega
    · split
      · omega
      · split
        · omega
        · omega
  · intro a b
    rw [buildGraph_cap n0 E hE a b, buildGraph_cap n0 E hE b a]

/-- A `false` BFS verdict means the sink is unreachable, provided the
sink differs from the source. -/
theorem levelGraph_false_not_reach (g : Graph) (source sink : Nat)
    (hsrc : source < g.getNodes) (hne : sink ≠ source)
    (hlg : (levelGraph g source sink).2 = false) : ¬ Reach g source sink := by
  intro hreach
  rcases levelGraph_run g source sink hsrc with ⟨res, _, hres, hB⟩
  rw [hres] at hlg
  have hsrc_assigned : res.1.getD source none ≠ none := by
    rw [hB.mono source (by rw [@initDepth_source g source hsrc]; exact fun h => nomatch h),
      @initDepth_source g source hsrc]
    exact fun h => nomatch h
  have hclosed := hB.closed hlg
  have hall : ∀ v, Reach g source v → res.1.getD v none ≠ none := by
    intro v hr
    induction hr with
    | refl => exact hsrc_assigned
    | tail hsteps hstep ih => exact hclosed _ ih _ hstep
  have h1 := hall sink hreach
  have h2 : res.1.getD sink none = none := by
    rw [hB.sinkF hlg]
    exact initDepth_other sink hne
  exact h1 h2


/-! List-sum toolbox for the conservation bookkeeping. -/

theorem sum_range_finset (n : Nat) (f : Nat → Int) :
    ((List.range n).map f).sum = ∑ j in Finset.range n, f j := by
  induction n with
  | zero => rfl
  | succ n ih =>
    rw [List.range_succ, Finset.sum_range_succ, List.map_append,
      List.sum_append, ih]
    simp

/-- A range sum whose support is one point plus a duplicate-free list. -/
theorem sum_range_support (n : Nat) (f : Nat → Int) (j0 : Nat) (S : List Nat)
    (hj0 : j0 < n) (hS : ∀ j ∈ S, j < n) (hnd : S.Nodup) (hj0S : j0 ∉ S)
    (hzero : ∀ j, j < n → j ≠ j0 → j ∉ S → f j = 0) :
    ((List.range n).map f).sum = f j0 + (S.map f).sum := by
  rw [sum_range_finset]
  have hsub : insert j0 S.toFinset ⊆ Finset.range n := by
    intro x hx
    rcases Finset.mem_insert.mp hx with rfl | hx2
    · exact Finset.mem_range.mpr hj0
    · exact Finset.mem_range.mpr (hS x (List.mem_toFinset.mp hx2))
  have heq := Finset.sum_subset hsub (f := f) (by
    intro x hx hnx
    exact hzero x (Finset.mem_range.mp hx)
      (fun hc => hnx (hc ▸ Finset.mem_insert_self _ _))
      (fun hc => hnx (Finset.mem_insert_of_mem (List.mem_toFinset.mpr hc))))
  rw [← heq, Finset.sum_insert (fun hc => hj0S (List.mem_toFinset.mp hc))]
  rw [List.sum_toFinset f hnd]

theorem sum_map_add (S : List Nat) (f h : Nat → Int) :
    (S.map f).sum + (S.map h).sum = (S.map (fun x => f x + h x)).sum := by
  induction S with
  | nil => rfl
  | cons a rest ih =>
    simp only [List.map_cons, List.sum_cons]
    rw [← ih]
    ring

theorem sum_map_one (S : List Nat) (f : Nat → Int)
    (hone : ∀ x ∈ S, f x = 1) : (S.map f).sum = S.length := by
  induction S with
  | nil => rfl
  | cons a rest ih =>
    simp only [List.map_cons, List.sum_cons, List.length_cons]
    rw [hone a (List.mem_cons_self _ _),
      ih (fun x hx => hone x (List.mem_cons_of_mem _ hx))]
    push_cast
    ring

theorem sum_nonneg_list (S : List Nat) (f : Nat → Int)
    (hnn : ∀ x ∈ S, 0 ≤ f x) : 0 ≤ (S.map f).sum := by
  induction S with
  | nil => exact le_refl 0
  | cons a rest ih =>
    simp only [List.map_cons, List.sum_cons]
    have h1 := hnn a (List.mem_cons_self _ _)
    have h2 := ih (fun x hx => hnn x (List.mem_cons_of_mem _ hx))
    omega

theorem sum_pos_ex (S : List Nat) (f : Nat → Int)
    (hpos : 0 < (S.map f).sum) : ∃ x ∈ S, 0 < f x := by
  induction S with
  | nil => simp at hpos
  | cons a rest ih =>
    simp only [List.map_cons, List.sum_cons] at hpos
    rcases Decidable.em (0 < f a) with hfa | hfa
    · exact ⟨a, List.mem_cons_self _ _, hfa⟩
    · have hrest : 0 < (rest.map f).sum := by omega
      rcases ih hrest with ⟨x, hx, hfx⟩
      exact ⟨x, List.mem_cons_of_mem _ hx, hfx⟩

theorem sum_mem_le (S : List Nat) (f : Nat → Int) (a : Nat)
    (hnd : S.Nodup) (ha : a ∈ S) (hnn : ∀ x ∈ S, 0 ≤ f x) :
    f a ≤ (S.map f).sum := by
  induction S with
  | nil => exact absurd ha (List.not_mem_nil a)
  | cons b rest ih =>
    simp only [List.map_cons, List.sum_cons]
    rcases List.mem_cons.mp ha with rfl | ha2
    · have := sum_nonneg_list rest f
        (fun x hx => hnn x (List.mem_cons_of_mem _ hx))
      omega
    · have h1 := hnn b (List.mem_cons_self _ _)
      have h2 := ih (List.nodup_cons.mp hnd).2 ha2
        (fun x hx => hnn x (List.mem_cons_of_mem _ hx))
      omega

theorem sum_ge_two (S : List Nat) (f : Nat → Int) (a b : Nat)
    (hnd : S.Nodup) (ha : a ∈ S) (hb : b ∈ S) (hab : a ≠ b)
    (hfa : 1 ≤ f a) (hfb : 1 ≤ f b) (hnn : ∀ x ∈ S, 0 ≤ f x) :
    2 ≤ (S.map f).sum := by
  have hperm : S.Perm (a :: S.erase a) := List.perm_cons_erase ha
  have hsum : (S.map f).sum = f a + ((S.erase a).map f).sum := by
    rw [List.Perm.sum_eq (hperm.map f)]
    simp
  have hb2 : b ∈ S.erase a :=
    (List.mem_erase_of_ne (fun hc => hab hc.symm)).mpr hb
  have hle := sum_mem_le (S.erase a) f b (hnd.erase a) hb2
    (fun x hx => hnn x (List.mem_of_mem_erase hx))
  omega

theorem sum_single_if (L : List Nat) (a : Nat) (c : Int)
    (hnd : L.Nodup) (ha : a ∈ L) :
    (L.map (fun l => if l = a then c else 0)).sum = c := by
  induction L with
  | nil => exact absurd ha (List.not_mem_nil a)
  | cons b rest ih =>
    simp only [List.map_cons, List.sum_cons]
    rcases List.mem_cons.mp ha with heq | ha2
    · subst heq
      rw [if_pos rfl]
      have hzero : (rest.map (fun l => if l = a then c else 0)).sum = 0 := by
        have hall : ∀ l ∈ rest, (if l = a then c else 0) = (0 : Int) := by
          intro l hl
          rw [if_neg (show ¬ (l = a) from
            fun hc2 => (List.nodup_cons.mp hnd).1 (hc2 ▸ hl))]
        rw [List.map_congr_left hall]
        simp
      rw [hzero]
      ring
    · rw [if_neg (show ¬ (b = a) from
        fun hc2 => (List.nodup_cons.mp hnd).1 (hc2 ▸ ha2)),
        ih (List.nodup_cons.mp hnd).2 ha2]
      ring

/-- Summing fiberwise over the first components. -/
theorem sum_fiber (L : List Nat) (f : Nat × Nat → Int) :
    ∀ (E2 : List (Nat × Nat)), L.Nodup → (∀ e ∈ E2, e.1 ∈ L) →
      (L.map (fun l => ((E2.filter (fun e => e.1 = l)).map f).sum)).sum =
        (E2.map f).sum := by
  intro E2
  induction E2 with
  | nil =>
    intro _ _
    simp
  | cons e rest ih =>
    intro hnd hmem
    have hih := ih hnd (fun x hx => hmem x (List.mem_cons_of_mem _ hx))
    have hsplit : ∀ l : Nat,
        (((e :: rest).filter (fun e2 => e2.1 = l)).map f).sum =
          (if l = e.1 then f e else 0) +
            ((rest.filter (fun e2 => e2.1 = l)).map f).sum := by
      intro l
      rcases Decidable.em (e.1 = l) with heq | heq
      · rw [List.filter_cons_of_pos (by simpa using heq)]
        simp only [List.map_cons, List.sum_cons]
        rw [if_pos heq.symm]
      · rw [List.filter_cons_of_neg (by simpa using heq)]
        rw [if_neg (fun hc => heq hc.symm)]
        ring
    rw [List.map_congr_left (fun l _ => hsplit l)]
    rw [← sum_map_add]
    rw [sum_single_if L e.1 (f e) hnd (hmem e (List.mem_cons_self _ _))]
    rw [hih]
    simp only [List.map_cons, List.sum_cons]


/-! Per-node conservation equations on the wired network. -/

def leftNodes (n0 : Nat) : List Nat := List.range' 1 (n0 / 2)

def partnersL (E : List (Nat × Nat)) (l : Nat) : List Nat :=
  (E.filter (fun e => e.1 = l)).map Prod.snd

def partnersR (E : List (Nat × Nat)) (r : Nat) : List Nat :=
  (E.filter (fun e => e.2 = r)).map Prod.fst

theorem mem_partnersL {E : List (Nat × Nat)} {l r : Nat} :
    r ∈ partnersL E l ↔ (l, r) ∈ E := by
  rw [partnersL, List.mem_map]
  constructor
  · rintro ⟨e, he, rfl⟩
    rcases List.mem_filter.mp he with ⟨hmem, hfst⟩
    have h1 : e.1 = l := of_decide_eq_true hfst
    have : e = (l, e.2) := by
      rw [← h1]
    rw [← this]
    exact hmem
  · intro hmem
    refine ⟨(l, r), List.mem_filter.mpr ⟨hmem, by simp⟩, rfl⟩

theorem mem_partnersR {E : List (Nat × Nat)} {l r : Nat} :
    l ∈ partnersR E r ↔ (l, r) ∈ E := by
  rw [partnersR, List.mem_map]
  constructor
  · rintro ⟨e, he, rfl⟩
    rcases List.mem_filter.mp he with ⟨hmem, hsnd⟩
    have h1 : e.2 = r := of_decide_eq_true hsnd
    have : e = (e.1, r) := by
      rw [← h1]
    rw [← this]
    exact hmem
  · intro hmem
    refine ⟨(l, r), List.mem_filter.mpr ⟨hmem, by simp⟩, rfl⟩

theorem nodup_partnersL {E : List (Nat × Nat)} (hEnd : E.Nodup) (l : Nat) :
    (partnersL E l).Nodup := by
  rw [partnersL]
  apply List.Nodup.map_on
  · intro x hx y hy hxy
    rcases List.mem_filter.mp hx with ⟨_, hx2⟩
    rcases List.mem_filter.mp hy with ⟨_, hy2⟩
    have h1 : x.1 = l := of_decide_eq_true hx2
    have h2 : y.1 = l := of_decide_eq_true hy2
    have hx3 : x = (x.1, x.2) := rfl
    have hy3 : y = (y.1, y.2) := rfl
    rw [hx3, hy3, h1, h2, hxy]
  · exact hEnd.filter _

theorem nodup_partnersR {E : List (Nat × Nat)} (hEnd : E.Nodup) (r : Nat) :
    (partnersR E r).Nodup := by
  rw [partnersR]
  apply List.Nodup.map_on
  · intro x hx y hy hxy
    rcases List.mem_filter.mp hx with ⟨_, hx2⟩
    rcases List.mem_filter.mp hy with ⟨_, hy2⟩
    have h1 : x.2 = r := of_decide_eq_true hx2
    have h2 : y.2 = r := of_decide_eq_true hy2
    have hx3 : x = (x.1, x.2) := rfl
    have hy3 : y = (y.1, y.2) := rfl
    rw [hx3, hy3, h1, h2, hxy]
  · exact hEnd.filter _

theorem cap0_src {n0 : Nat} {E : List (Nat × Nat)} {b : Nat}
    (h1 : 1 ≤ b) (h2 : b ≤ n0 / 2) : cap0 n0 E 0 b = 1 := by
  rw [cap0, if_pos ⟨rfl, h1, h2⟩]

theorem cap0_sink {n0 : Nat} {E : List (Nat × Nat)} {a : Nat}
    (h1 : n0 / 2 + 1 ≤ a) (h2 : a ≤ n0) : cap0 n0 E a (n0 + 1) = 1 := by
  rw [cap0, if_neg (by rintro ⟨rfl, _⟩; omega),
    if_pos ⟨h1, h2, rfl⟩]

theorem cap0_E {n0 : Nat} {E : List (Nat × Nat)} (hE : EdgesOK n0 E)
    {a b : Nat} (hmem : (a, b) ∈ E) : cap0 n0 E a b = 1 := by
  have h2 := hE (a, b) hmem
  dsimp only at h2
  rw [cap0, if_neg (by rintro ⟨rfl, _, _⟩; omega),
    if_neg (by rintro ⟨_, _, rfl⟩; omega), if_pos hmem]

theorem cap0_zero {n0 : Nat} {E : List (Nat × Nat)} {a b : Nat}
    (h1 : ¬ (a = 0 ∧ 1 ≤ b ∧ b ≤ n0 / 2))
    (h2 : ¬ (n0 / 2 + 1 ≤ a ∧ a ≤ n0 ∧ b = n0 + 1))
    (h3 : (a, b) ∉ E) : cap0 n0 E a b = 0 := by
  rw [cap0, if_neg h1, if_neg h2, if_neg h3]

theorem sum_range_supportS (n : Nat) (f : Nat → Int) (S : List Nat)
    (hS : ∀ j ∈ S, j < n) (hnd : S.Nodup)
    (hzero : ∀ j, j < n → j ∉ S → f j = 0) :
    ((List.range n).map f).sum = (S.map f).sum := by
  rw [sum_range_finset]
  have hsub : S.toFinset ⊆ Finset.range n := by
    intro x hx
    exact Finset.mem_range.mpr (hS x (List.mem_toFinset.mp hx))
  have heq := Finset.sum_subset hsub (f := f) (by
    intro x hx hnx
    exact hzero x (Finset.mem_range.mp hx)
      (fun hc => hnx (List.mem_toFinset.mpr hc)))
  rw [← heq, List.sum_toFinset f hnd]

/-- Conservation at a left node `l`: the flow entering `l` (from the
source plus reverse edges from matched partners) is exactly one unit of
the initial source capacity: `cap[0][l] + Σ cap[r][l] = 1`. -/
theorem key_left {n0 : Nat} {E : List (Nat × Nat)} (hE : EdgesOK n0 E)
    (hEnd : E.Nodup) {g : Graph} (hI : MInv n0 E g) {l : Nat}
    (hl1 : 1 ≤ l) (hl2 : l ≤ n0 / 2) :
    matGet g.adjacencyMatrix 0 l +
      ((partnersL E l).map (fun r => matGet g.adjacencyMatrix r l)).sum = 1 := by
  obtain ⟨hn, hwf, hnn, hps, hcons⟩ := hI
  have hgn : g.getNodes = n0 + 2 := by
    rw [Graph.getNodes, hn]
  have hzero : ∀ a b, cap0 n0 E a b = 0 → cap0 n0 E b a = 0 →
      matGet g.adjacencyMatrix a b = 0 := by
    intro a b hab hba
    have h1 := hps a b
    have h2 := hnn a b
    have h3 := hnn b a
    rw [hab, hba] at h1
    omega
  have hpbound : ∀ r ∈ partnersL E l, n0 / 2 + 1 ≤ r ∧ r ≤ n0 := by
    intro r hr
    exact (hE (l, r) (mem_partnersL.mp hr)).2
  have hpnd := nodup_partnersL hEnd l
  have hl0 : l ≠ 0 := by omega
  have hrowg : rowSumI g l = matGet g.adjacencyMatrix l 0 +
      ((partnersL E l).map (fun r => matGet g.adjacencyMatrix l r)).sum := by
    rw [rowSumI, hgn]
    apply sum_range_support (n0 + 2) _ 0 (partnersL E l) (by omega)
      (fun j hj => by have := hpbound j hj; omega) hpnd
      (fun hc => by have := hpbound 0 hc; omega)
    intro j hj hj0 hjS
    apply hzero
    · apply cap0_zero
      · rintro ⟨hc, _⟩
        exact hl0 hc
      · rintro ⟨hc, _, _⟩
        omega
      · intro hc
        exact hjS (mem_partnersL.mpr hc)
    · apply cap0_zero
      · rintro ⟨hc, _, hc2⟩
        omega
      · rintro ⟨_, _, hc⟩
        omega
      · intro hc
        have := (hE (j, l) hc).2
        dsimp only at this
        omega
  have hcolg : colSumI g l = matGet g.adjacencyMatrix 0 l +
      ((partnersL E l).map (fun r => matGet g.adjacencyMatrix r l)).sum := by
    rw [colSumI, hgn]
    apply sum_range_support (n0 + 2) _ 0 (partnersL E l) (by omega)
      (fun j hj => by have := hpbound j hj; omega) hpnd
      (fun hc => by have := hpbound 0 hc; omega)
    intro j hj hj0 hjS
    apply hzero
    · apply cap0_zero
      · rintro ⟨hc, _, hc2⟩
        omega
      · rintro ⟨_, _, hc⟩
        omega
      · intro hc
        have := (hE (j, l) hc).2
        dsimp only at this
        omega
    · apply cap0_zero
      · rintro ⟨hc, _⟩
        exact hl0 hc
      · rintro ⟨hc, _, _⟩
        omega
      · intro hc
        exact hjS (mem_partnersL.mpr hc)
  have hI0 := MInv_init n0 E hE
  obtain ⟨hn0, hwf0, hnn0, hps0, _⟩ := hI0
  have hgn0 : (buildGraph n0 E).getNodes = n0 + 2 := by
    rw [Graph.getNodes, hn0]
  have hzero0 : ∀ a b, cap0 n0 E a b = 0 → cap0 n0 E b a = 0 →
      matGet (buildGraph n0 E).adjacencyMatrix a b = 0 := by
    intro a b hab hba
    rw [buildGraph_cap n0 E hE a b, hab]
  have hrow0 : rowSumI (buildGraph n0 E) l = (0 : Int) +
      ((partnersL E l).map (fun _ => (1 : Int))).sum := by
    rw [rowSumI, hgn0]
    have hstep := sum_range_support (n0 + 2)
      (fun j => matGet (buildGraph n0 E).adjacencyMatrix l j) 0
      (partnersL E l) (by omega)
      (fun j hj => by have := hpbound j hj; omega) hpnd
      (fun hc => by have := hpbound 0 hc; omega)
      (by
        intro j hj hj0 hjS
        apply hzero0
        · apply cap0_zero
          · rintro ⟨hc, _⟩
            exact hl0 hc
          · rintro ⟨hc, _, _⟩
            omega
          · intro hc
            exact hjS (mem_partnersL.mpr hc)
        · apply cap0_zero
          · rintro ⟨hc, _, hc2⟩
            omega
          · rintro ⟨_, _, hc⟩
            omega
          · intro hc
            have := (hE (j, l) hc).2
            dsimp only at this
            omega)
    rw [hstep]
    congr 1
    · show matGet (buildGraph n0 E).adjacencyMatrix l 0 = 0
      rw [buildGraph_cap n0 E hE l 0]
      apply cap0_zero
      · rintro ⟨hc, _⟩
        exact hl0 hc
      · rintro ⟨_, _, hc⟩
        omega
      · intro hc
        have := (hE (l, 0) hc).2
        dsimp only at this
        omega
    · have hall : ∀ r ∈ partnersL E l,
          matGet (buildGraph n0 E).adjacencyMatrix l r = (1 : Int) := by
        intro r hr
        rw [buildGraph_cap n0 E hE l r]
        exact cap0_E hE (mem_partnersL.mp hr)
      rw [List.map_congr_left hall]
  have hcol0 : colSumI (buildGraph n0 E) l = (1 : Int) +
      ((partnersL E l).map (fun _ => (0 : Int))).sum := by
    rw [colSumI, hgn0]
    have hstep := sum_range_support (n0 + 2)
      (fun i => matGet (buildGraph n0 E).adjacencyMatrix i l) 0
      (partnersL E l) (by omega)
      (fun j hj => by have := hpbound j hj; omega) hpnd
      (fun hc => by have := hpbound 0 hc; omega)
      (by
        intro j hj hj0 hjS
        apply hzero0
        · apply cap0_zero
          · rintro ⟨hc, _, hc2⟩
            omega
          · rintro ⟨_, _, hc⟩
            omega
          · intro hc
            have := (hE (j, l) hc).2
            dsimp only at this
            omega
        · apply cap0_zero
          · rintro ⟨hc, _⟩
            exact hl0 hc
          · rintro ⟨hc, _, _⟩
            omega
          · intro hc
            exact hjS (mem_partnersL.mpr hc))
    rw [hstep]
    congr 1
    · show matGet (buildGraph n0 E).adjacencyMatrix 0 l = 1
      rw [buildGraph_cap n0 E hE 0 l]
      exact cap0_src hl1 hl2
    · have hall : ∀ r ∈ partnersL E l,
          matGet (buildGraph n0 E).adjacencyMatrix r l = (0 : Int) := by
        intro r hr
        rw [buildGraph_cap n0 E hE r l]
        apply cap0_zero
        · rintro ⟨hc, _⟩
          have := hpbound r hr
          omega
        · rintro ⟨_, _, hc⟩
          omega
        · intro hc
          have := (hE (r, l) hc).2
          dsimp only at this
          omega
      rw [List.map_congr_left hall]
  have hconsl := hcons l hl1 (by omega)
  rw [hrowg, hcolg, hrow0, hcol0] at hconsl
  have hpair0 : matGet g.adjacencyMatrix l 0 + matGet g.adjacencyMatrix 0 l = 1 := by
    have h1 := hps l 0
    rw [cap0_src hl1 hl2] at h1
    rw [show cap0 n0 E l 0 = 0 from by
      apply cap0_zero
      · rintro ⟨hc, _⟩
        exact hl0 hc
      · rintro ⟨_, _, hc⟩
        omega
      · intro hc
        have := (hE (l, 0) hc).2
        dsimp only at this
        omega] at h1
    omega
  have hpairsum : ((partnersL E l).map (fun r => matGet g.adjacencyMatrix l r)).sum +
      ((partnersL E l).map (fun r => matGet g.adjacencyMatrix r l)).sum =
      ((partnersL E l).length : Int) := by
    rw [sum_map_add]
    apply sum_map_one
    intro r hr
    have h1 := hps l r
    rw [cap0_E hE (mem_partnersL.mp hr)] at h1
    rw [show cap0 n0 E r l = 0 from by
      apply cap0_zero
      · rintro ⟨hc, _⟩
        have := hpbound r hr
        omega
      · rintro ⟨_, _, hc⟩
        omega
      · intro hc
        have := (hE (r, l) hc).2
        dsimp only at this
        omega] at h1
    omega
  have hone : ((partnersL E l).map (fun _ => (1 : Int))).sum =
      ((partnersL E l).length : Int) :=
    sum_map_one _ _ (fun _ _ => rfl)
  have hzs : ((partnersL E l).map (fun _ => (0 : Int))).sum = 0 := by
    induction partnersL E l with
    | nil => rfl
    | cons a rest ih =>
      simp only [List.map_cons, List.sum_cons, ih]
      ring
  rw [hone, hzs] at hconsl
  omega


/-- Conservation at a right node `r`: the flow pushed on to the sink
equals the flow carried on the matched edge: `cap[sink][r] = Σ
cap[r][l]`. -/
theorem key_right {n0 : Nat} {E : List (Nat × Nat)} (hE : EdgesOK n0 E)
    (hEnd : E.Nodup) {g : Graph} (hI : MInv n0 E g) {r : Nat}
    (hr1 : n0 / 2 + 1 ≤ r) (hr2 : r ≤ n0) :
    matGet g.adjacencyMatrix (n0 + 1) r =
      ((partnersR E r).map (fun l => matGet g.adjacencyMatrix r l)).sum := by
  obtain ⟨hn, hwf, hnn, hps, hcons⟩ := hI
  have hgn : g.getNodes = n0 + 2 := by
    rw [Graph.getNodes, hn]
  have hzero : ∀ a b, cap0 n0 E a b = 0 → cap0 n0 E b a = 0 →
      matGet g.adjacencyMatrix a b = 0 := by
    intro a b hab hba
    have h1 := hps a b
    have h2 := hnn a b
    have h3 := hnn b a
    rw [hab, hba] at h1
    omega
  have hpbound : ∀ l ∈ partnersR E r, 1 ≤ l ∧ l ≤ n0 / 2 := by
    intro l hl
    exact (hE (l, r) (mem_partnersR.mp hl)).1
  have hpnd := nodup_partnersR hEnd r
  have hcap_rl : ∀ l ∈ partnersR E r, cap0 n0 E r l = 0 := by
    intro l hl
    apply cap0_zero
    · rintro ⟨hc, _⟩
      omega
    · rintro ⟨_, _, hc⟩
      have := hpbound l hl
      omega
    · intro hc
      have := (hE (r, l) hc).1
      dsimp only at this
      omega
  have hcap_tr : cap0 n0 E (n0 + 1) r = 0 := by
    apply cap0_zero
    · rintro ⟨hc, _⟩
      omega
    · rintro ⟨_, hc, _⟩
      omega
    · intro hc
      have := (hE (n0 + 1, r) hc).1
      dsimp only at this
      omega
  have hzero_off : ∀ j, j < n0 + 2 → j ≠ n0 + 1 → j ∉ partnersR E r →
      cap0 n0 E r j = 0 ∧ cap0 n0 E j r = 0 := by
    intro j hj hjt hjS
    constructor
    · apply cap0_zero
      · rintro ⟨hc, _⟩
        omega
      · rintro ⟨_, _, hc⟩
        exact hjt hc
      · intro hc
        have := (hE (r, j) hc).1
        dsimp only at this
        omega
    · apply cap0_zero
      · rintro ⟨_, _, hc⟩
        omega
      · rintro ⟨_, hc, _⟩
        omega
      · intro hc
        exact hjS (mem_partnersR.mpr hc)
  have hrowg : rowSumI g r = matGet g.adjacencyMatrix r (n0 + 1) +
      ((partnersR E r).map (fun l => matGet g.adjacencyMatrix r l)).sum := by
    rw [rowSumI, hgn]
    apply sum_range_support (n0 + 2) _ (n0 + 1) (partnersR E r) (by omega)
      (fun j hj => by have := hpbound j hj; omega) hpnd
      (fun hc => by have := hpbound (n0 + 1) hc; omega)
    intro j hj hjt hjS
    exact hzero r j (hzero_off j hj hjt hjS).1 (hzero_off j hj hjt hjS).2
  have hcolg : colSumI g r = matGet g.adjacencyMatrix (n0 + 1) r +
      ((partnersR E r).map (fun l => matGet g.adjacencyMatrix l r)).sum := by
    rw [colSumI, hgn]
    apply sum_range_support (n0 + 2) _ (n0 + 1) (partnersR E r) (by omega)
      (fun j hj => by have := hpbound j hj; omega) hpnd
      (fun hc => by have := hpbound (n0 + 1) hc; omega)
    intro j hj hjt hjS
    exact hzero j r (hzero_off j hj hjt hjS).2 (hzero_off j hj hjt hjS).1
  have hI0 := MInv_init n0 E hE
  obtain ⟨hn0, hwf0, hnn0, hps0, _⟩ := hI0
  have hgn0 : (buildGraph n0 E).getNodes = n0 + 2 := by
    rw [Graph.getNodes, hn0]
  have hrow0 : rowSumI (buildGraph n0 E) r = (1 : Int) +
      ((partnersR E r).map (fun _ => (0 : Int))).sum := by
    rw [rowSumI, hgn0]
    have hstep := sum_range_support (n0 + 2)
      (fun j => matGet (buildGraph n0 E).adjacencyMatrix r j) (n0 + 1)
      (partnersR E r) (by omega)
      (fun j hj => by have := hpbound j hj; omega) hpnd
      (fun hc => by have := hpbound (n0 + 1) hc; omega)
      (by
        intro j hj hjt hjS
        show matGet (buildGraph n0 E).adjacencyMatrix r j = 0
        rw [buildGraph_cap n0 E hE r j]
        exact (hzero_off j hj hjt hjS).1)
    rw [hstep]
    congr 1
    · show matGet (buildGraph n0 E).adjacencyMatrix r (n0 + 1) = 1
      rw [buildGraph_cap n0 E hE r (n0 + 1)]
      exact cap0_sink hr1 hr2
    · have hall : ∀ l ∈ partnersR E r,
          matGet (buildGraph n0 E).adjacencyMatrix r l = (0 : Int) := by
        intro l hl
        rw [buildGraph_cap n0 E hE r l]
        exact hcap_rl l hl
      rw [List.map_congr_left hall]
  have hcol0 : colSumI (buildGraph n0 E) r = (0 : Int) +
      ((partnersR E r).map (fun _ => (1 : Int))).sum := by
    rw [colSumI, hgn0]
    have hstep := sum_range_support (n0 + 2)
      (fun i => matGet (buildGraph n0 E).adjacencyMatrix i r) (n0 + 1)
      (partnersR E r) (by omega)
      (fun j hj => by have := hpbound j hj; omega) hpnd
      (fun hc => by have := hpbound (n0 + 1) hc; omega)
      (by
        intro j hj hjt hjS
        show matGet (buildGraph n0 E).adjacencyMatrix j r = 0
        rw [buildGraph_cap n0 E hE j r]
        exact (hzero_off j hj hjt hjS).2)
    rw [hstep]
    congr 1
    · show matGet (buildGraph n0 E).adjacencyMatrix (n0 + 1) r = 0
      rw [buildGraph_cap n0 E hE (n0 + 1) r]
      exact hcap_tr
    · have hall : ∀ l ∈ partnersR E r,
          matGet (buildGraph n0 E).adjacencyMatrix l r = (1 : Int) := by
        intro l hl
        rw [buildGraph_cap n0 E hE l r]
        exact cap0_E hE (mem_partnersR.mp hl)
      rw [List.map_congr_left hall]
  have hconsr := hcons r (by omega) hr2
  rw [hrowg, hcolg, hrow0, hcol0] at hconsr
  have hpairt : matGet g.adjacencyMatrix r (n0 + 1) +
      matGet g.adjacencyMatrix (n0 + 1) r = 1 := by
    have h1 := hps r (n0 + 1)
    rw [cap0_sink hr1 hr2, hcap_tr] at h1
    omega
  have hpairsum : ((partnersR E r).map (fun l => matGet g.adjacencyMatrix r l)).sum +
      ((partnersR E r).map (fun l => matGet g.adjacencyMatrix l r)).sum =
      ((partnersR E r).length : Int) := by
    rw [sum_map_add]
    apply sum_map_one
    intro l hl
    have h1 := hps r l
    rw [hcap_rl l hl, cap0_E hE (mem_partnersR.mp hl)] at h1
    omega
  have hone : ((partnersR E r).map (fun _ => (1 : Int))).sum =
      ((partnersR E r).length : Int) :=
    sum_map_one _ _ (fun _ _ => rfl)
  have hzs : ((partnersR E r).map (fun _ => (0 : Int))).sum = 0 := by
    induction partnersR E r with
    | nil => rfl
    | cons a rest ih =>
      simp only [List.map_cons, List.sum_cons, ih]
      ring
  rw [hone, hzs] at hconsr
  omega


/-! Counting: the pushed units equal the number of residual matched
pairs. -/

/-- The matching the final residual state encodes (as `printResults`
reads it): input edges whose reverse residual carries one unit. -/
def resMatching (E : List (Nat × Nat)) (g : Graph) : List (Nat × Nat) :=
  E.filter (fun e => matGet g.adjacencyMatrix e.2 e.1 = 1)

theorem mem_leftNodes {n0 l : Nat} : l ∈ leftNodes n0 ↔ 1 ≤ l ∧ l ≤ n0 / 2 := by
  rw [leftNodes, List.mem_range'_1]
  omega

theorem cast_sum_toNat (l : List Nat) (f : Nat → Int)
    (hnn : ∀ x ∈ l, 0 ≤ f x) :
    (((l.map (fun x => (f x).toNat)).sum : Nat) : Int) = (l.map f).sum := by
  induction l with
  | nil => rfl
  | cons a rest ih =>
    simp only [List.map_cons, List.sum_cons, Nat.cast_add]
    rw [ih (fun x hx => hnn x (List.mem_cons_of_mem _ hx)),
      Int.toNat_of_nonneg (hnn a (List.mem_cons_self _ _))]

/-- The source-row potential is the sum of the source cells over the
left partition. -/
theorem srcPot_expand {n0 : Nat} {E : List (Nat × Nat)} (hE : EdgesOK n0 E)
    {g : Graph} (hI : MInv n0 E g) :
    ((srcPot g 0 : Nat) : Int) =
      ((leftNodes n0).map (fun l => matGet g.adjacencyMatrix 0 l)).sum := by
  obtain ⟨hn, hwf, hnn, hps, _⟩ := hI
  have hgn : g.getNodes = n0 + 2 := by
    rw [Graph.getNodes, hn]
  rw [srcPot, hgn]
  rw [cast_sum_toNat _ _ (fun x _ => hnn 0 x)]
  apply sum_range_supportS (n0 + 2) _ (leftNodes n0)
    (fun j hj => by have := mem_leftNodes.mp hj; omega)
    (List.nodup_range' 1 (n0 / 2))
  intro j hj hjS
  have h1 := hps 0 j
  have h2 := hnn 0 j
  have h3 := hnn j 0
  rw [show cap0 n0 E 0 j = 0 from by
    apply cap0_zero
    · rintro ⟨_, hc1, hc2⟩
      exact hjS (mem_leftNodes.mpr ⟨hc1, hc2⟩)
    · rintro ⟨hc, _, _⟩
      omega
    · intro hc
      have := (hE (0, j) hc).1
      dsimp only at this
      omega] at h1
  rw [show cap0 n0 E j 0 = 0 from by
    apply cap0_zero
    · rintro ⟨_, hc, _⟩
      omega
    · rintro ⟨_, _, hc⟩
      omega
    · intro hc
      have := (hE (j, 0) hc).2
      dsimp only at this
      omega] at h1
  omega

theorem sum_pairs_eq_filter (f : Nat × Nat → Int) :
    ∀ (E2 : List (Nat × Nat)), (∀ e ∈ E2, f e = 0 ∨ f e = 1) →
      (E2.map f).sum = (((E2.filter (fun e => f e = 1)).length : Nat) : Int) := by
  intro E2
  induction E2 with
  | nil =>
    intro _
    rfl
  | cons e rest ih =>
    intro h01
    have hih := ih (fun x hx => h01 x (List.mem_cons_of_mem _ hx))
    simp only [List.map_cons, List.sum_cons]
    rcases h01 e (List.mem_cons_self _ _) with h0 | h1
    · rw [List.filter_cons_of_neg (by simp [h0]), h0, hih]
      ring
    · rw [List.filter_cons_of_pos (by simp [h1]), h1, hih]
      simp only [List.length_cons]
      push_cast
      ring

/-- Each residual reverse cell on an input edge is zero or one. -/
theorem cell01 {n0 : Nat} {E : List (Nat × Nat)} (hE : EdgesOK n0 E)
    {g : Graph} (hI : MInv n0 E g) {e : Nat × Nat} (he : e ∈ E) :
    matGet g.adjacencyMatrix e.2 e.1 = 0 ∨
      matGet g.adjacencyMatrix e.2 e.1 = 1 := by
  obtain ⟨_, _, hnn, hps, _⟩ := hI
  have hb := hE e he
  have h1 := hps e.2 e.1
  have h2 := hnn e.2 e.1
  have h3 := hnn e.1 e.2
  have he2 : (e.1, e.2) ∈ E := by
    have : e = (e.1, e.2) := rfl
    rw [← this]
    exact he
  rw [show cap0 n0 E e.1 e.2 = 1 from cap0_E hE he2] at h1
  rw [show cap0 n0 E e.2 e.1 = 0 from by
    apply cap0_zero
    · rintro ⟨hc, _⟩
      omega
    · rintro ⟨_, _, hc⟩
      omega
    · intro hc
      have := (hE (e.2, e.1) hc).1
      dsimp only at this
      omega] at h1
  omega

/-- The total source-row deficit equals the number of matched pairs. -/
theorem count_matched {n0 : Nat} {E : List (Nat × Nat)} (hE : EdgesOK n0 E)
    (hEnd : E.Nodup) {g : Graph} (hI : MInv n0 E g) :
    ((srcPot (buildGraph n0 E) 0 : Nat) : Int) - ((srcPot g 0 : Nat) : Int) =
      ((resMatching E g).length : Int) := by
  have hI0 := MInv_init n0 E hE
  rw [srcPot_expand hE hI0, srcPot_expand hE hI]
  have hinit : ∀ l ∈ leftNodes n0,
      matGet (buildGraph n0 E).adjacencyMatrix 0 l = (1 : Int) := by
    intro l hl
    have := mem_leftNodes.mp hl
    rw [buildGraph_cap n0 E hE 0 l]
    exact cap0_src this.1 this.2
  rw [List.map_congr_left hinit]
  have hsub : ((leftNodes n0).map (fun _ => (1 : Int))).sum -
      ((leftNodes n0).map (fun l => matGet g.adjacencyMatrix 0 l)).sum =
      ((leftNodes n0).map (fun l =>
        1 - matGet g.adjacencyMatrix 0 l)).sum := by
    have := sum_map_add (leftNodes n0)
      (fun l => 1 - matGet g.adjacencyMatrix 0 l)
      (fun l => matGet g.adjacencyMatrix 0 l)
    have h2 : ((leftNodes n0).map (fun l =>
        1 - matGet g.adjacencyMatrix 0 l + matGet g.adjacencyMatrix 0 l)).sum =
        ((leftNodes n0).map (fun _ => (1 : Int))).sum := by
      apply congrArg
      apply List.map_congr_left
      intro x _
      ring
    omega
  rw [hsub]
  have hX : ∀ l ∈ leftNodes n0, 1 - matGet g.adjacencyMatrix 0 l =
      ((partnersL E l).map (fun r => matGet g.adjacencyMatrix r l)).sum := by
    intro l hl
    have hb := mem_leftNodes.mp hl
    have := key_left hE hEnd hI hb.1 hb.2
    omega
  rw [List.map_congr_left hX]
  have hfib : ∀ l ∈ leftNodes n0,
      ((partnersL E l).map (fun r => matGet g.adjacencyMatrix r l)).sum =
      (((E.filter (fun e => e.1 = l)).map
        (fun e => matGet g.adjacencyMatrix e.2 e.1)).sum) := by
    intro l _
    rw [partnersL, List.map_map]
    apply congrArg
    apply List.map_congr_left
    intro e he
    rcases List.mem_filter.mp he with ⟨_, hfst⟩
    have h1 : e.1 = l := of_decide_eq_true hfst
    show matGet g.adjacencyMatrix e.2 l = matGet g.adjacencyMatrix e.2 e.1
    rw [h1]
  rw [List.map_congr_left hfib]
  rw [sum_fiber (leftNodes n0) (fun e => matGet g.adjacencyMatrix e.2 e.1) E
    (List.nodup_range' 1 (n0 / 2))
    (fun e he => mem_leftNodes.mpr (hE e he).1)]
  rw [resMatching]
  exact sum_pairs_eq_filter _ E (fun e he => cell01 hE hI he)


theorem resMatching_mem {E : List (Nat × Nat)} {g : Graph} {e : Nat × Nat} :
    e ∈ resMatching E g ↔ e ∈ E ∧ matGet g.adjacencyMatrix e.2 e.1 = 1 := by
  rw [resMatching, List.mem_filter]
  constructor
  · rintro ⟨h1, h2⟩
    exact ⟨h1, of_decide_eq_true h2⟩
  · rintro ⟨h1, h2⟩
    exact ⟨h1, decide_eq_true h2⟩

/-- The reverse residual cell of a left node bounds at one: the
matching the final state encodes pairs each left node at most once. -/
theorem resMatching_nodup_fst {n0 : Nat} {E : List (Nat × Nat)}
    (hE : EdgesOK n0 E) (hEnd : E.Nodup) {g : Graph} (hI : MInv n0 E g) :
    ((resMatching E g).map Prod.fst).Nodup := by
  apply List.Nodup.map_on
  · intro e1 he1 e2 he2 heq
    by_contra hne
    rcases resMatching_mem.mp he1 with ⟨hm1, hx1⟩
    rcases resMatching_mem.mp he2 with ⟨hm2, hx2⟩
    have hb := (hE e1 hm1).1
    have hr12 : e1.2 ≠ e2.2 := by
      intro hc
      exact hne (Prod.ext heq hc)
    have hp1 : e1.2 ∈ partnersL E e1.1 := by
      apply mem_partnersL.mpr
      have : e1 = (e1.1, e1.2) := rfl
      rw [← this]
      exact hm1
    have hp2 : e2.2 ∈ partnersL E e1.1 := by
      apply mem_partnersL.mpr
      have : e2 = (e2.1, e2.2) := rfl
      rw [heq, ← this]
      exact hm2
    have hge2 := sum_ge_two (partnersL E e1.1)
      (fun r => matGet g.adjacencyMatrix r e1.1) e1.2 e2.2
      (nodup_partnersL hEnd e1.1) hp1 hp2 hr12
      (by show 1 ≤ matGet g.adjacencyMatrix e1.2 e1.1; rw [hx1])
      (by show 1 ≤ matGet g.adjacencyMatrix e2.2 e1.1; rw [heq, hx2])
      (fun x _ => hI.2.2.1 x e1.1)
    have hkl := key_left hE hEnd hI hb.1 hb.2
    have := hI.2.2.1 0 e1.1
    omega
  · exact hEnd.filter _

theorem resMatching_nodup_snd {n0 : Nat} {E : List (Nat × Nat)}
    (hE : EdgesOK n0 E) (hEnd : E.Nodup) {g : Graph} (hI : MInv n0 E g) :
    ((resMatching E g).map Prod.snd).Nodup := by
  apply List.Nodup.map_on
  · intro e1 he1 e2 he2 heq
    by_contra hne
    rcases resMatching_mem.mp he1 with ⟨hm1, hx1⟩
    rcases resMatching_mem.mp he2 with ⟨hm2, hx2⟩
    have hb := (hE e1 hm1).2
    have hl12 : e1.1 ≠ e2.1 := by
      intro hc
      exact hne (Prod.ext hc heq)
    have hp1 : e1.1 ∈ partnersR E e1.2 := by
      apply mem_partnersR.mpr
      have : e1 = (e1.1, e1.2) := rfl
      rw [← this]
      exact hm1
    have hp2 : e2.1 ∈ partnersR E e1.2 := by
      apply mem_partnersR.mpr
      have : e2 = (e2.1, e2.2) := rfl
      rw [heq, ← this]
      exact hm2
    have hge2 := sum_ge_two (partnersR E e1.2)
      (fun l => matGet g.adjacencyMatrix e1.2 l) e1.1 e2.1
      (nodup_partnersR hEnd e1.2) hp1 hp2 hl12
      (by show 1 ≤ matGet g.adjacencyMatrix e1.2 e1.1; rw [hx1])
      (by show 1 ≤ matGet g.adjacencyMatrix e1.2 e2.1; rw [heq, hx2])
      (fun x _ => hI.2.2.1 e1.2 x)
    have hkr := key_right hE hEnd hI hb.1 hb.2
    have h1 := hI.2.2.2.1 e1.2 (n0 + 1)
    have h2 := hI.2.2.1 e1.2 (n0 + 1)
    have h3 := hI.2.2.1 (n0 + 1) e1.2
    rw [cap0_sink hb.1 hb.2] at h1
    rw [show cap0 n0 E (n0 + 1) e1.2 = 0 from by
      apply cap0_zero
      · rintro ⟨hc, _⟩
        omega
      · rintro ⟨_, hc, _⟩
        omega
      · intro hc
        have := (hE (n0 + 1, e1.2) hc).1
        dsimp only at this
        omega] at h1
    omega
  · exact hEnd.filter _

/-! Reachability structure of the final residual graph. -/

theorem reach_step {g : Graph} {u v : Nat} (hv : v < g.getNodes)
    (hp : 0 < matGet g.adjacencyMatrix u v) (hu : Reach g 0 u) :
    Reach g 0 v :=
  Relation.ReflTransGen.tail hu ⟨hv, hp⟩

/-- Positive residual into a left node comes from the source or from a
matched partner. -/
theorem left_pred {n0 : Nat} {E : List (Nat × Nat)} (hE : EdgesOK n0 E)
    {g : Graph} (hI : MInv n0 E g) {l w : Nat} (hl1 : 1 ≤ l)
    (hl2 : l ≤ n0 / 2) (hpos : 0 < matGet g.adjacencyMatrix w l) :
    w = 0 ∨ (l, w) ∈ E := by
  by_contra hc
  push_neg at hc
  have h1 := hI.2.2.2.1 w l
  have h2 := hI.2.2.1 w l
  have h3 := hI.2.2.1 l w
  rw [show cap0 n0 E w l = 0 from by
    apply cap0_zero
    · rintro ⟨hc2, _⟩
      exact hc.1 hc2
    · rintro ⟨_, _, hc2⟩
      omega
    · intro hc2
      have := (hE (w, l) hc2).2
      dsimp only at this
      omega] at h1
  rw [show cap0 n0 E l w = 0 from by
    apply cap0_zero
    · rintro ⟨hc2, _⟩
      omega
    · rintro ⟨hc2, _, _⟩
      omega
    · intro hc2
      exact hc.2 hc2] at h1
  omega

/-- A left node matched on edge `(l, r)` admits no second positive
in-residual partner. -/
theorem matched_unique {n0 : Nat} {E : List (Nat × Nat)} (hE : EdgesOK n0 E)
    (hEnd : E.Nodup) {g : Graph} (hI : MInv n0 E g) {l r w : Nat}
    (hl1 : 1 ≤ l) (hl2 : l ≤ n0 / 2)
    (hmr : (l, r) ∈ E) (hxr : matGet g.adjacencyMatrix r l = 1)
    (hw : (l, w) ∈ E) (hxw : 0 < matGet g.adjacencyMatrix w l) : w = r := by
  by_contra hne
  have hge2 := sum_ge_two (partnersL E l)
    (fun x => matGet g.adjacencyMatrix x l) r w
    (nodup_partnersL hEnd l) (mem_partnersL.mpr hmr) (mem_partnersL.mpr hw)
    (fun hc => hne hc.symm)
    (by show 1 ≤ matGet g.adjacencyMatrix r l; rw [hxr])
    (by show 1 ≤ matGet g.adjacencyMatrix w l; omega)
    (fun x _ => hI.2.2.1 x l)
  have hkl := key_left hE hEnd hI hl1 hl2
  have := hI.2.2.1 0 l
  omega

/-- A left node with exhausted source capacity is matched. -/
theorem left_matched_ex {n0 : Nat} {E : List (Nat × Nat)} (hE : EdgesOK n0 E)
    (hEnd : E.Nodup) {g : Graph} (hI : MInv n0 E g) {l : Nat}
    (hl1 : 1 ≤ l) (hl2 : l ≤ n0 / 2)
    (hz : matGet g.adjacencyMatrix 0 l = 0) :
    ∃ r, (l, r) ∈ E ∧ matGet g.adjacencyMatrix r l = 1 := by
  have hkl := key_left hE hEnd hI hl1 hl2
  rw [hz] at hkl
  have hpos : 0 < ((partnersL E l).map
      (fun r => matGet g.adjacencyMatrix r l)).sum := by omega
  rcases sum_pos_ex _ _ hpos with ⟨r, hr, hrl⟩
  refine ⟨r, mem_partnersL.mp hr, ?_⟩
  have h1 := hI.2.2.2.1 r l
  have h3 := hI.2.2.1 l r
  rw [show cap0 n0 E r l = 0 from by
    apply cap0_zero
    · rintro ⟨hc, _⟩
      have := (hE (l, r) (mem_partnersL.mp hr)).2
      dsimp only at this
      omega
    · rintro ⟨_, _, hc⟩
      omega
    · intro hc
      have := (hE (r, l) hc).2
      dsimp only at this
      omega,
    cap0_E hE (mem_partnersL.mp hr)] at h1
  omega

/-- A reachable right node (with the sink unreachable) is matched. -/
theorem right_matched_ex {n0 : Nat} {E : List (Nat × Nat)} (hE : EdgesOK n0 E)
    (hEnd : E.Nodup) {g : Graph} (hI : MInv n0 E g) {r : Nat}
    (hr1 : n0 / 2 + 1 ≤ r) (hr2 : r ≤ n0)
    (hreach : Reach g 0 r) (hUn : ¬ Reach g 0 (n0 + 1)) :
    ∃ l, (l, r) ∈ E ∧ matGet g.adjacencyMatrix r l = 1 := by
  have hgn : g.getNodes = n0 + 2 := by
    rw [Graph.getNodes, hI.1]
  have hrt : matGet g.adjacencyMatrix r (n0 + 1) = 0 := by
    by_contra hc
    have hpos : 0 < matGet g.adjacencyMatrix r (n0 + 1) := by
      have := hI.2.2.1 r (n0 + 1)
      omega
    exact hUn (reach_step (by omega) hpos hreach)
  have h1 := hI.2.2.2.1 r (n0 + 1)
  rw [cap0_sink hr1 hr2] at h1
  rw [show cap0 n0 E (n0 + 1) r = 0 from by
    apply cap0_zero
    · rintro ⟨hc, _⟩
      omega
    · rintro ⟨_, hc, _⟩
      omega
    · intro hc
      have := (hE (n0 + 1, r) hc).1
      dsimp only at this
      omega] at h1
  have hy : matGet g.adjacencyMatrix (n0 + 1) r = 1 := by omega
  have hkr := key_right hE hEnd hI hr1 hr2
  rw [hy] at hkr
  have hpos : 0 < ((partnersR E r).map
      (fun l => matGet g.adjacencyMatrix r l)).sum := by omega
  rcases sum_pos_ex _ _ hpos with ⟨l, hl, hrl⟩
  refine ⟨l, mem_partnersR.mp hl, ?_⟩
  have h2 := hI.2.2.2.1 r l
  have h4 := hI.2.2.1 l r
  rw [show cap0 n0 E r l = 0 from by
    apply cap0_zero
    · rintro ⟨hc, _⟩
      omega
    · rintro ⟨_, _, hc⟩
      have := (hE (l, r) (mem_partnersR.mp hl)).1
      dsimp only at this
      omega
    · intro hc
      have := (hE (r, l) hc).2
      dsimp only at this
      have h5 := (hE (l, r) (mem_partnersR.mp hl)).1
      dsimp only at h5
      omega,
    cap0_E hE (mem_partnersR.mp hl)] at h2
  omega

/-- Along a matched edge, reachability of the left end transfers to
the right end: the only way into a matched left node is the reverse
matched edge. -/
theorem reach_right_of_left {n0 : Nat} {E : List (Nat × Nat)}
    (hE : EdgesOK n0 E) (hEnd : E.Nodup) {g : Graph} (hI : MInv n0 E g)
    {l r : Nat} (hl1 : 1 ≤ l) (hl2 : l ≤ n0 / 2)
    (hreach : Reach g 0 l) (hmr : (l, r) ∈ E)
    (hx : matGet g.adjacencyMatrix r l = 1) : Reach g 0 r := by
  have hz : matGet g.adjacencyMatrix 0 l = 0 := by
    have hkl := key_left hE hEnd hI hl1 hl2
    have hle : matGet g.adjacencyMatrix r l ≤
        ((partnersL E l).map (fun x => matGet g.adjacencyMatrix x l)).sum :=
      sum_mem_le (partnersL E l)
        (fun x => matGet g.adjacencyMatrix x l) r (nodup_partnersL hEnd l)
        (mem_partnersL.mpr hmr) (fun x _ => hI.2.2.1 x l)
    have := hI.2.2.1 0 l
    omega
  rcases Relation.ReflTransGen.cases_tail hreach with hl0 | ⟨w, hwreach, hwstep⟩
  · omega
  · have hwpos : 0 < matGet g.adjacencyMatrix w l := hwstep.2
    rcases left_pred hE hI hl1 hl2 hwpos with rfl | hwE
    · rw [hz] at hwpos
      omega
    · have := matched_unique hE hEnd hI hl1 hl2 hmr hx hwE hwpos
      rw [← this]
      exact hwreach


/-- The matching the final residual graph encodes is maximum: any list
of edges of `E` pairing each left and each right node at most once is no
longer than it.  The sink being unreachable in the residual graph is the
loop exit condition; the argument is the standard alternating-path cover. -/
theorem resMatching_max {n0 : Nat} {E : List (Nat × Nat)} (hE : EdgesOK n0 E)
    (hEnd : E.Nodup) {g : Graph} (hI : MInv n0 E g)
    (hUn : ¬ Reach g 0 (n0 + 1)) (M : List (Nat × Nat))
    (hME : ∀ e ∈ M, e ∈ E) (hMf : (M.map Prod.fst).Nodup)
    (hMs : (M.map Prod.snd).Nodup) :
    M.length ≤ (resMatching E g).length := by
  have hgn : g.getNodes = n0 + 2 := by
    rw [Graph.getNodes, hI.1]
  have hlink : ∀ e, ∃ m, e ∈ M → m ∈ resMatching E g ∧
      ((m.1 = e.1 ∧ ¬ Reach g 0 e.1) ∨ (m.2 = e.2 ∧ Reach g 0 e.2)) := by
    intro e
    by_cases heM : e ∈ M
    · have heE := hME e heM
      have hbl := (hE e heE).1
      have hbr := (hE e heE).2
      by_cases hre : Reach g 0 e.1
      · -- the left end is residual-reachable, so the right end is too,
        -- and a reachable right node must be matched
        have hre2 : Reach g 0 e.2 := by
          have hpair := hI.2.2.2.1 e.1 e.2
          rw [cap0_E hE (by rw [show (e.1, e.2) = e from rfl]; exact heE),
            show cap0 n0 E e.2 e.1 = 0 from by
              apply cap0_zero
              · rintro ⟨hc, _⟩
                omega
              · rintro ⟨_, _, hc⟩
                omega
              · intro hc
                have := (hE (e.2, e.1) hc).1
                dsimp only at this
                omega] at hpair
          by_cases hm : matGet g.adjacencyMatrix e.2 e.1 = 1
          · exact reach_right_of_left hE hEnd hI hbl.1 hbl.2 hre
              (by rw [show (e.1, e.2) = e from rfl]; exact heE) hm
          · have h1 := hI.2.2.1 e.2 e.1
            have h2 := hI.2.2.1 e.1 e.2
            exact reach_step (by omega) (by omega) hre
        rcases right_matched_ex hE hEnd hI hbr.1 hbr.2 hre2 hUn with
          ⟨l, hlE, hlm⟩
        exact ⟨(l, e.2), fun _ => ⟨resMatching_mem.mpr ⟨hlE, hlm⟩,
          Or.inr ⟨rfl, hre2⟩⟩⟩
      · -- the left end is unreachable, so its unit source capacity is
        -- exhausted and it is matched
        have hz : matGet g.adjacencyMatrix 0 e.1 = 0 := by
          by_contra hc
          have := hI.2.2.1 0 e.1
          exact hre (reach_step (by omega) (by omega)
            Relation.ReflTransGen.refl)
        rcases left_matched_ex hE hEnd hI hbl.1 hbl.2 hz with ⟨r, hrE, hrm⟩
        exact ⟨(e.1, r), fun _ => ⟨resMatching_mem.mpr ⟨hrE, hrm⟩,
          Or.inl ⟨rfl, hre⟩⟩⟩
    · exact ⟨e, fun hc => absurd hc heM⟩
  rcases Classical.axiomOfChoice hlink with ⟨φ, hφ⟩
  have hMnd : M.Nodup := hMf.of_map
  have hinj : Set.InjOn φ (M.toFinset : Set (Nat × Nat)) := by
    intro e1 he1 e2 he2 heq
    rw [Finset.mem_coe, List.mem_toFinset] at he1 he2
    rcases hφ e1 he1 with ⟨hm1, hc1⟩
    rcases hφ e2 he2 with ⟨hm2, hc2⟩
    rcases hc1 with ⟨hf1, hn1⟩ | ⟨hs1, hr1⟩
    · rcases hc2 with ⟨hf2, hn2⟩ | ⟨hs2, hr2⟩
      · exact List.inj_on_of_nodup_map hMf he1 he2
          (by rw [← hf1, ← hf2, heq])
      · -- mixed case: the shared matched edge would carry reachability
        -- from the right end back to the unreachable left end
        exfalso
        rcases resMatching_mem.mp hm1 with ⟨hmE, hmx⟩
        have hb := (hE (φ e1) hmE).1
        apply hn1
        rw [← hf1]
        have hr : Reach g 0 (φ e1).2 := by
          rw [heq, hs2]
          exact hr2
        exact reach_step (show (φ e1).1 < g.getNodes from by omega)
          (show 0 < matGet g.adjacencyMatrix (φ e1).2 (φ e1).1 from by omega)
          hr
    · rcases hc2 with ⟨hf2, hn2⟩ | ⟨hs2, hr2⟩
      · exfalso
        rcases resMatching_mem.mp hm2 with ⟨hmE, hmx⟩
        have hb := (hE (φ e2) hmE).1
        apply hn2
        rw [← hf2]
        have hr : Reach g 0 (φ e2).2 := by
          rw [← heq, hs1]
          exact hr1
        exact reach_step (show (φ e2).1 < g.getNodes from by omega)
          (show 0 < matGet g.adjacencyMatrix (φ e2).2 (φ e2).1 from by omega)
          hr
      · exact List.inj_on_of_nodup_map hMs he1 he2
          (by rw [← hs1, ← hs2, heq])
  have hmaps : ∀ e ∈ M.toFinset, φ e ∈ (resMatching E g).toFinset := by
    intro e he
    rw [List.mem_toFinset] at he ⊢
    exact (hφ e he).1
  have hcard := Finset.card_le_card_of_injOn φ hmaps hinj
  rw [List.toFinset_card_of_nodup hMnd] at hcard
  exact hcard.trans (List.toFinset_card_le _)


/-- C1: On a fully wired unit-capacity bipartite network built from a
partition of `n0` inner nodes and a duplicate-free edge list `E` (source
`0` joined to every left node, every right node joined to sink `n0 + 1`,
each listed left-right edge of capacity one), `calculateMaxFlow(0, n0+1)`
returns without error and the number of augmenting-path units it pushes
equals the size of a maximum matching of the bipartite graph: some list
of edges of `E` that repeats no left and no right endpoint has exactly
that many edges, and every such list has at most that many. -/
theorem calculateMaxFlow_max_matching (n0 : Nat) (E : List (Nat × Nat))
    (hE : EdgesOK n0 E) (hEnd : E.Nodup) :
    ∃ st2 : FFState,
      calculateMaxFlow ⟨buildGraph n0 E, [], [], 0⟩ 0 ((n0 : Int) + 1)
        (searchFuel (buildGraph n0 E)) (srcPot (buildGraph n0 E) 0 + 1)
        (srcPot (buildGraph n0 E) 0 + 1) = (st2, none) ∧
      (∃ M : List (Nat × Nat),
        (∀ e ∈ M, e ∈ E) ∧ (M.map Prod.fst).Nodup ∧
        (M.map Prod.snd).Nodup ∧ M.length = st2.pushed) ∧
      (∀ M : List (Nat × Nat),
        (∀ e ∈ M, e ∈ E) → (M.map Prod.fst).Nodup →
        (M.map Prod.snd).Nodup → M.length ≤ st2.pushed) := by
  have hwf := buildGraph_WF n0 E
  have hn : (buildGraph n0 E).getNodes = n0 + 2 := by
    rw [Graph.getNodes, buildGraph_nodes]
  have hcond : ¬ ((0 : Int) < 0 ∨
      ((FFState.mk (buildGraph n0 E) [] [] 0).graph.getNodes : Int) ≤ 0 ∨
      ((n0 : Int) + 1) < 0 ∨
      ((FFState.mk (buildGraph n0 E) [] [] 0).graph.getNodes : Int) ≤
        (n0 : Int) + 1) := by
    dsimp only
    rw [hn]
    push_neg
    refine ⟨le_refl 0, by omega, by omega, by omega⟩
  have htn : ((n0 : Int) + 1).toNat = n0 + 1 := by omega
  have hsf : searchFuel (buildGraph n0 E) =
      (n0 + 2) * (2 * (n0 + 2) + 2) + 2 * (n0 + 2) + 2 := by
    rw [searchFuel, hn]
  rcases phaseLoop_run 0 (n0 + 1) (n0 + 2) (by omega)
      (srcPot (buildGraph n0 E) 0 + 1) (srcPot (buildGraph n0 E) 0 + 1)
      ⟨buildGraph n0 E, [], [], 0⟩ hwf hn (by dsimp only; omega)
      (by dsimp only; omega) with
    ⟨st2, K, hrun, hwf2, hn2, hpush, hpot, hlgF, _⟩
  dsimp only at hpush hpot
  have hIfin : MInv n0 E st2.graph := by
    have hpi := phaseLoop_inv 0 (n0 + 1) (n0 + 2) (fun g _ => MInv n0 E g)
      (fun g p c hI hok => MInv_step n0 E g p hI hok) (by omega)
      (srcPot (buildGraph n0 E) 0 + 1) (srcPot (buildGraph n0 E) 0 + 1)
      ⟨buildGraph n0 E, [], [], 0⟩ hwf hn (by dsimp only; omega)
      (MInv_init n0 E hE)
    rw [hrun] at hpi
    exact hpi
  have hUn : ¬ Reach st2.graph 0 (n0 + 1) :=
    levelGraph_false_not_reach st2.graph 0 (n0 + 1) (by omega)
      (by omega) hlgF
  have hcount := count_matched hE hEnd hIfin
  refine ⟨st2, ?_, ⟨resMatching E st2.graph,
      fun e he => (resMatching_mem.mp he).1,
      resMatching_nodup_fst hE hEnd hIfin,
      resMatching_nodup_snd hE hEnd hIfin, by omega⟩,
    fun M hME hMf hMs => ?_⟩
  · rw [calculateMaxFlow, if_neg hcond]
    show phaseLoop (Int.toNat 0) (((n0 : Int) + 1).toNat)
      (searchFuel (buildGraph n0 E)) _ _ _ = _
    rw [htn, hsf]
    exact hrun
  · have := resMatching_max hE hEnd hIfin hUn M hME hMf hMs
    omega


/-- C1 witness: the size-two partition with the single valid edge
`(1, 2)`; the run returns error-free and pushes exactly the size of a
maximum matching of that bipartite graph. -/
theorem calculateMaxFlow_max_matching_witness :
    EdgesOK 2 [(1, 2)] ∧ ([(1, 2)] : List (Nat × Nat)).Nodup ∧
    (∃ st2 : FFState,
      calculateMaxFlow ⟨buildGraph 2 [(1, 2)], [], [], 0⟩ 0
        (((2 : Nat) : Int) + 1)
        (searchFuel (buildGraph 2 [(1, 2)])) (srcPot (buildGraph 2 [(1, 2)]) 0 + 1)
        (srcPot (buildGraph 2 [(1, 2)]) 0 + 1) = (st2, none) ∧
      (∃ M : List (Nat × Nat),
        (∀ e ∈ M, e ∈ [(1, 2)]) ∧ (M.map Prod.fst).Nodup ∧
        (M.map Prod.snd).Nodup ∧ M.length = st2.pushed) ∧
      (∀ M : List (Nat × Nat),
        (∀ e ∈ M, e ∈ [(1, 2)]) → (M.map Prod.fst).Nodup →
        (M.map Prod.snd).Nodup → M.length ≤ st2.pushed)) := by
  refine ⟨?_, ?_, ?_⟩
  · intro e he
    rw [List.mem_singleton] at he
    subst he
    decide
  · decide
  · exact calculateMaxFlow_max_matching 2 [(1, 2)]
      (fun e he => by
        rw [List.mem_singleton] at he
        subst he
        decide)
      (by decide)


end NetFlow
